import Mathlib

/-!
# Cone detection and logic control of the Kiwi car

A shallow embedding of the two microservices

* `tme290-group7-cone-detection.cpp` (per-frame marker filtering, track reduction,
  centerline pairing, near-point stabilisation and emission of `NearFarPoints`), and
* `tme290-group7-logic-control.cpp` (the `atFrequency` control step),

followed by the properties established about them.

Conventions of the embedding.

* `int` / `int32_t` values are `Int`; `uint32_t` values are `Nat`.  Conversions between
  the two (`toU32`, `toI32`) and unsigned products, sums and differences are reduced
  modulo `2 ^ 32` explicitly wherever the source performs them.
* `float` values are `ℚ`.  The quotient `width/height` of the shape filter is rounded to
  single precision (`roundF32`) and compared with the `double` constants; the other
  float operations are exact rational operations (they are exact in the source for
  values below `2^24`).  Signed overflow is modelled only where stated.
* `std::vector<cv::Point>` is `List Point`.  The loops that erase or swap entries in
  place (`mergeLoop`, `bubbleFor`) follow the loop variable `index`; the exchange sort
  comes with a recursion over the remaining part of the track (`bubbleFrom`) and a proof
  that the two agree.  Loops that only read the track are recursions over its suffix.
* The overlap merge reads the slot behind the last entry of the track, so it runs on a
  `TrackBuffer`: the points held by the allocation of the vector together with its size.
* `sqrt`, `cos` and `sin` come from the C library; the control step takes them as a
  parameter (`Libm`).
-/

namespace ConeDetection

/-- The pixel point `cv::Point` (two `int` coordinates). -/
structure Point where
  x : Int
  y : Int
  deriving DecidableEq, Repr

/-- Conversion `int32_t → uint32_t` (reduction modulo `2 ^ 32`). -/
def toU32 (z : Int) : Nat := (z % 4294967296).toNat

/-- Conversion `uint32_t → int32_t` (two's complement reading of the low 32 bits). -/
def toI32 (n : Nat) : Int :=
  if n % 4294967296 < 2147483648 then ((n % 4294967296 : Nat) : Int)
  else ((n % 4294967296 : Nat) : Int) - 4294967296

/-- The four extreme points kept while scanning a hull (lines 237-240). -/
structure Extremes where
  leftMostPoint : Point
  rightMostPoint : Point
  topPoint : Point
  bottomPoint : Point
  deriving DecidableEq, Repr

/-- Initial values `leftMostPoint(WIDTH,0)`, `rightMostPoint(0,0)`, `topPoint(0,HEIGHT)`,
`bottomPoint(0,0)`. -/
def initExtremes (WIDTH HEIGHT : Nat) : Extremes :=
  { leftMostPoint := ⟨toI32 WIDTH, 0⟩
    rightMostPoint := ⟨0, 0⟩
    topPoint := ⟨0, toI32 HEIGHT⟩
    bottomPoint := ⟨0, 0⟩ }

/-- Body of the scan loop over the hull vertices (lines 243-255): four independent
strict comparisons against the running extremes. -/
def scanPoint (e : Extremes) (point : Point) : Extremes :=
  { leftMostPoint := if point.x < e.leftMostPoint.x then point else e.leftMostPoint
    rightMostPoint := if point.x > e.rightMostPoint.x then point else e.rightMostPoint
    topPoint := if point.y < e.topPoint.y then point else e.topPoint
    bottomPoint := if point.y > e.bottomPoint.y then point else e.bottomPoint }

/-- The scan `for (j = 0; j < hull.size(); j++)` over one hull. -/
def hullExtremes (WIDTH HEIGHT : Nat) (hull : List Point) : Extremes :=
  hull.foldl scanPoint (initExtremes WIDTH HEIGHT)

/-- The float `height = bottomPoint.y - topPoint.y`. -/
def blobHeight (e : Extremes) : ℚ := ((e.bottomPoint.y - e.topPoint.y : Int) : ℚ)

/-- The float `width = rightMostPoint.x - leftMostPoint.x`. -/
def blobWidth (e : Extremes) : ℚ := ((e.rightMostPoint.x - e.leftMostPoint.x : Int) : ℚ)

/-- The float `yMid = (bottomPoint.y + topPoint.y)/2`; the division is the `int` one. -/
def blobYMid (e : Extremes) : ℚ := (((e.bottomPoint.y + e.topPoint.y).tdiv 2 : Int) : ℚ)

/-- The float `xMid = (rightMostPoint.x + leftMostPoint.x)/2`; the division is the `int` one. -/
def blobXMid (e : Extremes) : ℚ := (((e.rightMostPoint.x + e.leftMostPoint.x).tdiv 2 : Int) : ℚ)

/-- The float `area = width*height`. -/
def blobArea (e : Extremes) : ℚ := blobWidth e * blobHeight e

/-- The `uint32_t` expression `WIDTH*HEIGHT/20` that bounds the area. -/
def areaLimit (WIDTH HEIGHT : Nat) : Nat := (WIDTH * HEIGHT % 4294967296) / 20

/-- Rounding of a rational to the nearest integer, ties to the even one. -/
def roundHalfEven (m : ℚ) : Int :=
  if m - (⌊m⌋ : ℚ) < 1 / 2 then ⌊m⌋
  else if m - (⌊m⌋ : ℚ) > 1 / 2 then ⌊m⌋ + 1
  else if ⌊m⌋ % 2 = 0 then ⌊m⌋ else ⌊m⌋ + 1

/-- Rounding to single precision (24-bit significand, round to nearest, ties to even) of
a rational in the normal range of `float`: the result of one `float` operation whose
exact value is `q`.  Quotients of two non-zero 32-bit integers are in that range. -/
def roundF32 (q : ℚ) : ℚ :=
  if q = 0 then 0
  else if 0 < q then
    (roundHalfEven (q / 2 ^ (Int.log 2 q - 23)) : ℚ) * 2 ^ (Int.log 2 q - 23)
  else -((roundHalfEven (-q / 2 ^ (Int.log 2 (-q) - 23)) : ℚ) * 2 ^ (Int.log 2 (-q) - 23))

/-- The `double` constant `0.15` of the ratio tests (`0x3FC3333333333333`). -/
def double015 : ℚ := 5404319552844595 / 36028797018963968

/-- The `double` constant `0.8` of the ratio tests (`0x3FE999999999999A`). -/
def double08 : ℚ := 3602879701896397 / 4503599627370496

/-- Acceptance test of a red (stop) hull, lines 263-264.  `width/height` is a `float`
quotient, promoted to `double` for the comparison with the constants `0.8` and `0.15`.
A zero `height` makes the quotient `0` here and `±inf`/`NaN` in the source; both fail
the test. -/
def redAccept (WIDTH HEIGHT : Nat) (hull : List Point) : Bool :=
  let e := hullExtremes WIDTH HEIGHT hull
  if roundF32 (blobWidth e / blobHeight e) < double08
      ∧ roundF32 (blobWidth e / blobHeight e) > double015 then
    decide (blobArea e > 200 ∧ blobArea e < (areaLimit WIDTH HEIGHT : ℚ)
      ∧ (e.rightMostPoint.y : ℚ) > blobYMid e ∧ (e.leftMostPoint.y : ℚ) > blobYMid e)
  else false

/-- Acceptance test of a blue (right) hull, lines 383-384; `maxYRed` is the `uint32_t`
read from `redTrack[0].y`.  The ratio tests are on the `float` quotient, as for red,
with `>=` for the lower bound. -/
def blueAccept (WIDTH HEIGHT maxYRed : Nat) (hull : List Point) : Bool :=
  let e := hullExtremes WIDTH HEIGHT hull
  if roundF32 (blobWidth e / blobHeight e) < double08
      ∧ roundF32 (blobWidth e / blobHeight e) ≥ double015 then
    decide ((blobYMid e < ((HEIGHT / 4 : Nat) : ℚ) ∨ blobXMid e > ((WIDTH / 2 : Nat) : ℚ))
      ∧ blobArea e > 200 ∧ blobArea e < (areaLimit WIDTH HEIGHT : ℚ)
      ∧ blobYMid e > (maxYRed : ℚ))
  else false

/-- Acceptance test of a yellow (left) hull, lines 480-481; the ratio tests are on the
`float` quotient, as for red. -/
def yellowAccept (WIDTH HEIGHT maxYRed : Nat) (hull : List Point) : Bool :=
  let e := hullExtremes WIDTH HEIGHT hull
  if roundF32 (blobWidth e / blobHeight e) < double08
      ∧ roundF32 (blobWidth e / blobHeight e) > double015 then
    decide ((blobYMid e < ((HEIGHT / 4 : Nat) : ℚ) ∨ blobXMid e < ((WIDTH / 2 : Nat) : ℚ))
      ∧ blobArea e > 200 ∧ blobArea e < (areaLimit WIDTH HEIGHT : ℚ)
      ∧ blobYMid e > (maxYRed : ℚ))
  else false

/-- The constant `overlapTolerance = 25`. -/
def overlapTolerance : Nat := 25

/-- The test on lines 288-289: both coordinate differences are below the tolerance. -/
def overlaps (a b : Point) : Bool :=
  decide ((a.x - b.x).natAbs < overlapTolerance ∧ (a.y - b.y).natAbs < overlapTolerance)

/-- Entry `index` of a track; `(0,0)` stands for a read outside the vector. -/
def entry (track : List Point) (index : Nat) : Point := track.getD index ⟨0, 0⟩

/-- A `std::vector<cv::Point>` together with its storage: `slots` are the points held by
the allocation (as many as the capacity), the first `size` of them are the entries of the
vector.  A track is created with 40 points and only shrinks afterwards, so its allocation
stays the same and a slot behind the end keeps the point last written to it. -/
structure TrackBuffer where
  slots : List Point
  size : Nat
  deriving DecidableEq, Repr

/-- The entries of the vector held by a buffer. -/
def visibleTrack (b : TrackBuffer) : List Point := b.slots.take b.size

/-- The call `track.erase(track.begin() + pos)` of line 290.  For `pos < size` the
entries behind `pos` move one slot down and the slot of the old last entry keeps its
point.  For `pos = size`, the position `end()`, the element-wise move of the library
(`cv::Point` has a user-written copy assignment) finds nothing behind `pos` to move.  In
both cases `erase` takes one off the size. -/
def eraseAt (b : TrackBuffer) (pos : Nat) : TrackBuffer :=
  if pos < b.size then
    ⟨(b.slots.take b.size).eraseIdx pos ++ b.slots.drop (b.size - 1), b.size - 1⟩
  else ⟨b.slots, b.size - 1⟩

/-- The overlap-merge loop, lines 286-292 (and 406-412, 503-509), from the value `index`
of the loop variable on; the first argument bounds the number of iterations left.  Every
iteration with `index < track.size()` compares the slots `index` and `index + 1`, also at
the last index, where slot `index + 1` lies behind the end of the track.  The result is
`none` when that slot is outside the allocation, or when the iterations run out. -/
def mergeLoop : Nat → Nat → TrackBuffer → Option TrackBuffer
  | 0, index, b => if index < b.size then none else some b
  | fuel + 1, index, b =>
    if index < b.size then
      if index + 1 < b.slots.length then
        if overlaps (entry b.slots index) (entry b.slots (index + 1)) = true then
          mergeLoop fuel (index + 1) (eraseAt b (index + 1))
        else mergeLoop fuel (index + 1) b
      else none
    else some b

/-- The overlap-merge step: the loop started at `index = 0`.  The loop variable grows by
one per iteration and the size never grows, so `track.size()` iterations are enough. -/
def mergeOverlaps (b : TrackBuffer) : Option TrackBuffer := mergeLoop b.size 0 b

/-- The inner `for` loop of the exchange sort, lines 298-306, from the value `index` of
the loop variable on, with the running `bubbleSortCounter`; the first argument bounds
the number of iterations left. -/
def bubbleFor : Nat → Nat → List Point → Nat → List Point × Nat
  | 0, _, track, counter => (track, counter)
  | fuel + 1, index, track, counter =>
    if index < track.length - 1 then
      if (entry track index).y < (entry track (index + 1)).y then
        bubbleFor fuel (index + 1)
          ((track.set index (entry track (index + 1))).set (index + 1) (entry track index))
          (counter + 1)
      else bubbleFor fuel (index + 1) track counter
    else (track, counter)

/-- One run of the inner `for` loop from `index = 0` with `bubbleSortCounter = 0`: the
track after it and the counter. -/
def bubblePass (track : List Point) : List Point × Nat := bubbleFor track.length 0 track 0

/-- The inner `for` loop as a recursion over the part of the track behind `index`:
`cur` is the entry currently stored at `index`.  Returns the rewritten part of the track
and the number of swaps made. -/
def bubbleFrom (cur : Point) : List Point → List Point × Nat
  | [] => ([cur], 0)
  | next :: rest =>
    if cur.y < next.y then
      ((next :: (bubbleFrom cur rest).1), (bubbleFrom cur rest).2 + 1)
    else
      ((cur :: (bubbleFrom next rest).1), (bubbleFrom next rest).2)

/-- The `while (!bubbleSortComplete)` loop, lines 296-311, with a bound on the number
of iterations; `none` when the bound is reached before a pass without swaps. -/
def bubbleLoop : Nat → List Point → Option (List Point)
  | 0, _ => none
  | fuel + 1, track =>
    if (bubblePass track).2 = 0 then some (bubblePass track).1
    else bubbleLoop fuel (bubblePass track).1

/-- The exchange sort, lines 294-312: tracks with at most one entry are left alone. -/
def exchangeSort (fuel : Nat) (track : List Point) : Option (List Point) :=
  if track.length > 1 then bubbleLoop fuel track else some track

/-- Number of pairs of positions `i < j` of a track that stand in the wrong order for
the descending order by `y` (`track[i].y < track[j].y`); the measure that bounds the
number of passes of the exchange sort. -/
def inversions : List Point → Nat
  | [] => 0
  | a :: rest => rest.countP (fun b => decide (a.y < b.y)) + inversions rest

/-- Unsigned 32-bit subtraction `a - b`. -/
def subU32 (a b : Nat) : Nat := (a % 4294967296 + (4294967296 - b % 4294967296)) % 4294967296

/-- Unsigned 32-bit addition `a + b`. -/
def addU32 (a b : Nat) : Nat := (a + b) % 4294967296

/-- The value `static_cast<int32_t>(WIDTH/2-1)` of lines 322-323. -/
def centerX (WIDTH : Nat) : Int := toI32 (subU32 (WIDTH / 2) 1)

/-- The value `paramThreshold = - static_cast<int32_t>(WIDTH/6*WIDTH/6)` of line 316; the
unsigned expression groups as `((WIDTH/6)*WIDTH)/6`. -/
def paramThreshold (WIDTH : Nat) : Int := - toI32 ((WIDTH / 6 * WIDTH % 4294967296) / 6)

/-- Result of the crossing search: `meanX`, `meanY` and `findRedConeMatch`. -/
structure CrossingMatch where
  meanX : Nat
  meanY : Nat
  findRedConeMatch : Bool
  deriving DecidableEq, Repr

/-- The crossing search, lines 314-334, over the adjacent pairs of the red track; it
stops (`break`) at the first pair that passes the test. -/
def crossingSearch (WIDTH : Nat) : List Point → CrossingMatch
  | [] => ⟨0, 0, false⟩
  | [_] => ⟨0, 0, false⟩
  | a :: b :: rest =>
    if (a.x - centerX WIDTH) * (b.x - centerX WIDTH) < paramThreshold WIDTH
        ∧ (a.y - b.y).natAbs ≤ 70 then
      ⟨toU32 ((a.x + b.x).tdiv 2), toU32 ((a.y + b.y).tdiv 2), true⟩
    else crossingSearch WIDTH (b :: rest)

/-- The flag `reachCrossRoad`, lines 338-341. -/
def reachCrossRoad (redTrack : List Point) : Bool := decide (redTrack.length > 1)

/-- The midpoint written into `realTrack[index]`: `int` sums halved by `int` division. -/
def midPoint (a b : Point) : Point := ⟨(a.x + b.x).tdiv 2, (a.y + b.y).tdiv 2⟩

/-- The synthesized point `blue(WIDTH-51, HEIGHT/2-51)` of line 544. -/
def defaultBlue (WIDTH HEIGHT : Nat) : Point :=
  ⟨toI32 (subU32 WIDTH 51), toI32 (subU32 (HEIGHT / 2) 51)⟩

/-- The synthesized point `yellow(50, HEIGHT/2-51)` of line 548. -/
def defaultYellow (HEIGHT : Nat) : Point := ⟨50, toI32 (subU32 (HEIGHT / 2) 51)⟩

/-- The value left in `realTrack[index]` by the body of the pairing loop, lines 555-574,
for the tracks `blueTrack`, `yellowTrack` and the count `nPair` as they are when the loop
runs.  An index that no branch writes keeps the initial `(0,0)`. -/
def pairEntry (blueTrack yellowTrack : List Point) (nPair index : Nat) : Point :=
  if index < nPair then
    midPoint (entry blueTrack index) (entry yellowTrack index)
  else if yellowTrack.length > blueTrack.length ∧ yellowTrack.length > 1 then
    if index < yellowTrack.length ∧ nPair ≠ 0 then
      midPoint (entry blueTrack (blueTrack.length - 1)) (entry yellowTrack index)
    else ⟨0, 0⟩
  else if blueTrack.length > 1 ∧ index < blueTrack.length then
    if index < blueTrack.length ∧ nPair ≠ 0 then
      midPoint (entry blueTrack index) (entry yellowTrack (yellowTrack.length - 1))
    else ⟨0, 0⟩
  else ⟨0, 0⟩

/-- The centerline `realTrack` built on lines 539-575 (before the crossing midpoint is
appended): `size` and `nPair` are taken first, then a default point is pushed onto an
empty track when the other one is not empty, then the loop fills `size` entries. -/
def pairTracks (WIDTH HEIGHT : Nat) (yellowTrack blueTrack : List Point) : List Point :=
  let size := max yellowTrack.length blueTrack.length
  let nPair := min yellowTrack.length blueTrack.length
  if nPair = 0 ∧ yellowTrack.length > blueTrack.length then
    (List.range size).map (pairEntry (blueTrack ++ [defaultBlue WIDTH HEIGHT]) yellowTrack 1)
  else if nPair = 0 ∧ blueTrack.length > yellowTrack.length then
    (List.range size).map (pairEntry blueTrack (yellowTrack ++ [defaultYellow HEIGHT]) 1)
  else
    (List.range size).map (pairEntry blueTrack yellowTrack nPair)

/-- Lines 577-579: the crossing midpoint `cv::Point(meanX,meanY)` is appended when the
search found a match. -/
def appendCrossing (realTrack : List Point) (c : CrossingMatch) : List Point :=
  if c.findRedConeMatch then realTrack ++ [⟨toI32 c.meanX, toI32 c.meanY⟩] else realTrack

/-- The initial `previousNearPoint(WIDTH/2-1, HEIGHT/2-1)` of line 102: the `uint32_t`
differences are stored into the `int` fields of the point. -/
def initialNearPoint (WIDTH HEIGHT : Nat) : Point :=
  ⟨toI32 (subU32 (WIDTH / 2) 1), toI32 (subU32 (HEIGHT / 2) 1)⟩

/-- The point stored into `realTrack[0]` by lines 584-587: the `int` sums wrap modulo
`2^32`, and their `int` halves pass through the `uint32_t` variables `newX`, `newY`. -/
def dampedPoint (previousNearPoint raw : Point) : Point :=
  ⟨toI32 (toU32 ((toI32 (toU32 (raw.x + previousNearPoint.x))).tdiv 2)),
   toI32 (toU32 ((toI32 (toU32 (raw.y + previousNearPoint.y))).tdiv 2))⟩

/-- The near-point stabilizer, lines 581-591: returns `realTrack` after the update of
its first entry, and the new `previousNearPoint`. -/
def stabilize (WIDTH : Nat) (previousNearPoint : Point) : List Point → List Point × Point
  | [] => ([], previousNearPoint)
  | raw :: rest =>
    if (previousNearPoint.x - raw.x).natAbs > WIDTH / 25 then
      (dampedPoint previousNearPoint raw :: rest, dampedPoint previousNearPoint raw)
    else (raw :: rest, raw)

/-- The message `opendlv::perception::cognition::NearFarPoints`. -/
structure NearFarPoints where
  nearX : Int
  nearY : Int
  farX : Int
  farY : Int
  reachCrossRoad : Bool
  deriving DecidableEq, Repr

/-- The lateral coordinate `-(p.x-WIDTH/2+1)` of lines 605 and 607, computed in
`uint32_t` and stored into an `int`. -/
def lateral (WIDTH : Nat) (p : Point) : Int :=
  toI32 (subU32 0 (addU32 (subU32 (toU32 p.x) (WIDTH / 2)) 1))

/-- The forward coordinate `(HEIGHT/2-1-p.y)` of lines 606 and 608, computed in
`uint32_t` and stored into an `int`. -/
def forward (HEIGHT : Nat) (p : Point) : Int :=
  toI32 (subU32 (subU32 (HEIGHT / 2) 1) (toU32 p.y))

/-- Last entry of a non-empty vector, `realTrack[realTrack.size()-1]`. -/
def lastEntry (track : List Point) : Point := entry track (track.length - 1)

/-- The emission, lines 598-625: `nx`, `ny`, `fx`, `fy` are sent as `nearX`, `nearY`,
`farX`, `farY`; for more than one centerline point `fy = ny; fx = nx;` replaces the far
coordinates. -/
def emit (WIDTH HEIGHT : Nat) (realTrack : List Point) (reach : Bool) : NearFarPoints :=
  match realTrack with
  | [] => ⟨0, 0, 0, 0, reach⟩
  | nearPoint :: rest =>
    let farPoint := lastEntry (nearPoint :: rest)
    let ny := lateral WIDTH nearPoint
    let nx := forward HEIGHT nearPoint
    let fy := lateral WIDTH farPoint
    let fx := forward HEIGHT farPoint
    let fy := if (nearPoint :: rest).length > 1 then ny else fy
    let fx := if (nearPoint :: rest).length > 1 then nx else fx
    ⟨nx, ny, fx, fy, reach⟩

/-- The centerline of a frame after the crossing midpoint is appended and before the
stabilizer runs (lines 539-579). -/
def centerline (WIDTH HEIGHT : Nat) (redTrack blueTrack yellowTrack : List Point) :
    List Point :=
  appendCrossing (pairTracks WIDTH HEIGHT yellowTrack blueTrack) (crossingSearch WIDTH redTrack)

/-- The part of one loop iteration that follows the track reduction (lines 314-626):
from the three reduced tracks and `previousNearPoint` to the message that is sent and
the new `previousNearPoint`. -/
def processTracks (WIDTH HEIGHT : Nat) (previousNearPoint : Point)
    (redTrack blueTrack yellowTrack : List Point) : NearFarPoints × Point :=
  let s := stabilize WIDTH previousNearPoint (centerline WIDTH HEIGHT redTrack blueTrack yellowTrack)
  (emit WIDTH HEIGHT s.1 (reachCrossRoad redTrack), s.2)

/-- The test of the crossing search on an adjacent pair, line 325. -/
def crossingTest (WIDTH : Nat) (a b : Point) : Prop :=
  (a.x - centerX WIDTH) * (b.x - centerX WIDTH) < paramThreshold WIDTH ∧ (a.y - b.y).natAbs ≤ 70

instance (WIDTH : Nat) (a b : Point) : Decidable (crossingTest WIDTH a b) := by
  unfold crossingTest
  infer_instance

/-- The centroid stored into `track[hIndex]`, lines 265-266: `xMid` and `yMid` are
integer-valued floats, so `std::round` and the cast give back the `int` quotients. -/
def centroid (e : Extremes) : Point :=
  ⟨(e.rightMostPoint.x + e.leftMostPoint.x).tdiv 2, (e.bottomPoint.y + e.topPoint.y).tdiv 2⟩

/-- The variables of the accept loop: `hIndex`, the track of 40 pre-allocated points and
the current `hull.size()`. -/
structure AcceptState where
  hIndex : Nat
  track : List Point
  hullSize : Nat
  deriving DecidableEq, Repr

/-- Body of the accept loop, lines 232-282, for one simplified outline.  `convexHull`
stands for `cv::convexHull`, `accept` for the acceptance test of the class.  An accepted
hull writes its centroid at `hIndex` and advances `hIndex`; a rejected one is erased from
the hull vector, an outline with fewer than 3 or more than 30 vertices pops the last
hull, both shrink `hull.size()` by one. -/
def acceptStep (convexHull : List Point → List Point) (accept : List Point → Bool)
    (WIDTH HEIGHT : Nat) (s : AcceptState) (contour : List Point) : AcceptState :=
  if contour.length ≤ 30 ∧ contour.length ≥ 3 then
    if accept (convexHull contour) = true then
      { hIndex := s.hIndex + 1
        track := s.track.set s.hIndex (centroid (hullExtremes WIDTH HEIGHT (convexHull contour)))
        hullSize := s.hullSize }
    else { s with hullSize := s.hullSize - 1 }
  else { s with hullSize := s.hullSize - 1 }

/-- The accept loop over all simplified outlines, started with `hIndex = 0`, a track of
40 points `(0,0)` and one hull slot per outline (lines 229-231). -/
def acceptLoop (convexHull : List Point → List Point) (accept : List Point → Bool)
    (WIDTH HEIGHT : Nat) (contours : List (List Point)) : AcceptState :=
  contours.foldl (acceptStep convexHull accept WIDTH HEIGHT)
    ⟨0, List.replicate 40 ⟨0, 0⟩, contours.length⟩

/-- The truncation `track.erase(track.begin() + hull.size(), track.begin() + track.size()-1)`
of line 284: the entries at the positions `hull.size()`, ..., `track.size()-2` are
removed. -/
def truncateTrack (track : List Point) (hullSize : Nat) : List Point :=
  track.take hullSize ++ track.drop (track.length - 1)

/-- The track of one class after the accept loop and the truncation, before the merge
and the sort (lines 229-284). -/
def collectTrack (convexHull : List Point → List Point) (accept : List Point → Bool)
    (WIDTH HEIGHT : Nat) (contours : List (List Point)) : List Point :=
  truncateTrack (acceptLoop convexHull accept WIDTH HEIGHT contours).track
    (acceptLoop convexHull accept WIDTH HEIGHT contours).hullSize

/-- The truncation of line 284 on the storage of the track, for `hull.size()` below
`track.size()`: the last entry moves down to position `hull.size()`, the slots behind it
keep their points and the size becomes `hull.size() + 1`. -/
def truncateBuffer (track : List Point) (hullSize : Nat) : TrackBuffer :=
  ⟨track.take hullSize ++ track.drop (track.length - 1) ++ track.drop (hullSize + 1),
    hullSize + 1⟩

/-- The storage and size of the track of one class after the accept loop and the
truncation (lines 229-284), as the merge loop finds it. -/
def collectBuffer (convexHull : List Point → List Point) (accept : List Point → Bool)
    (WIDTH HEIGHT : Nat) (contours : List (List Point)) : TrackBuffer :=
  truncateBuffer (acceptLoop convexHull accept WIDTH HEIGHT contours).track
    (acceptLoop convexHull accept WIDTH HEIGHT contours).hullSize

/-- The outlines whose hull is accepted, in outline order. -/
def acceptedContours (convexHull : List Point → List Point) (accept : List Point → Bool)
    (contours : List (List Point)) : List (List Point) :=
  contours.filter (fun contour =>
    decide (contour.length ≤ 30 ∧ contour.length ≥ 3) && accept (convexHull contour))

/-- The variables `boxX`, `boxY`, `boxW`, `boxH` of `main` (lines 65-68): written by the
handler `onKiwiBoundingBox`, read and written by the frame loop. -/
structure BoxState where
  boxX : Nat
  boxY : Nat
  boxW : Nat
  boxH : Nat
  deriving DecidableEq, Repr

/-- The handler `onKiwiBoundingBox`, lines 85-98: a message with sender stamp `0`
replaces the four variables. -/
def onKiwiBoundingBox (s : BoxState) (senderStamp x y w h : Nat) : BoxState :=
  if senderStamp = 0 then ⟨x % 4294967296, y % 4294967296, w % 4294967296, h % 4294967296⟩
  else s

/-- The ROI adjustment of the frame loop, lines 138-149: `NewboxY` and `NewboxH` are
computed from `boxY`, `boxH`, cropped at zero and assigned to `boxY` and `boxH`. -/
def adjustBox (HEIGHT : Nat) (s : BoxState) : BoxState :=
  let NewboxY : Int := toI32 s.boxY - toI32 (HEIGHT / 2)
  let NewboxH : Int := NewboxY + toI32 s.boxH
  { boxX := s.boxX
    boxY := if NewboxY < 0 then 0 else toU32 NewboxY
    boxW := s.boxW
    boxH := if NewboxH < 0 then 0 else toU32 NewboxH }

/-- The conversion `static_cast<uint32_t>(double)` of a non-negative value. -/
def truncToU32 (q : ℚ) : Nat := toU32 (q.num.tdiv q.den)

/-- The rectangle `cv::Rect` (four `int` fields). -/
structure Rect where
  x : Int
  y : Int
  width : Int
  height : Int
  deriving DecidableEq, Repr

/-- The region set to black on lines 150-151, from the variables as they are after the
ROI adjustment. -/
def obstacleRegion (s : BoxState) : Rect :=
  { x := toI32 (truncToU32 ((s.boxX : ℚ) + 0.25 * (s.boxW : ℚ)))
    y := toI32 s.boxY
    width := toI32 (truncToU32 (0.5 * (s.boxW : ℚ)))
    height := toI32 (truncToU32 (0.7 * (s.boxH : ℚ))) }

/-- The obstacle part of one iteration of the frame loop: the variables after the
iteration and the region that the iteration sets to black. -/
def frameBox (HEIGHT : Nat) (s : BoxState) : BoxState × Rect :=
  (adjustBox HEIGHT s, obstacleRegion (adjustBox HEIGHT s))

end ConeDetection

namespace LogicControl

open ConeDetection (NearFarPoints subU32 addU32)

/-- The C library functions used by the control step, on the rational stand-in for
`float`. -/
structure Libm where
  sqrt : ℚ → ℚ
  cos : ℚ → ℚ
  sin : ℚ → ℚ

/-- The message `opendlv::perception::KiwiBoundingBox` as the control step reads it:
the box and image fields go into `uint32_t` variables, `nBox` is compared with `0`. -/
structure KiwiBoundingBox where
  x : Nat
  y : Nat
  w : Nat
  h : Nat
  imageWidth : Nat
  imageHeight : Nat
  nBox : Nat
  deriving DecidableEq, Repr

/-- The fields of `struct Data` that the control step carries from tick to tick; the
requests are kept by their single float field. -/
structure Data where
  previousCrossProduct : ℚ
  previousNearX : Int
  previousNearY : Int
  previousGroundSteeringRequest : ℚ
  previousPedalPositionRequest : ℚ

/-- The value-initialised `Data data;`. -/
def initData : Data := ⟨0, 0, 0, 0, 0⟩

/-- The two requests sent by one tick. -/
structure Commands where
  groundSteering : ℚ
  pedalPosition : ℚ

/-- The conversion `static_cast<int32_t>(float)`: truncation toward zero. -/
def truncToInt (q : ℚ) : Int := q.num.tdiv q.den

/-- Lines 118-127: the blended near coordinates `(nearX, nearY)`. -/
def blendNear (m : Libm) (data : Data) (nf : NearFarPoints) : Int × Int :=
  let ks : ℚ := 600
  let ka : ℚ := 1
  let motionVectorLength := ks * data.previousPedalPositionRequest
  let motionVectorAngle := ka * data.previousGroundSteeringRequest
  let predictedNearX := data.previousNearX - truncToInt (motionVectorLength * m.cos motionVectorAngle)
  let predictedNearY := data.previousNearY - truncToInt (motionVectorLength * m.sin motionVectorAngle)
  let g : ℚ := 0.65
  (truncToInt (g * (nf.nearX : ℚ) + (1 - g) * (predictedNearX : ℚ)),
   truncToInt (g * (nf.nearY : ℚ) + (1 - g) * (predictedNearY : ℚ)))

/-- Lines 137-138: `desiredVectorX`, `desiredVectorY`; the halving is the `int` one. -/
def desiredVector (nearX nearY farX farY : Int) : ℚ × ℚ :=
  ((((farX + 2 * nearX).tdiv 2 : Int) : ℚ), (((farY + 2 * nearY).tdiv 2 : Int) : ℚ))

/-- Lines 139-144: `desiredVectorLength`, replaced by `1.0` when below `0.01`. -/
def desiredVectorLength (m : Libm) (v : ℚ × ℚ) : ℚ :=
  if m.sqrt (v.1 * v.1 + v.2 * v.2) < 0.01 then 1 else m.sqrt (v.1 * v.1 + v.2 * v.2)

/-- Line 146: `crossProductZ`. -/
def crossProductZ (m : Libm) (v : ℚ × ℚ) : ℚ :=
  1 * v.2 / desiredVectorLength m v - 0 * v.1 / desiredVectorLength m v

/-- Line 147: `dotProductZ`. -/
def dotProductZ (m : Libm) (v : ℚ × ℚ) : ℚ :=
  1 * v.1 / desiredVectorLength m v - 0 * v.2 / desiredVectorLength m v

/-- Lines 152-160: the lateral control law, for the blended `nearX`. -/
def lateralControl (farX nearX : Int) (crossProductZ dotProductZ previousCrossProduct : ℚ) : ℚ :=
  let kp : ℚ := 0.20
  let kd : ℚ := 0.05
  if farX = 0 ∧ nearX = 0 then 0
  else if dotProductZ < 0 then
    kp * (if crossProductZ < 0 then -1 else 1) + kd * (crossProductZ - previousCrossProduct)
  else kp * crossProductZ + kd * (crossProductZ - previousCrossProduct)

/-- Line 164: the base throttle. -/
def baseThrottle (groundSteeringAngle : ℚ) : ℚ :=
  0.10 * (1 - (if groundSteeringAngle < 0 then -1 else 1) * groundSteeringAngle)

/-- Lines 167-190: the longitudinal control applied to the base throttle.  A zero
`imgSize` makes the quotient `boxSize/maxKiwiSizeAllowed` equal to `0` here, `inf` or
`NaN` in the source. -/
def longitudinalControl (box : KiwiBoundingBox) (reachCrossRoad : Bool) (crossProductZ : ℚ)
    (pedalPosition : ℚ) : ℚ :=
  if box.nBox > 0 then
    let boxSize : ℚ := ((box.w * box.h % 4294967296 : Nat) : ℚ)
    let imgSize : ℚ := ((box.imageWidth * box.imageHeight % 4294967296 : Nat) : ℚ)
    let maxKiwiSizeAllowed : ℚ := imgSize / 10
    let p1 : ℚ :=
      if boxSize > imgSize / 100 ∧ |crossProductZ| < 0.15 then
        0.2 * (1 - boxSize / maxKiwiSizeAllowed)
      else pedalPosition
    let p2 : ℚ := if reachCrossRoad = true ∧ p1 > 0.04 then 0.04 else p1
    if box.y ≠ subU32 box.imageHeight 1 ∧ reachCrossRoad = true
        ∧ addU32 box.x box.w > subU32 (box.imageWidth / 2) 1 ∧ boxSize > imgSize / 20 then 0
    else p2
  else pedalPosition

/-- The control step `atFrequency`, lines 108-209, on the snapshot `nf`, `box` of the
latest messages: the new `Data` and the commands sent. -/
def atFrequency (m : Libm) (data : Data) (nf : NearFarPoints) (box : KiwiBoundingBox) :
    Data × Commands :=
  let near := blendNear m data nf
  let v := desiredVector near.1 near.2 nf.farX nf.farY
  let c := crossProductZ m v
  let d := dotProductZ m v
  let groundSteeringAngle := lateralControl nf.farX near.1 c d data.previousCrossProduct
  let pedalPosition :=
    longitudinalControl box nf.reachCrossRoad c (baseThrottle groundSteeringAngle)
  ({ previousCrossProduct := c
     previousNearX := near.1
     previousNearY := near.2
     previousGroundSteeringRequest := groundSteeringAngle
     previousPedalPositionRequest := pedalPosition },
   ⟨groundSteeringAngle, pedalPosition⟩)

/-- Lines 177-183: the pedal position after the obstacle speed control, for a message
with `nBox > 0`. -/
def kiwiSpeedControl (box : KiwiBoundingBox) (crossProductZ pedalPosition : ℚ) : ℚ :=
  let boxSize : ℚ := ((box.w * box.h % 4294967296 : Nat) : ℚ)
  let imgSize : ℚ := ((box.imageWidth * box.imageHeight % 4294967296 : Nat) : ℚ)
  let maxKiwiSizeAllowed : ℚ := imgSize / 10
  if boxSize > imgSize / 100 ∧ |crossProductZ| < 0.15 then
    0.2 * (1 - boxSize / maxKiwiSizeAllowed)
  else pedalPosition

/-- A stand-in for the C library that is exact where the results are rational: the
square root of the squares of rationals, `cos 0 = 1` and `sin 0 = 0`; elsewhere it is
the integer square root of numerator and denominator and the leading terms of the
power series. -/
def sampleLibm : Libm :=
  { sqrt := fun q => ((Nat.sqrt q.num.toNat : Nat) : ℚ) / ((Nat.sqrt q.den : Nat) : ℚ)
    cos := fun a => 1 - a * a / 2
    sin := fun a => a - a * a * a / 6 }

end LogicControl

/-! ## Properties of the cone detection -/

namespace ConeDetection

/-! ### Single precision rounding -/

theorem roundHalfEven_le (m : ℚ) (k : Int) (h : m < (k : ℚ) + 1 / 2) : roundHalfEven m ≤ k := by
  have hf : (⌊m⌋ : ℚ) ≤ m := Int.floor_le m
  have hfk : ⌊m⌋ ≤ k := by
    have : (⌊m⌋ : ℚ) < (k : ℚ) + 1 := by linarith
    have : ⌊m⌋ < k + 1 := by exact_mod_cast this
    omega
  unfold roundHalfEven
  rcases eq_or_lt_of_le hfk with heq | hlt
  · have : m - (⌊m⌋ : ℚ) < 1 / 2 := by rw [heq]; linarith
    rw [if_pos this, heq]
  · split_ifs <;> omega

theorem roundHalfEven_ge (m : ℚ) (k : Int) (h : (k : ℚ) + 1 / 2 < m) :
    k + 1 ≤ roundHalfEven m := by
  have hf : m < (⌊m⌋ : ℚ) + 1 := Int.lt_floor_add_one m
  have hfk : k ≤ ⌊m⌋ := by
    have : (k : ℚ) < (⌊m⌋ : ℚ) + 1 := by linarith
    have : k < ⌊m⌋ + 1 := by exact_mod_cast this
    omega
  unfold roundHalfEven
  rcases eq_or_lt_of_le hfk with heq | hlt
  · have h1 : ¬ m - (⌊m⌋ : ℚ) < 1 / 2 := by rw [← heq]; linarith
    have h2 : m - (⌊m⌋ : ℚ) > 1 / 2 := by rw [← heq]; linarith
    rw [if_neg h1, if_pos h2, heq]
  · split_ifs <;> omega

theorem roundHalfEven_ge_int (m : ℚ) (k : Int) (h : (k : ℚ) ≤ m) : k ≤ roundHalfEven m := by
  have hfk : k ≤ ⌊m⌋ := Int.le_floor.mpr h
  unfold roundHalfEven
  split_ifs <;> omega

theorem roundHalfEven_le_int (m : ℚ) (k : Int) (h : m ≤ (k : ℚ)) : roundHalfEven m ≤ k :=
  roundHalfEven_le m k (by linarith)

theorem roundF32_pos (q : ℚ) (e : Int) (h1 : (2 : ℚ) ^ e ≤ q) (h2 : q < (2 : ℚ) ^ (e + 1)) :
    roundF32 q = (roundHalfEven (q / 2 ^ (e - 23)) : ℚ) * 2 ^ (e - 23) := by
  have hq : 0 < q := lt_of_lt_of_le (by positivity) h1
  have hlog : Int.log 2 q = e := by
    have ha : e ≤ Int.log 2 q := (Int.zpow_le_iff_le_log (by norm_num) hq).mp (by exact_mod_cast h1)
    have hb : Int.log 2 q < e + 1 :=
      (Int.lt_zpow_iff_log_lt (by norm_num) hq).mp (by exact_mod_cast h2)
    omega
  unfold roundF32
  rw [if_neg (ne_of_gt hq), if_pos hq, hlog]

theorem roundF32_half : roundF32 (1 / 2) = 1 / 2 := by
  rw [roundF32_pos (1 / 2) (-1) (by norm_num) (by norm_num)]
  have hm : (1 / 2 : ℚ) / 2 ^ ((-1 : Int) - 23) = ((8388608 : Int) : ℚ) := by norm_num
  have hr : roundHalfEven ((8388608 : Int) : ℚ) = 8388608 :=
    le_antisymm (roundHalfEven_le_int _ _ le_rfl) (roundHalfEven_ge_int _ _ le_rfl)
  rw [hm, hr]
  norm_num

theorem roundF32_three_twentieths : roundF32 (3 / 20) = 10066330 / 67108864 := by
  rw [roundF32_pos (3 / 20) (-3) (by norm_num) (by norm_num)]
  have hr : roundHalfEven ((3 / 20 : ℚ) / 2 ^ ((-3 : Int) - 23)) = 10066330 := by
    apply le_antisymm
    · exact roundHalfEven_le_int _ _ (by norm_num)
    · exact roundHalfEven_ge _ 10066329 (by norm_num)
  rw [hr]
  norm_num

theorem roundF32_ge_pow (q : ℚ) (e : Int) (h1 : (2 : ℚ) ^ e ≤ q) (h2 : q < (2 : ℚ) ^ (e + 1)) :
    (2 : ℚ) ^ e ≤ roundF32 q := by
  rw [roundF32_pos q e h1 h2]
  have hu : (0 : ℚ) < 2 ^ (e - 23) := by positivity
  have he : (2 : ℚ) ^ e = ((8388608 : Int) : ℚ) * 2 ^ (e - 23) := by
    have : (2 : ℚ) ^ e = 2 ^ (23 : Int) * 2 ^ (e - 23) := by
      rw [← zpow_add₀ (by norm_num : (2 : ℚ) ≠ 0)]; congr 1; ring
    rw [this]; norm_num
  have hm : ((8388608 : Int) : ℚ) ≤ q / 2 ^ (e - 23) := by
    rw [le_div_iff₀ hu, ← he]; exact h1
  have hr : (8388608 : Int) ≤ roundHalfEven (q / 2 ^ (e - 23)) := roundHalfEven_ge_int _ _ hm
  rw [he]
  exact mul_le_mul_of_nonneg_right (by exact_mod_cast hr) hu.le

theorem roundF32_le_pow (q : ℚ) (e : Int) (h1 : (2 : ℚ) ^ e ≤ q) (h2 : q < (2 : ℚ) ^ (e + 1)) :
    roundF32 q ≤ (2 : ℚ) ^ (e + 1) := by
  rw [roundF32_pos q e h1 h2]
  have hu : (0 : ℚ) < 2 ^ (e - 23) := by positivity
  have he : (2 : ℚ) ^ (e + 1) = ((16777216 : Int) : ℚ) * 2 ^ (e - 23) := by
    have : (2 : ℚ) ^ (e + 1) = 2 ^ (24 : Int) * 2 ^ (e - 23) := by
      rw [← zpow_add₀ (by norm_num : (2 : ℚ) ≠ 0)]; congr 1; ring
    rw [this]; norm_num
  have hm : q / 2 ^ (e - 23) ≤ ((16777216 : Int) : ℚ) := by
    rw [div_le_iff₀ hu, ← he]; exact h2.le
  have hr : roundHalfEven (q / 2 ^ (e - 23)) ≤ (16777216 : Int) := roundHalfEven_le_int _ _ hm
  rw [he]
  exact mul_le_mul_of_nonneg_right (by exact_mod_cast hr) hu.le

theorem roundF32_nonpos (q : ℚ) (h : q ≤ 0) : roundF32 q ≤ 0 := by
  unfold roundF32
  rcases eq_or_lt_of_le h with h0 | hneg
  · rw [if_pos h0]
  · rw [if_neg (ne_of_lt hneg), if_neg (not_lt.mpr h)]
    have hu : (0 : ℚ) < 2 ^ (Int.log 2 (-q) - 23) := by positivity
    have hm : ((0 : Int) : ℚ) ≤ -q / 2 ^ (Int.log 2 (-q) - 23) := by
      have : (0 : ℚ) ≤ -q / 2 ^ (Int.log 2 (-q) - 23) := div_nonneg (by linarith) hu.le
      simpa using this
    have hr : (0 : Int) ≤ roundHalfEven (-q / 2 ^ (Int.log 2 (-q) - 23)) :=
      roundHalfEven_ge_int _ _ hm
    have : (0 : ℚ) ≤ (roundHalfEven (-q / 2 ^ (Int.log 2 (-q) - 23)) : ℚ)
        * 2 ^ (Int.log 2 (-q) - 23) := mul_nonneg (by exact_mod_cast hr) hu.le
    linarith

/-- A quotient that passes the test `< 0.8` (against the double constant) is below
`4/5`. -/
theorem lt_of_roundF32_lt_double08 (q : ℚ) (h : roundF32 q < double08) : q < 4 / 5 := by
  by_contra hge
  have hq : (4 : ℚ) / 5 ≤ q := not_lt.mp hge
  have hpos : 0 < q := by linarith
  have h1 := Int.zpow_log_le_self (b := 2) (by norm_num) hpos
  have h2 := Int.lt_zpow_succ_log_self (b := 2) (by norm_num) q
  have h1' : (2 : ℚ) ^ Int.log 2 q ≤ q := by exact_mod_cast h1
  have h2' : q < (2 : ℚ) ^ (Int.log 2 q + 1) := by exact_mod_cast h2
  rcases lt_or_le q 1 with hlt | hge1
  · have he : Int.log 2 q = -1 := by
      have ha : (-1 : Int) ≤ Int.log 2 q :=
        (Int.zpow_le_iff_le_log (by norm_num) hpos).mp (by norm_num; linarith)
      have hb : Int.log 2 q < 0 :=
        (Int.lt_zpow_iff_log_lt (by norm_num) hpos).mp (by simpa using hlt)
      omega
    rw [he] at h1' h2'
    rw [roundF32_pos q (-1) h1' h2'] at h
    have hr : (13421772 : Int) + 1 ≤ roundHalfEven (q / 2 ^ ((-1 : Int) - 23)) := by
      apply roundHalfEven_ge
      norm_num
      linarith
    have hr' : ((13421773 : Int) : ℚ) ≤ (roundHalfEven (q / 2 ^ ((-1 : Int) - 23)) : ℚ) := by
      exact_mod_cast hr
    have : ((13421773 : Int) : ℚ) * 2 ^ ((-1 : Int) - 23)
        ≤ (roundHalfEven (q / 2 ^ ((-1 : Int) - 23)) : ℚ) * 2 ^ ((-1 : Int) - 23) :=
      mul_le_mul_of_nonneg_right hr' (by positivity)
    have hc : double08 < ((13421773 : Int) : ℚ) * 2 ^ ((-1 : Int) - 23) := by
      norm_num [double08]
    exact absurd h (not_lt.mpr (le_trans hc.le this))
  · have he : 0 ≤ Int.log 2 q :=
      (Int.zpow_le_iff_le_log (by norm_num) hpos).mp (by simpa using hge1)
    have hge := roundF32_ge_pow q _ h1' h2'
    have h20 : (1 : ℚ) ≤ 2 ^ Int.log 2 q := one_le_zpow₀ (by norm_num) he
    have hc : double08 < 1 := by norm_num [double08]
    exact absurd h (not_lt.mpr (le_trans hc.le (le_trans h20 hge)))

/-- A quotient of two integers, the divisor below `2^25` in absolute value, that is
below `3/20` is rounded below the double constant `0.15`. -/
theorem roundF32_lt_double015 (w h : Int) (hh : |h| < 33554432)
    (hq : (w : ℚ) / (h : ℚ) < 3 / 20) : roundF32 ((w : ℚ) / (h : ℚ)) < double015 := by
  have hd : (0 : ℚ) < double015 := by norm_num [double015]
  rcases le_or_lt ((w : ℚ) / (h : ℚ)) 0 with hnp | hpos
  · exact lt_of_le_of_lt (roundF32_nonpos _ hnp) hd
  · have h1 := Int.zpow_log_le_self (b := 2) (by norm_num) hpos
    have h2 := Int.lt_zpow_succ_log_self (b := 2) (by norm_num) ((w : ℚ) / (h : ℚ))
    have h1' : (2 : ℚ) ^ Int.log 2 ((w : ℚ) / (h : ℚ)) ≤ (w : ℚ) / (h : ℚ) := by
      exact_mod_cast h1
    have h2' : (w : ℚ) / (h : ℚ) < (2 : ℚ) ^ (Int.log 2 ((w : ℚ) / (h : ℚ)) + 1) := by
      exact_mod_cast h2
    rcases lt_or_le ((w : ℚ) / (h : ℚ)) (1 / 8) with hsmall | hbig
    · have he : Int.log 2 ((w : ℚ) / (h : ℚ)) < -3 :=
        (Int.lt_zpow_iff_log_lt (by norm_num) hpos).mp (by norm_num; linarith)
      have hle := roundF32_le_pow _ _ h1' h2'
      have hp : (2 : ℚ) ^ (Int.log 2 ((w : ℚ) / (h : ℚ)) + 1) ≤ 2 ^ (-3 : Int) :=
        zpow_le_zpow_right₀ (by norm_num) (by omega)
      have hc : (2 : ℚ) ^ (-3 : Int) < double015 := by norm_num [double015]
      exact lt_of_le_of_lt (le_trans hle hp) hc
    · have he : Int.log 2 ((w : ℚ) / (h : ℚ)) = -3 := by
        have ha : (-3 : Int) ≤ Int.log 2 ((w : ℚ) / (h : ℚ)) :=
          (Int.zpow_le_iff_le_log (by norm_num) hpos).mp (by norm_num; linarith)
        have hb : Int.log 2 ((w : ℚ) / (h : ℚ)) < -2 :=
          (Int.lt_zpow_iff_log_lt (by norm_num) hpos).mp (by norm_num; linarith)
        omega
      rw [he] at h1' h2'
      rw [roundF32_pos _ (-3) h1' h2']
      -- the quotient is at least 1/(20|h|) below 3/20
      have hh0 : h ≠ 0 := by
        rintro rfl
        simp at hpos
      have habs := abs_lt.mp hh
      have hgap : (w : ℚ) / (h : ℚ) < 20132659 / 134217728 := by
        rcases lt_or_gt_of_ne hh0 with hneg | hp
        · have hhq : (h : ℚ) < 0 := by exact_mod_cast hneg
          have e1 : (3 : ℚ) / 20 * (h : ℚ) < (w : ℚ) := (div_lt_iff_of_neg hhq).mp hq
          have e2 : (3 * h : ℚ) < 20 * w := by linarith
          have e3 : 3 * h < 20 * w := by exact_mod_cast e2
          have e4 : 3 * h + 1 ≤ 20 * w := by omega
          have e5 : (3 * h + 1 : ℚ) ≤ 20 * w := by exact_mod_cast e4
          have hb : (-33554432 : ℚ) < (h : ℚ) := by exact_mod_cast habs.1
          rw [div_lt_iff_of_neg hhq]
          nlinarith
        · have hhq : (0 : ℚ) < (h : ℚ) := by exact_mod_cast hp
          have e1 : (w : ℚ) < 3 / 20 * (h : ℚ) := (div_lt_iff₀ hhq).mp hq
          have e2 : (20 * w : ℚ) < 3 * h := by linarith
          have e3 : 20 * w < 3 * h := by exact_mod_cast e2
          have e4 : 20 * w + 1 ≤ 3 * h := by omega
          have e5 : (20 * w + 1 : ℚ) ≤ 3 * h := by exact_mod_cast e4
          have hb : (h : ℚ) < 33554432 := by exact_mod_cast habs.2
          rw [div_lt_iff₀ hhq]
          nlinarith
      have hr : roundHalfEven ((w : ℚ) / (h : ℚ) / 2 ^ ((-3 : Int) - 23)) ≤ 10066329 := by
        apply roundHalfEven_le
        have hz : (2 : ℚ) ^ ((-3 : Int) - 23) = 1 / 67108864 := by norm_num
        rw [hz, div_div_eq_mul_div, div_one]
        have : ((10066329 : Int) : ℚ) = 10066329 := by norm_num
        rw [this]
        linarith
      have hr' : (roundHalfEven ((w : ℚ) / (h : ℚ) / 2 ^ ((-3 : Int) - 23)) : ℚ)
          ≤ ((10066329 : Int) : ℚ) := by exact_mod_cast hr
      have : (roundHalfEven ((w : ℚ) / (h : ℚ) / 2 ^ ((-3 : Int) - 23)) : ℚ)
          * 2 ^ ((-3 : Int) - 23) ≤ ((10066329 : Int) : ℚ) * 2 ^ ((-3 : Int) - 23) :=
        mul_le_mul_of_nonneg_right hr' (by positivity)
      have hc : ((10066329 : Int) : ℚ) * 2 ^ ((-3 : Int) - 23) < double015 := by
        norm_num [double015]
      exact lt_of_le_of_lt this hc

/-- A single precision value that passes the test `>= 0.15` (against the double
constant) is above `3/20`: no such value lies between the two. -/
theorem roundF32_gt_three_twentieths (q : ℚ) (h : roundF32 q ≥ double015) :
    roundF32 q > 3 / 20 := by
  have hd : (0 : ℚ) < double015 := by norm_num [double015]
  have hpos : 0 < q := by
    by_contra hn
    have := roundF32_nonpos q (not_lt.mp hn)
    linarith
  have h1 := Int.zpow_log_le_self (b := 2) (by norm_num) hpos
  have h2 := Int.lt_zpow_succ_log_self (b := 2) (by norm_num) q
  have h1' : (2 : ℚ) ^ Int.log 2 q ≤ q := by exact_mod_cast h1
  have h2' : q < (2 : ℚ) ^ (Int.log 2 q + 1) := by exact_mod_cast h2
  rcases lt_or_le q (1 / 8) with hsmall | hbig
  · have he : Int.log 2 q < -3 :=
      (Int.lt_zpow_iff_log_lt (by norm_num) hpos).mp (by norm_num; linarith)
    have hle := roundF32_le_pow _ _ h1' h2'
    have hp : (2 : ℚ) ^ (Int.log 2 q + 1) ≤ 2 ^ (-3 : Int) :=
      zpow_le_zpow_right₀ (by norm_num) (by omega)
    have hc : (2 : ℚ) ^ (-3 : Int) < double015 := by norm_num [double015]
    exact absurd h (not_le.mpr (lt_of_le_of_lt (le_trans hle hp) hc))
  · rcases lt_or_le q (1 / 4) with hmid | hlarge
    · have he : Int.log 2 q = -3 := by
        have ha : (-3 : Int) ≤ Int.log 2 q :=
          (Int.zpow_le_iff_le_log (by norm_num) hpos).mp (by norm_num; linarith)
        have hb : Int.log 2 q < -2 :=
          (Int.lt_zpow_iff_log_lt (by norm_num) hpos).mp (by norm_num; linarith)
        omega
      rw [he] at h1' h2'
      rw [roundF32_pos _ (-3) h1' h2'] at h ⊢
      have hn : (10066330 : Int) ≤ roundHalfEven (q / 2 ^ ((-3 : Int) - 23)) := by
        by_contra hlt
        have hle : roundHalfEven (q / 2 ^ ((-3 : Int) - 23)) ≤ 10066329 := by omega
        have hle' : (roundHalfEven (q / 2 ^ ((-3 : Int) - 23)) : ℚ)
            ≤ ((10066329 : Int) : ℚ) := by exact_mod_cast hle
        have : (roundHalfEven (q / 2 ^ ((-3 : Int) - 23)) : ℚ) * 2 ^ ((-3 : Int) - 23)
            ≤ ((10066329 : Int) : ℚ) * 2 ^ ((-3 : Int) - 23) :=
          mul_le_mul_of_nonneg_right hle' (by positivity)
        have hc : ((10066329 : Int) : ℚ) * 2 ^ ((-3 : Int) - 23) < double015 := by
          norm_num [double015]
        exact absurd h (not_le.mpr (lt_of_le_of_lt this hc))
      have hn' : ((10066330 : Int) : ℚ) ≤ (roundHalfEven (q / 2 ^ ((-3 : Int) - 23)) : ℚ) := by
        exact_mod_cast hn
      have : ((10066330 : Int) : ℚ) * 2 ^ ((-3 : Int) - 23)
          ≤ (roundHalfEven (q / 2 ^ ((-3 : Int) - 23)) : ℚ) * 2 ^ ((-3 : Int) - 23) :=
        mul_le_mul_of_nonneg_right hn' (by positivity)
      have hc : (3 : ℚ) / 20 < ((10066330 : Int) : ℚ) * 2 ^ ((-3 : Int) - 23) := by
        norm_num
      exact lt_of_lt_of_le hc this
    · have he : -2 ≤ Int.log 2 q :=
        (Int.zpow_le_iff_le_log (by norm_num) hpos).mp (by norm_num; linarith)
      have hge := roundF32_ge_pow q _ h1' h2'
      have hp : (2 : ℚ) ^ (-2 : Int) ≤ 2 ^ Int.log 2 q :=
        zpow_le_zpow_right₀ (by norm_num) he
      have hc : (3 : ℚ) / 20 < 2 ^ (-2 : Int) := by norm_num
      exact lt_of_lt_of_le hc (le_trans hp hge)

/-- A single precision value that passes the test `< 0.8` (against the double constant)
is below `4/5`: no such value lies between the two. -/
theorem roundF32_lt_four_fifths (q : ℚ) (h : roundF32 q < double08) : roundF32 q < 4 / 5 := by
  have hq := lt_of_roundF32_lt_double08 q h
  rcases le_or_lt q 0 with hnp | hpos
  · exact lt_of_le_of_lt (roundF32_nonpos q hnp) (by norm_num)
  · have h1 := Int.zpow_log_le_self (b := 2) (by norm_num) hpos
    have h2 := Int.lt_zpow_succ_log_self (b := 2) (by norm_num) q
    have h1' : (2 : ℚ) ^ Int.log 2 q ≤ q := by exact_mod_cast h1
    have h2' : q < (2 : ℚ) ^ (Int.log 2 q + 1) := by exact_mod_cast h2
    rcases lt_or_le q (1 / 2) with hsmall | hbig
    · have he : Int.log 2 q < -1 :=
        (Int.lt_zpow_iff_log_lt (by norm_num) hpos).mp (by norm_num; linarith)
      have hle := roundF32_le_pow _ _ h1' h2'
      have hp : (2 : ℚ) ^ (Int.log 2 q + 1) ≤ 2 ^ (-1 : Int) :=
        zpow_le_zpow_right₀ (by norm_num) (by omega)
      have hc : (2 : ℚ) ^ (-1 : Int) < 4 / 5 := by norm_num
      exact lt_of_le_of_lt (le_trans hle hp) hc
    · have he : Int.log 2 q = -1 := by
        have ha : (-1 : Int) ≤ Int.log 2 q :=
          (Int.zpow_le_iff_le_log (by norm_num) hpos).mp (by norm_num; linarith)
        have hb : Int.log 2 q < 0 :=
          (Int.lt_zpow_iff_log_lt (by norm_num) hpos).mp (by norm_num; linarith)
        omega
      rw [he] at h1' h2'
      rw [roundF32_pos _ (-1) h1' h2'] at h ⊢
      have hn : roundHalfEven (q / 2 ^ ((-1 : Int) - 23)) ≤ (13421772 : Int) := by
        by_contra hlt
        have hge : (13421773 : Int) ≤ roundHalfEven (q / 2 ^ ((-1 : Int) - 23)) := by omega
        have hge' : ((13421773 : Int) : ℚ)
            ≤ (roundHalfEven (q / 2 ^ ((-1 : Int) - 23)) : ℚ) := by exact_mod_cast hge
        have : ((13421773 : Int) : ℚ) * 2 ^ ((-1 : Int) - 23)
            ≤ (roundHalfEven (q / 2 ^ ((-1 : Int) - 23)) : ℚ) * 2 ^ ((-1 : Int) - 23) :=
          mul_le_mul_of_nonneg_right hge' (by positivity)
        have hc : double08 < ((13421773 : Int) : ℚ) * 2 ^ ((-1 : Int) - 23) := by
          norm_num [double08]
        exact absurd h (not_lt.mpr (le_trans hc.le this))
      have hn' : (roundHalfEven (q / 2 ^ ((-1 : Int) - 23)) : ℚ) ≤ ((13421772 : Int) : ℚ) := by
        exact_mod_cast hn
      have : (roundHalfEven (q / 2 ^ ((-1 : Int) - 23)) : ℚ) * 2 ^ ((-1 : Int) - 23)
          ≤ ((13421772 : Int) : ℚ) * 2 ^ ((-1 : Int) - 23) :=
        mul_le_mul_of_nonneg_right hn' (by positivity)
      have hc : ((13421772 : Int) : ℚ) * 2 ^ ((-1 : Int) - 23) < 4 / 5 := by norm_num
      exact lt_of_le_of_lt this hc

/-! ### Shape filter -/

theorem areaLimit_le (WIDTH HEIGHT : Nat) :
    (areaLimit WIDTH HEIGHT : ℚ) ≤ ((WIDTH * HEIGHT / 20 : Nat) : ℚ) := by
  unfold areaLimit
  exact_mod_cast Nat.div_le_div_right (Nat.mod_le _ _)

/-- When the rounded quotient `width/height` passes the two ratio tests (with `>=` or
with `>` for the lower one) and the height is below `2^24` in absolute value, the exact
quotient lies in `[3/20, 4/5)`. -/
theorem ratio_bounds_of_rounded (e : Extremes)
    (hh : -16777216 < e.bottomPoint.y - e.topPoint.y
      ∧ e.bottomPoint.y - e.topPoint.y < 16777216)
    (h1 : roundF32 (blobWidth e / blobHeight e) < double08)
    (h2 : roundF32 (blobWidth e / blobHeight e) ≥ double015) :
    (3 / 20 : ℚ) ≤ blobWidth e / blobHeight e ∧ blobWidth e / blobHeight e < 4 / 5 := by
  refine ⟨?_, lt_of_roundF32_lt_double08 _ h1⟩
  by_contra hlt
  have habs : |e.bottomPoint.y - e.topPoint.y| < 33554432 := by
    rw [abs_lt]; omega
  have := roundF32_lt_double015 (e.rightMostPoint.x - e.leftMostPoint.x)
    (e.bottomPoint.y - e.topPoint.y) habs (not_le.mp hlt)
  exact absurd h2 (not_le.mpr this)

theorem redAccept_iff (WIDTH HEIGHT : Nat) (hull : List Point) :
    redAccept WIDTH HEIGHT hull = true ↔
      (roundF32 (blobWidth (hullExtremes WIDTH HEIGHT hull)
          / blobHeight (hullExtremes WIDTH HEIGHT hull)) < double08
        ∧ roundF32 (blobWidth (hullExtremes WIDTH HEIGHT hull)
          / blobHeight (hullExtremes WIDTH HEIGHT hull)) > double015)
      ∧ (blobArea (hullExtremes WIDTH HEIGHT hull) > 200
        ∧ blobArea (hullExtremes WIDTH HEIGHT hull) < (areaLimit WIDTH HEIGHT : ℚ)
        ∧ ((hullExtremes WIDTH HEIGHT hull).rightMostPoint.y : ℚ)
            > blobYMid (hullExtremes WIDTH HEIGHT hull)
        ∧ ((hullExtremes WIDTH HEIGHT hull).leftMostPoint.y : ℚ)
            > blobYMid (hullExtremes WIDTH HEIGHT hull)) := by
  unfold redAccept
  simp only []
  split
  · rename_i hr
    simp only [decide_eq_true_eq]
    exact ⟨fun h => ⟨hr, h⟩, fun h => h.2⟩
  · rename_i hr
    simp only [Bool.false_eq_true, false_iff]
    exact fun h => hr h.1

theorem blueAccept_iff (WIDTH HEIGHT maxYRed : Nat) (hull : List Point) :
    blueAccept WIDTH HEIGHT maxYRed hull = true ↔
      (roundF32 (blobWidth (hullExtremes WIDTH HEIGHT hull)
          / blobHeight (hullExtremes WIDTH HEIGHT hull)) < double08
        ∧ roundF32 (blobWidth (hullExtremes WIDTH HEIGHT hull)
          / blobHeight (hullExtremes WIDTH HEIGHT hull)) ≥ double015)
      ∧ ((blobYMid (hullExtremes WIDTH HEIGHT hull) < ((HEIGHT / 4 : Nat) : ℚ)
          ∨ blobXMid (hullExtremes WIDTH HEIGHT hull) > ((WIDTH / 2 : Nat) : ℚ))
        ∧ blobArea (hullExtremes WIDTH HEIGHT hull) > 200
        ∧ blobArea (hullExtremes WIDTH HEIGHT hull) < (areaLimit WIDTH HEIGHT : ℚ)
        ∧ blobYMid (hullExtremes WIDTH HEIGHT hull) > (maxYRed : ℚ)) := by
  unfold blueAccept
  simp only []
  split
  · rename_i hr
    simp only [decide_eq_true_eq]
    exact ⟨fun h => ⟨hr, h⟩, fun h => h.2⟩
  · rename_i hr
    simp only [Bool.false_eq_true, false_iff]
    exact fun h => hr h.1

theorem yellowAccept_iff (WIDTH HEIGHT maxYRed : Nat) (hull : List Point) :
    yellowAccept WIDTH HEIGHT maxYRed hull = true ↔
      (roundF32 (blobWidth (hullExtremes WIDTH HEIGHT hull)
          / blobHeight (hullExtremes WIDTH HEIGHT hull)) < double08
        ∧ roundF32 (blobWidth (hullExtremes WIDTH HEIGHT hull)
          / blobHeight (hullExtremes WIDTH HEIGHT hull)) > double015)
      ∧ ((blobYMid (hullExtremes WIDTH HEIGHT hull) < ((HEIGHT / 4 : Nat) : ℚ)
          ∨ blobXMid (hullExtremes WIDTH HEIGHT hull) < ((WIDTH / 2 : Nat) : ℚ))
        ∧ blobArea (hullExtremes WIDTH HEIGHT hull) > 200
        ∧ blobArea (hullExtremes WIDTH HEIGHT hull) < (areaLimit WIDTH HEIGHT : ℚ)
        ∧ blobYMid (hullExtremes WIDTH HEIGHT hull) > (maxYRed : ℚ)) := by
  unfold yellowAccept
  simp only []
  split
  · rename_i hr
    simp only [decide_eq_true_eq]
    exact ⟨fun h => ⟨hr, h⟩, fun h => h.2⟩
  · rename_i hr
    simp only [Bool.false_eq_true, false_iff]
    exact fun h => hr h.1

/-- C1 fails as stated: on a 640x480 frame the red filter accepts the hull
`(106,100), (100,180), (112,180)`, whose extents are `width = 12` and `height = 80`: the
float quotient `12.0f/80.0f = 10066330 / 2^26 = 0.150000006` is above the double `0.15`,
while `width/height` is exactly `0.15` and not strictly above it. -/
theorem redAccept_accepts_ratio_at_lower_bound :
    redAccept 640 480 [⟨106, 100⟩, ⟨100, 180⟩, ⟨112, 180⟩] = true
    ∧ blobWidth (hullExtremes 640 480 [⟨106, 100⟩, ⟨100, 180⟩, ⟨112, 180⟩]) = 12
    ∧ blobHeight (hullExtremes 640 480 [⟨106, 100⟩, ⟨100, 180⟩, ⟨112, 180⟩]) = 80
    ∧ roundF32 (12 / 80) = 10066330 / 67108864
    ∧ ¬ ((0.15 : ℚ) < blobWidth (hullExtremes 640 480 [⟨106, 100⟩, ⟨100, 180⟩, ⟨112, 180⟩])
          / blobHeight (hullExtremes 640 480 [⟨106, 100⟩, ⟨100, 180⟩, ⟨112, 180⟩])) := by
  have he : hullExtremes 640 480 [⟨106, 100⟩, ⟨100, 180⟩, ⟨112, 180⟩]
      = ⟨⟨100, 180⟩, ⟨112, 180⟩, ⟨106, 100⟩, ⟨100, 180⟩⟩ := by decide
  have hw : blobWidth (hullExtremes 640 480 [⟨106, 100⟩, ⟨100, 180⟩, ⟨112, 180⟩]) = 12 := by
    rw [he]; norm_num [blobWidth]
  have hh : blobHeight (hullExtremes 640 480 [⟨106, 100⟩, ⟨100, 180⟩, ⟨112, 180⟩]) = 80 := by
    rw [he]; norm_num [blobHeight]
  have hy : blobYMid (hullExtremes 640 480 [⟨106, 100⟩, ⟨100, 180⟩, ⟨112, 180⟩]) = 140 := by
    have h1 : Int.tdiv 280 2 = 140 := by decide
    rw [he]; simp [blobYMid, h1]
  have hr : roundF32 (12 / 80) = 10066330 / 67108864 := by
    have : (12 : ℚ) / 80 = 3 / 20 := by norm_num
    rw [this, roundF32_three_twentieths]
  refine ⟨?_, hw, hh, hr, by rw [hw, hh]; norm_num⟩
  rw [redAccept_iff]
  simp only [blobArea, hw, hh, hy, hr]
  rw [he]
  norm_num [double08, double015, areaLimit]

/-- C1, amended: for each of the three marker classes (stop/red, right/blue,
left/yellow) and every hull whose extents `width` and `height` are below 4096 pixels in
absolute value (so that the extents and their product are exact as `float`), if the shape
filter accepts the blob then `0.15 <= width/height < 0.8` and `200 < area < (W*H)/20`,
where `width`, `height` and `area = width*height` are the hull extents computed by the
filter.  The lower bound on the ratio of the extents is not strict; it is strict for the
single precision quotient that the filter computes from them, which lies strictly between
`0.15` and `0.8`. -/
theorem accept_ratio_and_area (WIDTH HEIGHT maxYRed : Nat) (hull : List Point)
    (_hw : -4096 < (hullExtremes WIDTH HEIGHT hull).rightMostPoint.x
          - (hullExtremes WIDTH HEIGHT hull).leftMostPoint.x
      ∧ (hullExtremes WIDTH HEIGHT hull).rightMostPoint.x
          - (hullExtremes WIDTH HEIGHT hull).leftMostPoint.x < 4096)
    (hh : -4096 < (hullExtremes WIDTH HEIGHT hull).bottomPoint.y
          - (hullExtremes WIDTH HEIGHT hull).topPoint.y
      ∧ (hullExtremes WIDTH HEIGHT hull).bottomPoint.y
          - (hullExtremes WIDTH HEIGHT hull).topPoint.y < 4096)
    (hacc : redAccept WIDTH HEIGHT hull = true ∨ blueAccept WIDTH HEIGHT maxYRed hull = true
      ∨ yellowAccept WIDTH HEIGHT maxYRed hull = true) :
    ((0.15 : ℚ) ≤ blobWidth (hullExtremes WIDTH HEIGHT hull)
        / blobHeight (hullExtremes WIDTH HEIGHT hull)
      ∧ blobWidth (hullExtremes WIDTH HEIGHT hull) / blobHeight (hullExtremes WIDTH HEIGHT hull)
        < 0.8)
    ∧ ((0.15 : ℚ) < roundF32 (blobWidth (hullExtremes WIDTH HEIGHT hull)
        / blobHeight (hullExtremes WIDTH HEIGHT hull))
      ∧ roundF32 (blobWidth (hullExtremes WIDTH HEIGHT hull)
        / blobHeight (hullExtremes WIDTH HEIGHT hull)) < 0.8)
    ∧ 200 < blobArea (hullExtremes WIDTH HEIGHT hull)
    ∧ blobArea (hullExtremes WIDTH HEIGHT hull) < ((WIDTH * HEIGHT / 20 : Nat) : ℚ) := by
  have e1 : (0.15 : ℚ) = 3 / 20 := by norm_num
  have e2 : (0.8 : ℚ) = 4 / 5 := by norm_num
  rw [e1, e2]
  have key : ∀ (_ : roundF32 (blobWidth (hullExtremes WIDTH HEIGHT hull)
        / blobHeight (hullExtremes WIDTH HEIGHT hull)) < double08)
      (_ : roundF32 (blobWidth (hullExtremes WIDTH HEIGHT hull)
        / blobHeight (hullExtremes WIDTH HEIGHT hull)) ≥ double015),
      ((3 / 20 : ℚ) ≤ blobWidth (hullExtremes WIDTH HEIGHT hull)
          / blobHeight (hullExtremes WIDTH HEIGHT hull)
        ∧ blobWidth (hullExtremes WIDTH HEIGHT hull)
          / blobHeight (hullExtremes WIDTH HEIGHT hull) < 4 / 5)
      ∧ ((3 / 20 : ℚ) < roundF32 (blobWidth (hullExtremes WIDTH HEIGHT hull)
          / blobHeight (hullExtremes WIDTH HEIGHT hull))
        ∧ roundF32 (blobWidth (hullExtremes WIDTH HEIGHT hull)
          / blobHeight (hullExtremes WIDTH HEIGHT hull)) < 4 / 5) := by
    intro h1 h2
    exact ⟨ratio_bounds_of_rounded _ ⟨by omega, by omega⟩ h1 h2,
      roundF32_gt_three_twentieths _ h2, roundF32_lt_four_fifths _ h1⟩
  rcases hacc with h | h | h
  · obtain ⟨⟨h1, h2⟩, h3, h4, _⟩ := (redAccept_iff _ _ _).mp h
    obtain ⟨k1, k2⟩ := key h1 (le_of_lt h2)
    exact ⟨k1, k2, h3, lt_of_lt_of_le h4 (areaLimit_le _ _)⟩
  · obtain ⟨⟨h1, h2⟩, _, h3, h4, _⟩ := (blueAccept_iff _ _ _ _).mp h
    obtain ⟨k1, k2⟩ := key h1 h2
    exact ⟨k1, k2, h3, lt_of_lt_of_le h4 (areaLimit_le _ _)⟩
  · obtain ⟨⟨h1, h2⟩, _, h3, h4, _⟩ := (yellowAccept_iff _ _ _ _).mp h
    obtain ⟨k1, k2⟩ := key h1 (le_of_lt h2)
    exact ⟨k1, k2, h3, lt_of_lt_of_le h4 (areaLimit_le _ _)⟩

theorem accept_ratio_and_area_witness :
    yellowAccept 640 480 0 [⟨100, 60⟩, ⟨140, 60⟩, ⟨120, 140⟩] = true
    ∧ ((0.15 : ℚ) ≤ blobWidth (hullExtremes 640 480 [⟨100, 60⟩, ⟨140, 60⟩, ⟨120, 140⟩])
        / blobHeight (hullExtremes 640 480 [⟨100, 60⟩, ⟨140, 60⟩, ⟨120, 140⟩])
      ∧ blobWidth (hullExtremes 640 480 [⟨100, 60⟩, ⟨140, 60⟩, ⟨120, 140⟩])
        / blobHeight (hullExtremes 640 480 [⟨100, 60⟩, ⟨140, 60⟩, ⟨120, 140⟩]) < 0.8)
    ∧ ((0.15 : ℚ) < roundF32 (blobWidth (hullExtremes 640 480 [⟨100, 60⟩, ⟨140, 60⟩, ⟨120, 140⟩])
        / blobHeight (hullExtremes 640 480 [⟨100, 60⟩, ⟨140, 60⟩, ⟨120, 140⟩]))
      ∧ roundF32 (blobWidth (hullExtremes 640 480 [⟨100, 60⟩, ⟨140, 60⟩, ⟨120, 140⟩])
        / blobHeight (hullExtremes 640 480 [⟨100, 60⟩, ⟨140, 60⟩, ⟨120, 140⟩])) < 0.8)
    ∧ 200 < blobArea (hullExtremes 640 480 [⟨100, 60⟩, ⟨140, 60⟩, ⟨120, 140⟩])
    ∧ blobArea (hullExtremes 640 480 [⟨100, 60⟩, ⟨140, 60⟩, ⟨120, 140⟩])
        < ((640 * 480 / 20 : Nat) : ℚ) := by
  have hacc : yellowAccept 640 480 0 [⟨100, 60⟩, ⟨140, 60⟩, ⟨120, 140⟩] = true := by
    have h1 : Int.tdiv 200 2 = 100 := by decide
    have h2 : Int.tdiv 240 2 = 120 := by decide
    simp [yellowAccept, hullExtremes, scanPoint, initExtremes, toI32, blobWidth, blobHeight,
      blobYMid, blobXMid, blobArea, areaLimit, h1, h2]
    norm_num [double08, double015]
    rw [roundF32_half]
    norm_num
  exact ⟨hacc, accept_ratio_and_area 640 480 0 [⟨100, 60⟩, ⟨140, 60⟩, ⟨120, 140⟩]
    (by decide) (by decide) (Or.inr (Or.inr hacc))⟩

/-! ### Loops over a track -/

theorem entry_append_left (pre l : List Point) (a : Point) :
    entry (pre ++ a :: l) pre.length = a := by
  unfold entry
  rw [List.getD_eq_getElem?_getD, List.getElem?_append_right (le_refl _)]
  simp

theorem entry_append_succ (pre l : List Point) (a b : Point) :
    entry (pre ++ a :: b :: l) (pre.length + 1) = b := by
  have : pre ++ a :: b :: l = (pre ++ [a]) ++ b :: l := by simp
  rw [this]
  have h2 : pre.length + 1 = (pre ++ [a]).length := by simp
  rw [h2]
  exact entry_append_left _ _ _

/-! ### Exchange sort -/

theorem bubbleFor_eq (fuel : Nat) : ∀ (pre rest : List Point) (cur : Point) (counter : Nat),
    rest.length ≤ fuel →
    bubbleFor fuel pre.length (pre ++ cur :: rest) counter
      = (pre ++ (bubbleFrom cur rest).1, counter + (bubbleFrom cur rest).2) := by
  induction fuel with
  | zero =>
    intro pre rest cur counter h
    have : rest = [] := List.eq_nil_of_length_eq_zero (by omega)
    subst this
    simp [bubbleFor, bubbleFrom]
  | succ fuel ih =>
    intro pre rest cur counter h
    match rest, h with
    | [], _ => simp [bubbleFor, bubbleFrom]
    | next :: rest, h =>
      have hlen : pre.length < (pre ++ cur :: next :: rest).length - 1 := by simp
      simp only [bubbleFor, if_pos hlen, entry_append_left, entry_append_succ]
      by_cases hlt : cur.y < next.y
      · have hs : ((pre ++ cur :: next :: rest).set pre.length next).set (pre.length + 1) cur
            = (pre ++ [next]) ++ cur :: rest := by
          simp [List.set_append]
        have := ih (pre ++ [next]) rest cur (counter + 1) (by simp at h; omega)
        simp only [List.length_append, List.length_singleton] at this
        simp only [if_pos hlt, hs, this, bubbleFrom]
        simp; omega
      · have := ih (pre ++ [cur]) rest next counter (by simp at h; omega)
        simp only [List.length_append, List.length_singleton] at this
        have e : pre ++ cur :: next :: rest = pre ++ [cur] ++ next :: rest := by simp
        simp only [if_neg hlt, bubbleFrom]
        rw [e, this]; simp

theorem bubblePass_cons (a : Point) (rest : List Point) :
    bubblePass (a :: rest) = bubbleFrom a rest := by
  have := bubbleFor_eq (a :: rest).length [] rest a 0 (by simp)
  simpa [bubblePass] using this

theorem bubblePass_nil : bubblePass [] = ([], 0) := rfl

theorem bubbleFrom_perm (l : List Point) : ∀ cur, (bubbleFrom cur l).1.Perm (cur :: l) := by
  induction l with
  | nil => intro cur; simp [bubbleFrom]
  | cons next rest ih =>
    intro cur
    unfold bubbleFrom
    split
    · exact ((ih cur).cons next).trans (List.Perm.swap cur next rest)
    · exact (ih next).cons cur

theorem bubbleFrom_inversions (l : List Point) :
    ∀ cur, inversions (bubbleFrom cur l).1 + (bubbleFrom cur l).2 = inversions (cur :: l) := by
  induction l with
  | nil => intro cur; simp [bubbleFrom, inversions]
  | cons next rest ih =>
    intro cur
    unfold bubbleFrom
    split
    · rename_i hlt
      have hp := (bubbleFrom_perm rest cur).countP_eq (fun b => decide (next.y < b.y))
      have hi := ih cur
      have hn : ¬ next.y < cur.y := by omega
      simp only [inversions, List.countP_cons, hlt, hn, decide_True, decide_False] at hp hi ⊢
      simp at hp hi ⊢
      omega
    · rename_i hge
      have hp := (bubbleFrom_perm rest next).countP_eq (fun b => decide (cur.y < b.y))
      have hi := ih next
      simp only [inversions, List.countP_cons, hge, decide_False] at hp hi ⊢
      simp at hp hi ⊢
      omega

theorem bubbleFrom_noSwap (l : List Point) :
    ∀ cur, (bubbleFrom cur l).2 = 0 →
      (bubbleFrom cur l).1 = cur :: l ∧ List.Chain' (fun a b : Point => a.y ≥ b.y) (cur :: l) := by
  induction l with
  | nil => intro cur _; simp [bubbleFrom]
  | cons next rest ih =>
    intro cur h
    unfold bubbleFrom at h ⊢
    split at h
    · simp at h
    · rename_i hge
      simp only [hge, if_false] at h ⊢
      obtain ⟨h1, h2⟩ := ih next h
      refine ⟨by rw [h1], ?_⟩
      exact List.Chain'.cons (by omega) h2

theorem bubbleLoop_sorts (fuel : Nat) :
    ∀ track, inversions track < fuel →
      ∃ r, bubbleLoop fuel track = some r ∧ r.Perm track
        ∧ List.Chain' (fun a b : Point => a.y ≥ b.y) r := by
  induction fuel with
  | zero => intro track h; omega
  | succ fuel ih =>
    intro track h
    unfold bubbleLoop
    cases track with
    | nil => exact ⟨[], by simp [bubblePass_nil]⟩
    | cons a rest =>
      rw [bubblePass_cons]
      by_cases hz : (bubbleFrom a rest).2 = 0
      · obtain ⟨h1, h2⟩ := bubbleFrom_noSwap rest a hz
        exact ⟨a :: rest, by simp [hz, h1], List.Perm.refl _, h2⟩
      · have hi := bubbleFrom_inversions rest a
        obtain ⟨r, hr, hperm, hs⟩ := ih (bubbleFrom a rest).1 (by omega)
        exact ⟨r, by simp [hz, hr], hperm.trans (bubbleFrom_perm rest a), hs⟩

theorem inversions_le (track : List Point) : inversions track ≤ track.length * track.length := by
  induction track with
  | nil => simp [inversions]
  | cons a rest ih =>
    have := List.countP_le_length (fun b => decide (a.y < b.y)) (l := rest)
    simp only [inversions, List.length_cons]
    nlinarith

/-- C2: with enough iterations allowed (more than the square of the track length), the
exchange-sort loop returns, and the track it returns is a rearrangement of the input in
which every adjacent pair `(a, b)` has `a.y >= b.y`. -/
theorem exchangeSort_sorted (track : List Point) (fuel : Nat)
    (hfuel : track.length * track.length < fuel) :
    ∃ r, exchangeSort fuel track = some r ∧ r.Perm track
      ∧ List.Chain' (fun a b : Point => a.y ≥ b.y) r := by
  unfold exchangeSort
  split
  · exact bubbleLoop_sorts fuel track (lt_of_le_of_lt (inversions_le track) hfuel)
  · rename_i h
    refine ⟨track, rfl, List.Perm.refl _, ?_⟩
    match track, h with
    | [], _ => simp
    | [a], _ => simp
    | a :: b :: rest, h => simp at h

theorem exchangeSort_sorted_witness :
    (3 * 3 < 10) ∧ ∃ r, exchangeSort 10 [⟨1, 1⟩, ⟨2, 5⟩, ⟨3, 3⟩] = some r
      ∧ r.Perm [⟨1, 1⟩, ⟨2, 5⟩, ⟨3, 3⟩]
      ∧ List.Chain' (fun a b : Point => a.y ≥ b.y) r :=
  ⟨by decide, exchangeSort_sorted [⟨1, 1⟩, ⟨2, 5⟩, ⟨3, 3⟩] 10 (by decide)⟩

/-! ### Overlap merge -/

theorem eraseAt_size (b : TrackBuffer) (pos : Nat) : (eraseAt b pos).size = b.size - 1 := by
  unfold eraseAt
  split <;> rfl

theorem eraseAt_slots_length (b : TrackBuffer) (pos : Nat) (h : b.size ≤ b.slots.length) :
    (eraseAt b pos).slots.length = b.slots.length := by
  unfold eraseAt
  split
  · rename_i hp
    simp only [List.length_append, List.length_drop]
    rw [List.length_eraseIdx, if_pos (by simp; omega)]
    simp
    omega
  · rfl

/-- The merge loop ends with a track when at least one slot lies behind the end of the
track and the iterations left cover the entries from `index` on. -/
theorem mergeLoop_isSome (fuel : Nat) : ∀ (index : Nat) (b : TrackBuffer),
    b.size < b.slots.length → b.size ≤ index + fuel →
    (mergeLoop fuel index b).isSome = true := by
  induction fuel with
  | zero =>
    intro index b _ hf
    simp [mergeLoop, show ¬ index < b.size by omega]
  | succ fuel ih =>
    intro index b hs hf
    unfold mergeLoop
    split
    · rename_i hi
      rw [if_pos (by omega)]
      split
      · apply ih
        · rw [eraseAt_size, eraseAt_slots_length _ _ (by omega)]; omega
        · rw [eraseAt_size]; omega
      · exact ih _ _ hs (by omega)
    · rfl

theorem mergeOverlaps_isSome (b : TrackBuffer) (h : b.size < b.slots.length) :
    (mergeOverlaps b).isSome = true :=
  mergeLoop_isSome b.size 0 b h (by omega)

theorem visibleTrack_truncateBuffer (track : List Point) (hullSize : Nat)
    (h : hullSize < track.length) :
    visibleTrack (truncateBuffer track hullSize) = truncateTrack track hullSize := by
  unfold visibleTrack truncateBuffer truncateTrack
  simp only []
  rw [List.take_append_of_le_length (by simp; omega)]
  rw [List.take_of_length_le (by simp; omega)]

/-! ### Machine integers -/

theorem toI32_of_lt (n : Nat) (h : n < 2147483648) : toI32 n = (n : Int) := by
  unfold toI32
  have h1 : n % 4294967296 = n := Nat.mod_eq_of_lt (by omega)
  rw [h1, if_pos h]

theorem toI32_toU32 (z : Int) (h1 : -2147483648 ≤ z) (h2 : z < 2147483648) :
    toI32 (toU32 z) = z := by
  unfold toI32 toU32
  have hm : ((z % 4294967296).toNat : Int) = z % 4294967296 :=
    Int.toNat_of_nonneg (Int.emod_nonneg _ (by norm_num))
  have hlt : (z % 4294967296).toNat < 4294967296 := by omega
  rw [Nat.mod_eq_of_lt hlt]
  split
  · rename_i h; omega
  · rename_i h; omega

theorem tdiv_two_cases (a : Int) :
    (0 ≤ a ∧ a.tdiv 2 = a / 2) ∨ (a < 0 ∧ a.tdiv 2 = -((-a) / 2)) := by
  rcases le_or_lt 0 a with h | h
  · exact Or.inl ⟨h, Int.tdiv_eq_ediv h (by norm_num)⟩
  · refine Or.inr ⟨h, ?_⟩
    have h' : a = -(-a) := by omega
    rw [h', Int.neg_tdiv, Int.tdiv_eq_ediv (by omega) (by norm_num)]
    simp

theorem centerX_eq (WIDTH : Nat) (h : WIDTH < 4294967296) :
    centerX WIDTH = ((WIDTH / 2 : Nat) : Int) - 1 := by
  unfold centerX subU32 toI32
  split <;> omega

/-! ### Crossing detection -/

theorem paramThreshold_small (WIDTH : Nat) (h : WIDTH < 300) : -2500 < paramThreshold WIDTH := by
  unfold paramThreshold
  have h6 : WIDTH / 6 ≤ 49 := by omega
  have hp : WIDTH / 6 * WIDTH ≤ 49 * 299 := Nat.mul_le_mul h6 (by omega)
  have hm : WIDTH / 6 * WIDTH % 4294967296 = WIDTH / 6 * WIDTH := Nat.mod_eq_of_lt (by omega)
  rw [hm, toI32_of_lt _ (by omega)]
  omega

theorem paramThreshold_large (WIDTH : Nat) (h : 300 ≤ WIDTH) (h2 : WIDTH < 65536) :
    paramThreshold WIDTH ≤ -2500 := by
  unfold paramThreshold
  have h6 : 50 ≤ WIDTH / 6 := by omega
  have h6' : WIDTH / 6 ≤ 10922 := by omega
  have hp : 50 * 300 ≤ WIDTH / 6 * WIDTH := Nat.mul_le_mul h6 h
  have hp' : WIDTH / 6 * WIDTH ≤ 10922 * 65535 := Nat.mul_le_mul h6' (by omega)
  have hm : WIDTH / 6 * WIDTH % 4294967296 = WIDTH / 6 * WIDTH := Nat.mod_eq_of_lt (by omega)
  rw [hm, toI32_of_lt _ (by omega)]
  omega

/-- C4 fails as stated: on a 640 px wide frame (`centerX = 319`) the two-entry stop track
`(269,100), (369,100)` has its x-coordinates at `centerX-50` and `centerX+50` and equal
y-coordinates, `reachCrossRoad` is true, but the crossing search finds no match. -/
theorem crossingSearch_no_match_at_640 :
    centerX 640 = 319
    ∧ reachCrossRoad [⟨319 - 50, 100⟩, ⟨319 + 50, 100⟩] = true
    ∧ (crossingSearch 640 [⟨319 - 50, 100⟩, ⟨319 + 50, 100⟩]).findRedConeMatch = false := by
  decide

/-- C4, amended: for a two-entry stop track with x-coordinates `centerX-50` and
`centerX+50` and y-coordinates (32-bit values) at most 70 apart, `reachCrossRoad` is true
for every frame width; for widths below 300 the crossing search finds the match and the
point it appends to the centerline is the midpoint of the two entries; for widths from
300 up to 65535 it finds no match. -/
theorem crossingSearch_two_entries (WIDTH : Nat) (y1 y2 : Int) (realTrack : List Point)
    (hW : WIDTH < 4294967296)
    (hy1 : -2147483648 ≤ y1 ∧ y1 < 2147483648) (hy2 : -2147483648 ≤ y2 ∧ y2 < 2147483648)
    (hy : (y1 - y2).natAbs ≤ 70) :
    reachCrossRoad [⟨centerX WIDTH - 50, y1⟩, ⟨centerX WIDTH + 50, y2⟩] = true
    ∧ (WIDTH < 300 →
        (crossingSearch WIDTH [⟨centerX WIDTH - 50, y1⟩, ⟨centerX WIDTH + 50, y2⟩]).findRedConeMatch
          = true
        ∧ appendCrossing realTrack
            (crossingSearch WIDTH [⟨centerX WIDTH - 50, y1⟩, ⟨centerX WIDTH + 50, y2⟩])
          = realTrack ++ [midPoint ⟨centerX WIDTH - 50, y1⟩ ⟨centerX WIDTH + 50, y2⟩])
    ∧ (300 ≤ WIDTH → WIDTH < 65536 →
        (crossingSearch WIDTH [⟨centerX WIDTH - 50, y1⟩, ⟨centerX WIDTH + 50, y2⟩]).findRedConeMatch
          = false) := by
  have hprod : (centerX WIDTH - 50 - centerX WIDTH) * (centerX WIDTH + 50 - centerX WIDTH)
      = -2500 := by ring
  refine ⟨by simp [reachCrossRoad], ?_, ?_⟩
  · intro hsmall
    have hthr := paramThreshold_small WIDTH hsmall
    have hcond : (centerX WIDTH - 50 - centerX WIDTH) * (centerX WIDTH + 50 - centerX WIDTH)
        < paramThreshold WIDTH ∧ (y1 - y2).natAbs ≤ 70 := ⟨by rw [hprod]; exact hthr, hy⟩
    have hcx := centerX_eq WIDTH hW
    have hxm : toI32 (toU32 ((centerX WIDTH - 50 + (centerX WIDTH + 50)).tdiv 2))
        = (centerX WIDTH - 50 + (centerX WIDTH + 50)).tdiv 2 := by
      apply toI32_toU32 <;> rcases tdiv_two_cases (centerX WIDTH - 50 + (centerX WIDTH + 50))
        with ⟨_, h⟩ | ⟨_, h⟩ <;> rw [h] <;> omega
    have hym : toI32 (toU32 ((y1 + y2).tdiv 2)) = (y1 + y2).tdiv 2 := by
      apply toI32_toU32 <;> rcases tdiv_two_cases (y1 + y2) with ⟨_, h⟩ | ⟨_, h⟩ <;> rw [h] <;> omega
    simp only [crossingSearch, if_pos hcond, appendCrossing, if_true, midPoint, hxm, hym]
    simp
  · intro hlarge hbound
    have hthr := paramThreshold_large WIDTH hlarge hbound
    have hcond : ¬ ((centerX WIDTH - 50 - centerX WIDTH) * (centerX WIDTH + 50 - centerX WIDTH)
        < paramThreshold WIDTH ∧ (y1 - y2).natAbs ≤ 70) := by
      rw [hprod]; intro h; omega
    simp only [crossingSearch, if_neg hcond]

theorem crossingSearch_two_entries_witness :
    (crossingSearch 200 [⟨centerX 200 - 50, 10⟩, ⟨centerX 200 + 50, 30⟩]).findRedConeMatch = true
    ∧ appendCrossing [] (crossingSearch 200 [⟨centerX 200 - 50, 10⟩, ⟨centerX 200 + 50, 30⟩])
        = [] ++ [midPoint ⟨centerX 200 - 50, 10⟩ ⟨centerX 200 + 50, 30⟩] :=
  (crossingSearch_two_entries 200 10 30 [] (by decide) (by decide) (by decide) (by decide)).2.1
    (by decide)

/-! ### Centerline pairing -/

theorem midPoint_comm (a b : Point) : midPoint a b = midPoint b a := by
  simp [midPoint, add_comm]

theorem entry_map_range (f : Nat → Point) (n i : Nat) (h : i < n) :
    entry ((List.range n).map f) i = f i := by
  unfold entry
  rw [List.getD_eq_getElem _ _ (by simpa using h)]
  simp

/-- C5: for non-empty left (yellow) and right (blue) tracks `L` and `R` the pairer builds
exactly `max |L| |R|` centerline points and point `i` is the component-wise integer
midpoint of `L[min i (|L|-1)]` and `R[min i (|R|-1)]`; for `L = [(10,50)]`,
`R = [(90,50)]` the centerline is `[(50,50)]`. -/
theorem pairTracks_midpoints (WIDTH HEIGHT : Nat) (L R : List Point)
    (hL : L ≠ []) (hR : R ≠ []) :
    (pairTracks WIDTH HEIGHT L R).length = max L.length R.length
    ∧ (∀ i, i < max L.length R.length →
        entry (pairTracks WIDTH HEIGHT L R) i
          = midPoint (entry L (min i (L.length - 1))) (entry R (min i (R.length - 1))))
    ∧ pairTracks WIDTH HEIGHT [⟨10, 50⟩] [⟨90, 50⟩] = [⟨50, 50⟩] := by
  have hl : 0 < L.length := List.length_pos.mpr hL
  have hr : 0 < R.length := List.length_pos.mpr hR
  have hmin : ¬ (min L.length R.length = 0) := by omega
  have hp : pairTracks WIDTH HEIGHT L R
      = (List.range (max L.length R.length)).map (pairEntry R L (min L.length R.length)) := by
    simp [pairTracks, hmin]
  refine ⟨by rw [hp]; simp, ?_, by rfl⟩
  intro i hi
  rw [hp, entry_map_range _ _ _ hi, midPoint_comm]
  unfold pairEntry
  split_ifs with h1 h2 h3 h4 h5
  · have e1 : min i (L.length - 1) = i := by omega
    have e2 : min i (R.length - 1) = i := by omega
    rw [e1, e2]
  · have e1 : min i (L.length - 1) = i := by omega
    have e2 : min i (R.length - 1) = R.length - 1 := by omega
    rw [e1, e2]
  · omega
  · have e1 : min i (L.length - 1) = L.length - 1 := by omega
    have e2 : min i (R.length - 1) = i := by omega
    rw [e1, e2]
  · omega
  · omega

theorem pairTracks_midpoints_witness :
    (pairTracks 640 480 [⟨10, 200⟩, ⟨40, 150⟩, ⟨80, 100⟩] [⟨600, 210⟩]).length
      = max [(⟨10, 200⟩ : Point), ⟨40, 150⟩, ⟨80, 100⟩].length [(⟨600, 210⟩ : Point)].length
    ∧ pairTracks 640 480 [⟨10, 200⟩, ⟨40, 150⟩, ⟨80, 100⟩] [⟨600, 210⟩]
      = [⟨305, 205⟩, ⟨320, 180⟩, ⟨340, 155⟩] :=
  ⟨(pairTracks_midpoints 640 480 [⟨10, 200⟩, ⟨40, 150⟩, ⟨80, 100⟩] [⟨600, 210⟩]
      (by decide) (by decide)).1, by decide⟩

/-! ### Near-point stabilizer -/

/-- Without overflow of the two `int` sums the damped point is the component-wise
truncating average. -/
theorem dampedPoint_eq_midPoint (p r : Point)
    (hx : -2147483648 ≤ r.x + p.x ∧ r.x + p.x < 2147483648)
    (hy : -2147483648 ≤ r.y + p.y ∧ r.y + p.y < 2147483648) :
    dampedPoint p r = midPoint r p := by
  unfold dampedPoint midPoint
  rw [toI32_toU32 (r.x + p.x) hx.1 hx.2, toI32_toU32 (r.y + p.y) hy.1 hy.2]
  have h1 : toI32 (toU32 ((r.x + p.x).tdiv 2)) = (r.x + p.x).tdiv 2 := by
    apply toI32_toU32 <;> rcases tdiv_two_cases (r.x + p.x) with ⟨_, h⟩ | ⟨_, h⟩ <;> rw [h] <;> omega
  have h2 : toI32 (toU32 ((r.y + p.y).tdiv 2)) = (r.y + p.y).tdiv 2 := by
    apply toI32_toU32 <;> rcases tdiv_two_cases (r.y + p.y) with ⟨_, h⟩ | ⟨_, h⟩ <;> rw [h] <;> omega
  rw [h1, h2]

/-- C6 fails as stated, on a frame 20 px wide and 480 px high (`WIDTH/25 = 0`).  In the
first frame the previous near point is the initial `(9,239)`, the right track is
`(14,100)` and the left track `(5,100)`: the raw near point `(9,100)` has no lateral
change, is emitted and stored.  In the second frame the right track is `(13,100)` and
the left track `(4,100)`: the raw near point is `(8,100)`, the lateral change `1` exceeds
`WIDTH/25`, and the average `((8+9)/2, (100+100)/2) = (8,100)` that is emitted is the raw
point itself.  The four tracks come from outlines, see `narrow_frame_tracks`. -/
theorem stabilize_average_is_raw_at_20 :
    initialNearPoint 20 480 = ⟨9, 239⟩
    ∧ (processTracks 20 480 (initialNearPoint 20 480) [] [⟨14, 100⟩] [⟨5, 100⟩]).2 = ⟨9, 100⟩
    ∧ centerline 20 480 [] [⟨13, 100⟩] [⟨4, 100⟩] = [⟨8, 100⟩]
    ∧ ((9 : Int) - 8).natAbs > 20 / 25
    ∧ midPoint ⟨8, 100⟩ ⟨9, 100⟩ = ⟨8, 100⟩
    ∧ stabilize 20 ⟨9, 100⟩ (centerline 20 480 [] [⟨13, 100⟩] [⟨4, 100⟩])
        = ([⟨8, 100⟩], ⟨8, 100⟩)
    ∧ (processTracks 20 480 ⟨9, 100⟩ [] [⟨13, 100⟩] [⟨4, 100⟩]).2 = ⟨8, 100⟩ := by
  decide

/-- C6, amended: for a previous near point `p` and a centerline with raw first point `r`,
all four coordinates below `2^23` in absolute value: if `|p.x - r.x| > WIDTH/25` the
emitted near pixel point is the component-wise average `((r.x+p.x)/2, (r.y+p.y)/2)` with
integer halving, and this average differs from `r` when `WIDTH >= 25`; otherwise the
emitted point is `r`; in both cases the rest of the centerline is unchanged and the
stored previous near point becomes the emitted point; with an empty centerline the
stored previous near point is unchanged. -/
theorem stabilize_spec (WIDTH : Nat) (p r : Point) (rest : List Point)
    (hp : -8388608 < p.x ∧ p.x < 8388608 ∧ -8388608 < p.y ∧ p.y < 8388608)
    (hr : -8388608 < r.x ∧ r.x < 8388608 ∧ -8388608 < r.y ∧ r.y < 8388608) :
    ((p.x - r.x).natAbs > WIDTH / 25 →
        stabilize WIDTH p (r :: rest) = (midPoint r p :: rest, midPoint r p)
        ∧ (25 ≤ WIDTH → midPoint r p ≠ r))
    ∧ (¬ (p.x - r.x).natAbs > WIDTH / 25 → stabilize WIDTH p (r :: rest) = (r :: rest, r))
    ∧ stabilize WIDTH p [] = ([], p) := by
  have hd : dampedPoint p r = midPoint r p :=
    dampedPoint_eq_midPoint p r ⟨by omega, by omega⟩ ⟨by omega, by omega⟩
  refine ⟨?_, ?_, rfl⟩
  · intro h
    refine ⟨by simp only [stabilize, if_pos h, hd], ?_⟩
    intro hW heq
    have hx : (r.x + p.x).tdiv 2 = r.x := by
      have := congrArg Point.x heq
      simpa [midPoint] using this
    have h25 : 1 ≤ WIDTH / 25 := by omega
    rcases tdiv_two_cases (r.x + p.x) with ⟨_, h2⟩ | ⟨_, h2⟩ <;> rw [h2] at hx <;> omega
  · intro h
    simp only [stabilize, if_neg h]

theorem stabilize_spec_witness :
    ((100 : Int) - 200).natAbs > 640 / 25
    ∧ stabilize 640 ⟨100, 100⟩ [⟨200, 120⟩, ⟨300, 80⟩] = ([⟨150, 110⟩, ⟨300, 80⟩], ⟨150, 110⟩) :=
  ⟨by decide,
   ((stabilize_spec 640 ⟨100, 100⟩ ⟨200, 120⟩ [⟨300, 80⟩] (by decide) (by decide)).1
      (by decide)).1⟩

/-! ### Emission of the near and far points -/

/-- C9 fails as stated: on a 640x480 frame the two-point centerline `(100,100), (200,50)`
is emitted with far coordinates `(139, 219)`, the conversion of the first point, whereas
the conversion of the last point is `(189, 119)`. -/
theorem emit_far_is_not_last_point :
    (emit 640 480 [⟨100, 100⟩, ⟨200, 50⟩] false).farX = 139
    ∧ (emit 640 480 [⟨100, 100⟩, ⟨200, 50⟩] false).farY = 219
    ∧ forward 480 (lastEntry [⟨100, 100⟩, ⟨200, 50⟩]) = 189
    ∧ lateral 640 (lastEntry [⟨100, 100⟩, ⟨200, 50⟩]) = 119 := by
  decide

/-- C9, amended: for every non-empty centerline the emitted near coordinates are the
vehicle-relative conversion of the first point, and the emitted far coordinates equal
the emitted near coordinates, whatever the length; they are the conversion of the last
point when the sequence has a single point. -/
theorem emit_near_far (WIDTH HEIGHT : Nat) (realTrack : List Point) (reach : Bool)
    (h : realTrack ≠ []) :
    (emit WIDTH HEIGHT realTrack reach).nearX = forward HEIGHT (entry realTrack 0)
    ∧ (emit WIDTH HEIGHT realTrack reach).nearY = lateral WIDTH (entry realTrack 0)
    ∧ (emit WIDTH HEIGHT realTrack reach).farX = (emit WIDTH HEIGHT realTrack reach).nearX
    ∧ (emit WIDTH HEIGHT realTrack reach).farY = (emit WIDTH HEIGHT realTrack reach).nearY
    ∧ (realTrack.length = 1 →
        (emit WIDTH HEIGHT realTrack reach).farX = forward HEIGHT (lastEntry realTrack)
        ∧ (emit WIDTH HEIGHT realTrack reach).farY = lateral WIDTH (lastEntry realTrack)) := by
  cases realTrack with
  | nil => exact absurd rfl h
  | cons nearPoint rest =>
    cases rest with
    | nil => simp [emit, entry, lastEntry]
    | cons b rest => simp [emit, entry]

theorem emit_near_far_witness :
    (emit 640 480 [⟨100, 100⟩, ⟨200, 50⟩] true).nearX = forward 480 (entry [⟨100, 100⟩, ⟨200, 50⟩] 0)
    ∧ (emit 640 480 [⟨100, 100⟩, ⟨200, 50⟩] true).farX
        = (emit 640 480 [⟨100, 100⟩, ⟨200, 50⟩] true).nearX :=
  ⟨(emit_near_far 640 480 [⟨100, 100⟩, ⟨200, 50⟩] true (by decide)).1,
   (emit_near_far 640 480 [⟨100, 100⟩, ⟨200, 50⟩] true (by decide)).2.2.1⟩

/-- C10 fails as stated: on a 640x480 frame with no blue and no yellow entries and the
stop track `(10,100), (20,100)` (both left of the centre, so no crossing pair) the
centerline is empty and the message carries all-zero coordinates, but `reachCrossRoad`
is true. -/
theorem empty_centerline_reach_true :
    centerline 640 480 [⟨10, 100⟩, ⟨20, 100⟩] [] [] = []
    ∧ (processTracks 640 480 ⟨319, 239⟩ [⟨10, 100⟩, ⟨20, 100⟩] [] []).1 = ⟨0, 0, 0, 0, true⟩ := by
  decide

/-- C10, amended: when the centerline is empty the emitted message has
`nearX = nearY = farX = farY = 0`, and its `reachCrossRoad` is true exactly when the stop
track has more than one entry (so it is false when the stop track has at most one
entry); the stored previous near point is unchanged. -/
theorem processTracks_empty_centerline (WIDTH HEIGHT : Nat) (previousNearPoint : Point)
    (redTrack blueTrack yellowTrack : List Point)
    (h : centerline WIDTH HEIGHT redTrack blueTrack yellowTrack = []) :
    (processTracks WIDTH HEIGHT previousNearPoint redTrack blueTrack yellowTrack).1
      = ⟨0, 0, 0, 0, decide (redTrack.length > 1)⟩
    ∧ (redTrack.length ≤ 1 →
        (processTracks WIDTH HEIGHT previousNearPoint redTrack blueTrack yellowTrack).1
          = ⟨0, 0, 0, 0, false⟩)
    ∧ (processTracks WIDTH HEIGHT previousNearPoint redTrack blueTrack yellowTrack).2
      = previousNearPoint := by
  have hp : processTracks WIDTH HEIGHT previousNearPoint redTrack blueTrack yellowTrack
      = (⟨0, 0, 0, 0, decide (redTrack.length > 1)⟩, previousNearPoint) := by
    simp [processTracks, h, stabilize, emit, reachCrossRoad]
  refine ⟨by rw [hp], ?_, by rw [hp]⟩
  intro hlen
  rw [hp]
  have : ¬ redTrack.length > 1 := by omega
  simp [this]

theorem processTracks_empty_centerline_witness :
    centerline 640 480 [⟨10, 100⟩] [] [] = []
    ∧ (processTracks 640 480 ⟨319, 239⟩ [⟨10, 100⟩] [] []).1 = ⟨0, 0, 0, 0, false⟩ :=
  ⟨by decide,
   (processTracks_empty_centerline 640 480 ⟨319, 239⟩ [⟨10, 100⟩] [] [] (by decide)).2.1
     (by decide)⟩

end ConeDetection

/-! ## Properties of the control step -/

namespace LogicControl

open ConeDetection (NearFarPoints)

theorem truncToInt_intCast (n : Int) : truncToInt (n : ℚ) = n := by
  simp [truncToInt]

theorem truncToInt_zero : truncToInt 0 = 0 := by
  simp [truncToInt]

/-- The steering command of a tick is the lateral control law applied to the blended
near coordinate and the cross and dot products of the heading vector. -/
theorem atFrequency_groundSteering (m : Libm) (data : Data) (nf : NearFarPoints)
    (box : KiwiBoundingBox) :
    (atFrequency m data nf box).2.groundSteering
      = lateralControl nf.farX (blendNear m data nf).1
          (crossProductZ m (desiredVector (blendNear m data nf).1 (blendNear m data nf).2
            nf.farX nf.farY))
          (dotProductZ m (desiredVector (blendNear m data nf).1 (blendNear m data nf).2
            nf.farX nf.farY))
          data.previousCrossProduct := rfl

theorem lateralControl_sign (farX nearX : Int) (c d p : ℚ) (hc : 1 / 2 ≤ |c|) (hp : |p| ≤ 1)
    (hg : ¬ (farX = 0 ∧ nearX = 0)) :
    (0 < c ∧ 0 < lateralControl farX nearX c d p)
    ∨ (c < 0 ∧ lateralControl farX nearX c d p < 0) := by
  have hp' := abs_le.mp hp
  unfold lateralControl
  simp only [if_neg hg]
  rcases le_or_lt 0 c with h0 | h0
  · rw [abs_of_nonneg h0] at hc
    left
    refine ⟨by linarith, ?_⟩
    have hn : ¬ c < 0 := not_lt.mpr h0
    split_ifs <;> norm_num <;> linarith [hp'.1, hp'.2]
  · rw [abs_of_neg h0] at hc
    right
    refine ⟨h0, ?_⟩
    split_ifs <;> norm_num <;> linarith [hp'.1, hp'.2]

/-- C7 fails as stated: from the initial state, with `sqrt 1 = 1`, the reading
`nearX = nearY = farX = 0`, `farY = 2` gives the heading vector `(0, 1)` with cross
product `1`, and the stored previous cross product is `0`, but the steering command is
`0`, because `farX` and the blended `nearX` are both zero. -/
theorem steering_zero_with_cross_one :
    crossProductZ sampleLibm
        (desiredVector (blendNear sampleLibm initData ⟨0, 0, 0, 2, false⟩).1
          (blendNear sampleLibm initData ⟨0, 0, 0, 2, false⟩).2 0 2) = 1
    ∧ initData.previousCrossProduct = 0
    ∧ (atFrequency sampleLibm initData ⟨0, 0, 0, 2, false⟩ ⟨0, 0, 0, 0, 0, 0, 0⟩).2.groundSteering
        = 0 := by
  have hb : blendNear sampleLibm initData ⟨0, 0, 0, 2, false⟩ = (0, 0) := by
    simp [blendNear, initData, truncToInt_zero]
  have hv : desiredVector 0 0 0 2 = (0, 1) := by
    have h1 : Int.tdiv 2 2 = 1 := by decide
    simp [desiredVector, h1]
  refine ⟨?_, rfl, ?_⟩
  · rw [hb, hv]
    simp [crossProductZ, desiredVectorLength, sampleLibm]
  · rw [atFrequency_groundSteering, hb]
    simp [lateralControl]

/-- C7, amended: for a control tick whose heading vector has cross product `c` with
`|c| >= 0.5` and whose stored previous cross product lies in `[-1, 1]`: unless `farX`
and the blended `nearX` are both zero, the steering command is non-zero and has the sign
of `c`; when both are zero the steering command is `0`. -/
theorem atFrequency_steering_sign (m : Libm) (data : Data) (nf : NearFarPoints)
    (box : KiwiBoundingBox)
    (hc : 1 / 2 ≤ |crossProductZ m (desiredVector (blendNear m data nf).1
      (blendNear m data nf).2 nf.farX nf.farY)|)
    (hp : |data.previousCrossProduct| ≤ 1) :
    (¬ (nf.farX = 0 ∧ (blendNear m data nf).1 = 0) →
      (0 < crossProductZ m (desiredVector (blendNear m data nf).1 (blendNear m data nf).2
          nf.farX nf.farY)
        ∧ 0 < (atFrequency m data nf box).2.groundSteering)
      ∨ (crossProductZ m (desiredVector (blendNear m data nf).1 (blendNear m data nf).2
          nf.farX nf.farY) < 0
        ∧ (atFrequency m data nf box).2.groundSteering < 0))
    ∧ ((nf.farX = 0 ∧ (blendNear m data nf).1 = 0) →
      (atFrequency m data nf box).2.groundSteering = 0) := by
  rw [atFrequency_groundSteering]
  refine ⟨fun hg => lateralControl_sign _ _ _ _ _ hc hp hg, ?_⟩
  intro hg
  simp [lateralControl, hg]

theorem atFrequency_steering_sign_witness :
    (0 < crossProductZ sampleLibm
        (desiredVector (blendNear sampleLibm initData ⟨0, 0, 6, 8, false⟩).1
          (blendNear sampleLibm initData ⟨0, 0, 6, 8, false⟩).2 6 8)
      ∧ 0 < (atFrequency sampleLibm initData ⟨0, 0, 6, 8, false⟩
          ⟨0, 0, 0, 0, 0, 0, 0⟩).2.groundSteering)
    ∨ (crossProductZ sampleLibm
        (desiredVector (blendNear sampleLibm initData ⟨0, 0, 6, 8, false⟩).1
          (blendNear sampleLibm initData ⟨0, 0, 6, 8, false⟩).2 6 8) < 0
      ∧ (atFrequency sampleLibm initData ⟨0, 0, 6, 8, false⟩
          ⟨0, 0, 0, 0, 0, 0, 0⟩).2.groundSteering < 0) := by
  have hb : blendNear sampleLibm initData ⟨0, 0, 6, 8, false⟩ = (0, 0) := by
    simp [blendNear, initData, truncToInt_zero]
  have hv : desiredVector 0 0 6 8 = (3, 4) := by
    have h1 : Int.tdiv 6 2 = 3 := by decide
    have h2 : Int.tdiv 8 2 = 4 := by decide
    simp [desiredVector, h1, h2]
  have hs : Nat.sqrt (Int.toNat 25) = 5 := Nat.sqrt_eq 5
  have hc : crossProductZ sampleLibm (desiredVector 0 0 6 8) = 4 / 5 := by
    rw [hv]
    norm_num [crossProductZ, desiredVectorLength, sampleLibm, hs]
  refine (atFrequency_steering_sign sampleLibm initData ⟨0, 0, 6, 8, false⟩
    ⟨0, 0, 0, 0, 0, 0, 0⟩ ?_ ?_).1 ?_
  · rw [hb]
    show 1 / 2 ≤ |crossProductZ sampleLibm (desiredVector 0 0 6 8)|
    rw [hc]; norm_num [abs_of_pos]
  · norm_num [initData]
  · rw [hb]; simp

theorem desiredVectorLength_pos (m : Libm) (v : ℚ × ℚ) : 0 < desiredVectorLength m v := by
  unfold desiredVectorLength
  split
  · norm_num
  · rename_i h
    have : (0.01 : ℚ) ≤ m.sqrt (v.1 * v.1 + v.2 * v.2) := not_lt.mp h
    have h2 : (0 : ℚ) < 0.01 := by norm_num
    linarith

/-- The pedal command of a tick is the longitudinal control applied to the base throttle
of the steering command of the same tick. -/
theorem atFrequency_pedalPosition (m : Libm) (data : Data) (nf : NearFarPoints)
    (box : KiwiBoundingBox) :
    (atFrequency m data nf box).2.pedalPosition
      = longitudinalControl box nf.reachCrossRoad
          (crossProductZ m (desiredVector (blendNear m data nf).1 (blendNear m data nf).2
            nf.farX nf.farY))
          (baseThrottle (atFrequency m data nf box).2.groundSteering) := rfl

/-- C8, evaluated on the code: from the initial state, with `cos 0 = 1` and `sin 0 = 0`,
two consecutive ticks that read an all-zero `NearFarPoints` and `nBox = 0`: the first
tick emits steering `0` and pedal `0.10`; the second tick predicts the near point 60 px
back from the pedal of the first, blends it to `nearX = -21`, and emits steering `0.20`
and pedal `0.08`. -/
theorem no_target_second_tick (m : Libm) (hcos : m.cos 0 = 1) (hsin : m.sin 0 = 0) :
    (atFrequency m initData ⟨0, 0, 0, 0, false⟩ ⟨0, 0, 0, 0, 0, 0, 0⟩).2.groundSteering = 0
    ∧ (atFrequency m initData ⟨0, 0, 0, 0, false⟩ ⟨0, 0, 0, 0, 0, 0, 0⟩).2.pedalPosition = 0.10
    ∧ (blendNear m (atFrequency m initData ⟨0, 0, 0, 0, false⟩ ⟨0, 0, 0, 0, 0, 0, 0⟩).1
        ⟨0, 0, 0, 0, false⟩) = (-21, 0)
    ∧ (atFrequency m (atFrequency m initData ⟨0, 0, 0, 0, false⟩ ⟨0, 0, 0, 0, 0, 0, 0⟩).1
        ⟨0, 0, 0, 0, false⟩ ⟨0, 0, 0, 0, 0, 0, 0⟩).2.groundSteering = 0.20
    ∧ (atFrequency m (atFrequency m initData ⟨0, 0, 0, 0, false⟩ ⟨0, 0, 0, 0, 0, 0, 0⟩).1
        ⟨0, 0, 0, 0, false⟩ ⟨0, 0, 0, 0, 0, 0, 0⟩).2.pedalPosition = 0.08 := by
  have hb1 : blendNear m initData ⟨0, 0, 0, 0, false⟩ = (0, 0) := by
    simp [blendNear, initData, truncToInt_zero]
  have hv1 : desiredVector 0 0 0 0 = (0, 0) := by
    simp [desiredVector]
  have hs1 : (atFrequency m initData ⟨0, 0, 0, 0, false⟩ ⟨0, 0, 0, 0, 0, 0, 0⟩).2.groundSteering
      = 0 := by
    rw [atFrequency_groundSteering, hb1]
    simp [lateralControl]
  have hp1 : (atFrequency m initData ⟨0, 0, 0, 0, false⟩ ⟨0, 0, 0, 0, 0, 0, 0⟩).2.pedalPosition
      = 0.10 := by
    rw [atFrequency_pedalPosition, hs1]
    simp [longitudinalControl, baseThrottle]
  have hst : (atFrequency m initData ⟨0, 0, 0, 0, false⟩ ⟨0, 0, 0, 0, 0, 0, 0⟩).1
      = ⟨0, 0, 0, 0, 0.10⟩ := by
    have e1 : (atFrequency m initData ⟨0, 0, 0, 0, false⟩ ⟨0, 0, 0, 0, 0, 0, 0⟩).1
      = ⟨crossProductZ m (desiredVector (blendNear m initData ⟨0, 0, 0, 0, false⟩).1
            (blendNear m initData ⟨0, 0, 0, 0, false⟩).2 0 0),
         (blendNear m initData ⟨0, 0, 0, 0, false⟩).1,
         (blendNear m initData ⟨0, 0, 0, 0, false⟩).2,
         (atFrequency m initData ⟨0, 0, 0, 0, false⟩ ⟨0, 0, 0, 0, 0, 0, 0⟩).2.groundSteering,
         (atFrequency m initData ⟨0, 0, 0, 0, false⟩ ⟨0, 0, 0, 0, 0, 0, 0⟩).2.pedalPosition⟩ := rfl
    rw [e1, hs1, hp1, hb1, hv1]
    simp [crossProductZ]
  have h60 : truncToInt (60 : ℚ) = 60 := by simpa using truncToInt_intCast 60
  have h21 : truncToInt (-21 : ℚ) = -21 := by simpa using truncToInt_intCast (-21)
  have hb2 : blendNear m ⟨0, 0, 0, 0, 0.10⟩ ⟨0, 0, 0, 0, false⟩ = (-21, 0) := by
    simp only [blendNear]
    norm_num [hcos, hsin, h60, h21, truncToInt_zero]
  have hv2 : desiredVector (-21) 0 0 0 = (-21, 0) := by
    have h1 : Int.tdiv (-42) 2 = -21 := by decide
    simp [desiredVector, h1]
  have hlen := desiredVectorLength_pos m (-21, 0)
  have hd : dotProductZ m (-21, 0) < 0 := by
    simp only [dotProductZ]
    have : (-21 : ℚ) / desiredVectorLength m (-21, 0) < 0 := div_neg_of_neg_of_pos (by norm_num) hlen
    simpa using this
  have hs2 : (atFrequency m ⟨0, 0, 0, 0, 0.10⟩ ⟨0, 0, 0, 0, false⟩
      ⟨0, 0, 0, 0, 0, 0, 0⟩).2.groundSteering = 0.20 := by
    rw [atFrequency_groundSteering, hb2]
    simp only [hv2]
    have hc : crossProductZ m (-21, 0) = 0 := by simp [crossProductZ]
    rw [hc]
    simp only [lateralControl, hd]
    norm_num
  refine ⟨hs1, hp1, by rw [hst]; exact hb2, by rw [hst]; exact hs2, ?_⟩
  rw [hst, atFrequency_pedalPosition, hs2]
  simp [longitudinalControl, baseThrottle]
  norm_num

theorem no_target_second_tick_witness :
    sampleLibm.cos 0 = 1 ∧ sampleLibm.sin 0 = 0
    ∧ (atFrequency sampleLibm
        (atFrequency sampleLibm initData ⟨0, 0, 0, 0, false⟩ ⟨0, 0, 0, 0, 0, 0, 0⟩).1
        ⟨0, 0, 0, 0, false⟩ ⟨0, 0, 0, 0, 0, 0, 0⟩).2.groundSteering = 0.20 :=
  ⟨by simp [sampleLibm], by simp [sampleLibm],
   (no_target_second_tick sampleLibm (by simp [sampleLibm]) (by simp [sampleLibm])).2.2.2.1⟩

end LogicControl

/-! ## Further properties of the cone detection -/

namespace ConeDetection

/-! ### Vehicle-relative coordinates -/

/-- C11 fails as stated: on a 640x480 frame the single centerline point `(100,50)` has
inverted lateral offset `319 - 100 = 219` and forward distance `239 - 50 = 189`; the
message carries `nearX = farX = 189` (the forward distance) and `nearY = farY = 219` (the
lateral offset), not the other way round. -/
theorem emit_x_fields_carry_forward :
    lateral 640 ⟨100, 50⟩ = 219
    ∧ forward 480 ⟨100, 50⟩ = 189
    ∧ (emit 640 480 [⟨100, 50⟩] false).nearX = 189
    ∧ (emit 640 480 [⟨100, 50⟩] false).farX = 189
    ∧ (emit 640 480 [⟨100, 50⟩] false).nearY = 219
    ∧ (emit 640 480 [⟨100, 50⟩] false).farY = 219 := by
  decide

/-- C11, amended: in the emitted message the x fields (`nearX`, `farX`) carry the forward
distance, computed from the vertical pixel coordinate of the point and the half-height,
and the y fields (`nearY`, `farY`) carry the inverted lateral offset, computed from the
horizontal pixel coordinate of the point and the half-width; the point is the first
centerline point for the near fields and for the far fields. -/
theorem emit_field_axes (WIDTH HEIGHT : Nat) (nearPoint : Point) (rest : List Point)
    (reach : Bool) :
    (emit WIDTH HEIGHT (nearPoint :: rest) reach).nearX
        = toI32 (subU32 (subU32 (HEIGHT / 2) 1) (toU32 nearPoint.y))
    ∧ (emit WIDTH HEIGHT (nearPoint :: rest) reach).farX
        = toI32 (subU32 (subU32 (HEIGHT / 2) 1) (toU32 nearPoint.y))
    ∧ (emit WIDTH HEIGHT (nearPoint :: rest) reach).nearY
        = toI32 (subU32 0 (addU32 (subU32 (toU32 nearPoint.x) (WIDTH / 2)) 1))
    ∧ (emit WIDTH HEIGHT (nearPoint :: rest) reach).farY
        = toI32 (subU32 0 (addU32 (subU32 (toU32 nearPoint.x) (WIDTH / 2)) 1)) := by
  cases rest with
  | nil => simp [emit, lastEntry, entry, forward, lateral]
  | cons b rest => simp [emit, forward, lateral]

/-- C12: for frame sizes `W`, `H` (32-bit unsigned) and a pixel point `(px, py)` with
`0 <= px < W` and `0 <= py < H/2`, the conversion yields the lateral coordinate
`(W/2 - 1) - px` and the forward coordinate `(H/2 - 1) - py`, both within the signed
32-bit range: the arithmetic modulo `2^32` does not change the value.  A point at the
centre pixel `W/2 - 1` has lateral offset `0`, points right of it a negative one. -/
theorem conversion_exact (WIDTH HEIGHT : Nat) (p : Point)
    (hW : WIDTH < 4294967296) (hH : HEIGHT < 4294967296)
    (hx : 0 ≤ p.x ∧ p.x < (WIDTH : Int)) (hy : 0 ≤ p.y ∧ p.y < ((HEIGHT / 2 : Nat) : Int)) :
    lateral WIDTH p = ((WIDTH / 2 : Nat) : Int) - 1 - p.x
    ∧ forward HEIGHT p = ((HEIGHT / 2 : Nat) : Int) - 1 - p.y
    ∧ -2147483648 ≤ lateral WIDTH p ∧ lateral WIDTH p < 2147483648
    ∧ -2147483648 ≤ forward HEIGHT p ∧ forward HEIGHT p < 2147483648
    ∧ (p.x = ((WIDTH / 2 : Nat) : Int) - 1 → lateral WIDTH p = 0)
    ∧ (p.x > ((WIDTH / 2 : Nat) : Int) - 1 → lateral WIDTH p < 0) := by
  have hxu : ((toU32 p.x : Nat) : Int) = p.x := by
    unfold toU32
    rw [Int.toNat_of_nonneg (Int.emod_nonneg _ (by norm_num))]
    omega
  have hyu : ((toU32 p.y : Nat) : Int) = p.y := by
    unfold toU32
    rw [Int.toNat_of_nonneg (Int.emod_nonneg _ (by norm_num))]
    omega
  have hl : lateral WIDTH p = ((WIDTH / 2 : Nat) : Int) - 1 - p.x := by
    unfold lateral subU32 addU32 toI32
    split <;> omega
  have hf : forward HEIGHT p = ((HEIGHT / 2 : Nat) : Int) - 1 - p.y := by
    unfold forward subU32 toI32
    split <;> omega
  refine ⟨hl, hf, ?_, ?_, ?_, ?_, ?_, ?_⟩ <;> first | (rw [hl]; omega) | (rw [hf]; omega)

theorem conversion_exact_witness :
    lateral 640 ⟨400, 100⟩ = ((640 / 2 : Nat) : Int) - 1 - 400
    ∧ forward 480 ⟨400, 100⟩ = ((480 / 2 : Nat) : Int) - 1 - 100 :=
  ⟨(conversion_exact 640 480 ⟨400, 100⟩ (by decide) (by decide) (by decide) (by decide)).1,
   (conversion_exact 640 480 ⟨400, 100⟩ (by decide) (by decide) (by decide) (by decide)).2.1⟩

/-! ### Crossing pair search -/

theorem crossingSearch_cons_cons (WIDTH : Nat) (a b : Point) (rest : List Point) :
    crossingSearch WIDTH (a :: b :: rest)
      = if crossingTest WIDTH a b then
          ⟨toU32 ((a.x + b.x).tdiv 2), toU32 ((a.y + b.y).tdiv 2), true⟩
        else crossingSearch WIDTH (b :: rest) := rfl

/-- The crossing search reports a match exactly when some adjacent pair of the track
passes the test of line 325 (with the threshold `paramThreshold`). -/
theorem crossingSearch_match_iff (WIDTH : Nat) (track : List Point) :
    (crossingSearch WIDTH track).findRedConeMatch = true
      ↔ ∃ i, i + 1 < track.length
          ∧ crossingTest WIDTH (entry track i) (entry track (i + 1)) := by
  induction track with
  | nil => simp [crossingSearch]
  | cons a rest ih =>
    cases rest with
    | nil => simp [crossingSearch]
    | cons b rest =>
      rw [crossingSearch_cons_cons]
      by_cases h : crossingTest WIDTH a b
      · simp only [if_pos h, true_iff]
        exact ⟨0, by simp, by simpa [entry] using h⟩
      · simp only [if_neg h]
        rw [ih]
        constructor
        · rintro ⟨i, hi, ht⟩
          exact ⟨i + 1, by simpa using hi, by simpa [entry] using ht⟩
        · rintro ⟨i, hi, ht⟩
          cases i with
          | zero => exact absurd (by simpa [entry] using ht) h
          | succ i => exact ⟨i, by simpa using hi, by simpa [entry] using ht⟩

/-- When the pair at positions `i`, `i+1` passes the test and no earlier pair does, the
crossing search stops there and yields the integer midpoint of that pair. -/
theorem crossingSearch_first_match (WIDTH : Nat) (i : Nat) :
    ∀ track : List Point, i + 1 < track.length →
      crossingTest WIDTH (entry track i) (entry track (i + 1)) →
      (∀ j, j < i → ¬ crossingTest WIDTH (entry track j) (entry track (j + 1))) →
      crossingSearch WIDTH track
        = ⟨toU32 (((entry track i).x + (entry track (i + 1)).x).tdiv 2),
           toU32 (((entry track i).y + (entry track (i + 1)).y).tdiv 2), true⟩ := by
  induction i with
  | zero =>
    intro track hi ht _
    match track, hi with
    | a :: b :: rest, _ =>
      have h : crossingTest WIDTH a b := by simpa [entry] using ht
      rw [crossingSearch_cons_cons, if_pos h]
      simp [entry]
  | succ i ih =>
    intro track hi ht hfirst
    match track, hi with
    | a :: b :: rest, hi =>
      have h : ¬ crossingTest WIDTH a b := by simpa [entry] using hfirst 0 (by omega)
      rw [crossingSearch_cons_cons, if_neg h]
      have := ih (b :: rest) (by simpa using hi) (by simpa [entry] using ht)
        (fun j hj => by simpa [entry] using hfirst (j + 1) (by omega))
      simpa [entry] using this

/-- C13, evaluated on the code: on a 640 px wide frame (`centerX = 319`, `W/6 = 106`) the
threshold computed by `- static_cast<int32_t>(WIDTH/6*WIDTH/6)` is `-((106*640)/6) =
-11306`, not `-(106^2) = -11236`.  The stop track `(194,100), (409,100)` has the product
`(194-319)*(409-319) = -11250`, which is below `-(W/6)^2`, and equal y-coordinates, but
the crossing search reports no match. -/
theorem crossingSearch_threshold_at_640 :
    paramThreshold 640 = -11306
    ∧ -(((640 / 6 : Nat) : Int) ^ 2) = -11236
    ∧ ((194 : Int) - centerX 640) * (409 - centerX 640) = -11250
    ∧ ((100 : Int) - 100).natAbs ≤ 70
    ∧ (crossingSearch 640 [⟨194, 100⟩, ⟨409, 100⟩]).findRedConeMatch = false := by
  decide

/-! ### Default point synthesis -/

theorem defaultBlue_eq (WIDTH HEIGHT : Nat) (hW : 51 ≤ WIDTH) (hW2 : WIDTH < 2147483648)
    (hH : 102 ≤ HEIGHT) (hH2 : HEIGHT < 4294967296) :
    defaultBlue WIDTH HEIGHT = ⟨(WIDTH : Int) - 51, ((HEIGHT / 2 : Nat) : Int) - 51⟩ := by
  have h1 : toI32 (subU32 WIDTH 51) = (WIDTH : Int) - 51 := by
    unfold subU32 toI32; split <;> omega
  have h2 : toI32 (subU32 (HEIGHT / 2) 51) = ((HEIGHT / 2 : Nat) : Int) - 51 := by
    unfold subU32 toI32; split <;> omega
  simp [defaultBlue, h1, h2]

theorem defaultYellow_eq (HEIGHT : Nat) (hH : 102 ≤ HEIGHT) (hH2 : HEIGHT < 4294967296) :
    defaultYellow HEIGHT = ⟨50, ((HEIGHT / 2 : Nat) : Int) - 51⟩ := by
  have h2 : toI32 (subU32 (HEIGHT / 2) 51) = ((HEIGHT / 2 : Nat) : Int) - 51 := by
    unfold subU32 toI32; split <;> omega
  simp [defaultYellow, h2]

/-- C14: for `51 <= W < 2^31` and `102 <= H < 2^32`: with a non-empty left (yellow)
track `T` and an empty right (blue) track the centerline has `|T|` points and point `i`
is the integer midpoint of `T[i]` and the default point `(W-51, H/2-51)`; with a
non-empty right (blue) track `T` and an empty left (yellow) track the centerline has
`|T|` points and point `i` is the integer midpoint of `T[i]` and the default point
`(50, H/2-51)`; with both tracks empty the centerline is empty. -/
theorem pairTracks_one_empty (WIDTH HEIGHT : Nat) (T : List Point) (hT : T ≠ [])
    (hW : 51 ≤ WIDTH) (hW2 : WIDTH < 2147483648)
    (hH : 102 ≤ HEIGHT) (hH2 : HEIGHT < 4294967296) :
    (pairTracks WIDTH HEIGHT T []).length = T.length
    ∧ (∀ i, i < T.length →
        entry (pairTracks WIDTH HEIGHT T []) i
          = midPoint (entry T i) ⟨(WIDTH : Int) - 51, ((HEIGHT / 2 : Nat) : Int) - 51⟩)
    ∧ (pairTracks WIDTH HEIGHT [] T).length = T.length
    ∧ (∀ i, i < T.length →
        entry (pairTracks WIDTH HEIGHT [] T) i
          = midPoint (entry T i) ⟨50, ((HEIGHT / 2 : Nat) : Int) - 51⟩)
    ∧ pairTracks WIDTH HEIGHT [] [] = [] := by
  have hl : 0 < T.length := List.length_pos.mpr hT
  have hy : pairTracks WIDTH HEIGHT T []
      = (List.range T.length).map (pairEntry ([] ++ [defaultBlue WIDTH HEIGHT]) T 1) := by
    simp [pairTracks, hl]
  have hb : pairTracks WIDTH HEIGHT [] T
      = (List.range T.length).map (pairEntry T ([] ++ [defaultYellow HEIGHT]) 1) := by
    have hne : ¬ T.length = 0 := by omega
    simp [pairTracks, hl, hne]
  refine ⟨by rw [hy]; simp, ?_, by rw [hb]; simp, ?_, by simp [pairTracks]⟩
  · intro i hi
    rw [hy, entry_map_range _ _ _ hi, midPoint_comm,
      ← defaultBlue_eq WIDTH HEIGHT hW hW2 hH hH2]
    unfold pairEntry
    simp only [List.nil_append, List.length_singleton]
    split_ifs with h1 h2 h3 h4 h5
    · have : i = 0 := by omega
      subst this
      simp [entry]
    · simp [entry]
    · omega
    · omega
    · omega
    · omega
  · intro i hi
    rw [hb, entry_map_range _ _ _ hi, ← defaultYellow_eq HEIGHT hH hH2]
    unfold pairEntry
    simp only [List.nil_append, List.length_singleton]
    split_ifs with h1 h2 h3 h4 h5
    · have : i = 0 := by omega
      subst this
      simp [entry]
    · omega
    · omega
    · simp [entry]
    · omega
    · omega

theorem pairTracks_one_empty_witness :
    (pairTracks 640 480 [⟨10, 200⟩, ⟨40, 150⟩] []).length
      = [(⟨10, 200⟩ : Point), ⟨40, 150⟩].length
    ∧ pairTracks 640 480 [⟨10, 200⟩, ⟨40, 150⟩] [] = [⟨299, 194⟩, ⟨314, 169⟩]
    ∧ pairTracks 640 480 [] [⟨600, 200⟩, ⟨560, 150⟩] = [⟨325, 194⟩, ⟨305, 169⟩] :=
  ⟨(pairTracks_one_empty 640 480 [⟨10, 200⟩, ⟨40, 150⟩] (by decide) (by decide) (by decide)
      (by decide) (by decide)).1, by decide, by decide⟩

/-! ### Accept loop and track truncation -/

theorem acceptLoop_invariant (convexHull : List Point → List Point)
    (accept : List Point → Bool) (WIDTH HEIGHT : Nat) (contours : List (List Point)) :
    ∀ (s : AcceptState) (done : List Point),
      s.hIndex = done.length →
      s.track = done ++ List.replicate (40 - done.length) ⟨0, 0⟩ →
      s.hullSize = done.length + contours.length →
      done.length + (acceptedContours convexHull accept contours).length ≤ 40 →
      (contours.foldl (acceptStep convexHull accept WIDTH HEIGHT) s).track
          = (done ++ (acceptedContours convexHull accept contours).map
              (fun c => centroid (hullExtremes WIDTH HEIGHT (convexHull c))))
            ++ List.replicate
              (40 - (done.length + (acceptedContours convexHull accept contours).length)) ⟨0, 0⟩
      ∧ (contours.foldl (acceptStep convexHull accept WIDTH HEIGHT) s).hullSize
          = done.length + (acceptedContours convexHull accept contours).length := by
  induction contours with
  | nil =>
    intro s done _ ht hs _
    simp [acceptedContours, ht, hs]
  | cons c rest ih =>
    intro s done hi ht hs hle
    simp only [List.foldl_cons]
    by_cases hacc : (c.length ≤ 30 ∧ c.length ≥ 3) ∧ accept (convexHull c) = true
    · have hf : acceptedContours convexHull accept (c :: rest)
          = c :: acceptedContours convexHull accept rest := by
        simp [acceptedContours, hacc.1, hacc.2]
      rw [hf] at hle ⊢
      simp only [List.length_cons] at hle
      have hstep : acceptStep convexHull accept WIDTH HEIGHT s c
          = ⟨s.hIndex + 1,
             s.track.set s.hIndex (centroid (hullExtremes WIDTH HEIGHT (convexHull c))),
             s.hullSize⟩ := by
        simp [acceptStep, hacc.1, hacc.2]
      have hlt : done.length < 40 := by omega
      have hrep : List.replicate (40 - done.length) (⟨0, 0⟩ : Point)
          = ⟨0, 0⟩ :: List.replicate (40 - (done.length + 1)) ⟨0, 0⟩ := by
        have : 40 - done.length = (40 - (done.length + 1)) + 1 := by omega
        rw [this, List.replicate_succ]
      have hset : s.track.set s.hIndex (centroid (hullExtremes WIDTH HEIGHT (convexHull c)))
          = (done ++ [centroid (hullExtremes WIDTH HEIGHT (convexHull c))])
            ++ List.replicate (40 - (done.length + 1)) ⟨0, 0⟩ := by
        rw [ht, hi, hrep, List.set_append_right _ _ (le_refl _)]
        simp
      have := ih (acceptStep convexHull accept WIDTH HEIGHT s c)
        (done ++ [centroid (hullExtremes WIDTH HEIGHT (convexHull c))])
        (by rw [hstep]; simp [hi])
        (by rw [hstep]; simp only [hset]; simp)
        (by rw [hstep]; simp [hs]; omega)
        (by simp; omega)
      simp only [List.length_append, List.length_singleton] at this
      refine ⟨?_, ?_⟩
      · rw [this.1]; simp [Nat.add_assoc, Nat.add_comm 1]
      · rw [this.2]; simp; omega
    · have hf : acceptedContours convexHull accept (c :: rest)
          = acceptedContours convexHull accept rest := by
        unfold acceptedContours
        rw [List.filter_cons_of_neg]
        simpa using hacc
      rw [hf] at hle ⊢
      have hstep : acceptStep convexHull accept WIDTH HEIGHT s c
          = ⟨s.hIndex, s.track, s.hullSize - 1⟩ := by
        unfold acceptStep
        by_cases h1 : c.length ≤ 30 ∧ c.length ≥ 3
        · have h2 : ¬ accept (convexHull c) = true := fun h => hacc ⟨h1, h⟩
          simp [h1, h2]
        · simp [h1]
      exact ih (acceptStep convexHull accept WIDTH HEIGHT s c) done
        (by rw [hstep]; exact hi) (by rw [hstep]; exact ht)
        (by rw [hstep]; simp [hs]) hle

/-- With at most 39 accepted outlines, the track left by the accept loop and the
truncation is the list of the centroids of the accepted hulls, in outline order,
followed by one point `(0,0)`: the last of the 40 pre-allocated points is not erased. -/
theorem collectTrack_eq (convexHull : List Point → List Point) (accept : List Point → Bool)
    (WIDTH HEIGHT : Nat) (contours : List (List Point))
    (h : (acceptedContours convexHull accept contours).length ≤ 39) :
    collectTrack convexHull accept WIDTH HEIGHT contours
      = (acceptedContours convexHull accept contours).map
          (fun c => centroid (hullExtremes WIDTH HEIGHT (convexHull c))) ++ [⟨0, 0⟩] := by
  obtain ⟨ht, hs⟩ := acceptLoop_invariant convexHull accept WIDTH HEIGHT contours
    ⟨0, List.replicate 40 ⟨0, 0⟩, contours.length⟩ [] rfl (by simp) (by simp) (by simp; omega)
  simp only [List.nil_append, List.length_nil, Nat.zero_add] at ht hs
  unfold collectTrack acceptLoop truncateTrack
  rw [ht, hs]
  set k := (acceptedContours convexHull accept contours).length with hk
  set cs := (acceptedContours convexHull accept contours).map
    (fun c => centroid (hullExtremes WIDTH HEIGHT (convexHull c))) with hcs
  have hlen : cs.length = k := by simp [hcs, hk]
  have h1 : (cs ++ List.replicate (40 - k) (⟨0, 0⟩ : Point)).take k = cs := by
    rw [List.take_append_of_le_length (by omega), ← hlen, List.take_length]
  have h2 : (cs ++ List.replicate (40 - k) (⟨0, 0⟩ : Point)).drop
      ((cs ++ List.replicate (40 - k) (⟨0, 0⟩ : Point)).length - 1) = [⟨0, 0⟩] := by
    have hl : (cs ++ List.replicate (40 - k) (⟨0, 0⟩ : Point)).length - 1
        = cs.length + (40 - k - 1) := by simp; omega
    rw [hl, List.drop_append]
    have : 40 - k = (40 - k - 1) + 1 := by omega
    rw [List.drop_replicate]
    have h3 : 40 - k - (40 - k - 1) = 1 := by omega
    rw [h3]; rfl
  rw [h1, h2]

/-- C15, evaluated on the code (red class, 640x480 frame, triangles as their own convex
hull): with no outline at all the track left after the truncation is `[(0,0)]`, not the
empty track; with the single accepted outline `(100,100), (90,140), (110,140)` (width 20,
height 40, centroid `(100,120)`) it is `[(100,120), (0,0)]`.  The truncation
`erase(begin + hull.size(), begin + track.size() - 1)` leaves the last pre-allocated
point in the track, and `(0,0)` is not the centroid of an accepted blob. -/
theorem collectTrack_keeps_last_default_point :
    collectTrack (fun c => c) (redAccept 640 480) 640 480 [] = [⟨0, 0⟩]
    ∧ redAccept 640 480 [⟨100, 100⟩, ⟨90, 140⟩, ⟨110, 140⟩] = true
    ∧ collectTrack (fun c => c) (redAccept 640 480) 640 480
        [[⟨100, 100⟩, ⟨90, 140⟩, ⟨110, 140⟩]] = [⟨100, 120⟩, ⟨0, 0⟩] := by
  have hacc : redAccept 640 480 [⟨100, 100⟩, ⟨90, 140⟩, ⟨110, 140⟩] = true := by
    have h1 : Int.tdiv 240 2 = 120 := by decide
    simp [redAccept, hullExtremes, scanPoint, initExtremes, toI32, blobWidth, blobHeight,
      blobYMid, blobArea, areaLimit, h1]
    norm_num [double08, double015]
    rw [roundF32_half]
    norm_num
  have hfilter : acceptedContours (fun c => c) (redAccept 640 480)
      [[⟨100, 100⟩, ⟨90, 140⟩, ⟨110, 140⟩]] = [[⟨100, 100⟩, ⟨90, 140⟩, ⟨110, 140⟩]] := by
    simp [acceptedContours, hacc]
  refine ⟨by decide, hacc, ?_⟩
  rw [collectTrack_eq _ _ _ _ _ (by rw [hfilter]; decide), hfilter]
  decide

/-! ### Overlap merge on the track of one frame -/

/-- With at most 39 accepted outlines, the storage of the track after the accept loop and
the truncation holds the centroids of the accepted hulls followed by points `(0,0)`, and
the size of the track is one more than the number of centroids. -/
theorem collectBuffer_eq (convexHull : List Point → List Point) (accept : List Point → Bool)
    (WIDTH HEIGHT : Nat) (contours : List (List Point))
    (h : (acceptedContours convexHull accept contours).length ≤ 39) :
    collectBuffer convexHull accept WIDTH HEIGHT contours
      = ⟨(acceptedContours convexHull accept contours).map
            (fun c => centroid (hullExtremes WIDTH HEIGHT (convexHull c)))
          ++ List.replicate (40 - (acceptedContours convexHull accept contours).length) ⟨0, 0⟩,
         (acceptedContours convexHull accept contours).length + 1⟩ := by
  obtain ⟨ht, hs⟩ := acceptLoop_invariant convexHull accept WIDTH HEIGHT contours
    ⟨0, List.replicate 40 ⟨0, 0⟩, contours.length⟩ [] rfl (by simp) (by simp) (by simp; omega)
  simp only [List.nil_append, List.length_nil, Nat.zero_add] at ht hs
  unfold collectBuffer acceptLoop truncateBuffer
  rw [ht, hs]
  set k := (acceptedContours convexHull accept contours).length with hk
  set cs := (acceptedContours convexHull accept contours).map
    (fun c => centroid (hullExtremes WIDTH HEIGHT (convexHull c))) with hcs
  have hlen : cs.length = k := by simp [hcs, hk]
  have h1 : (cs ++ List.replicate (40 - k) (⟨0, 0⟩ : Point)).take k = cs := by
    rw [List.take_append_of_le_length (by omega), ← hlen, List.take_length]
  have h2 : (cs ++ List.replicate (40 - k) (⟨0, 0⟩ : Point)).drop
      ((cs ++ List.replicate (40 - k) (⟨0, 0⟩ : Point)).length - 1) = [⟨0, 0⟩] := by
    have hl : (cs ++ List.replicate (40 - k) (⟨0, 0⟩ : Point)).length - 1
        = cs.length + (40 - k - 1) := by simp; omega
    rw [hl, List.drop_append]
    have : 40 - k = (40 - k - 1) + 1 := by omega
    rw [List.drop_replicate]
    have h3 : 40 - k - (40 - k - 1) = 1 := by omega
    rw [h3]; rfl
  have h3 : (cs ++ List.replicate (40 - k) (⟨0, 0⟩ : Point)).drop (k + 1)
      = List.replicate (40 - k - 1) ⟨0, 0⟩ := by
    have hl : k + 1 = cs.length + 1 := by omega
    rw [hl, List.drop_append, List.drop_replicate]
  have h4 : List.replicate (40 - k) (⟨0, 0⟩ : Point)
      = ⟨0, 0⟩ :: List.replicate (40 - k - 1) ⟨0, 0⟩ := by
    have : 40 - k = (40 - k - 1) + 1 := by omega
    rw [this, List.replicate_succ]
    simp
  rw [h1, h2, h3, h4]
  simp

/-- The storage of the track after the accept loop and the truncation for a single
outline that is accepted as its own convex hull. -/
theorem collectBuffer_single (accept : List Point → Bool) (WIDTH HEIGHT : Nat)
    (c : List Point) (hlen : c.length ≤ 30 ∧ c.length ≥ 3) (h : accept c = true) :
    collectBuffer (fun c => c) accept WIDTH HEIGHT [c]
      = ⟨centroid (hullExtremes WIDTH HEIGHT c) :: List.replicate 39 ⟨0, 0⟩, 2⟩ := by
  have hfilter : acceptedContours (fun c => c) accept [c] = [c] := by
    simp [acceptedContours, hlen.1, hlen.2, h]
  rw [collectBuffer_eq _ _ _ _ _ (by rw [hfilter]; simp), hfilter]
  rfl

/-- The ratio tests pass for a hull of width 8 and height 30. -/
theorem ratio_tests_eight_by_thirty :
    roundF32 (8 / 30) < double08 ∧ roundF32 (8 / 30) > double015 := by
  have h1 := roundF32_ge_pow (8 / 30) (-2) (by norm_num) (by norm_num)
  have h2 := roundF32_le_pow (8 / 30) (-2) (by norm_num) (by norm_num)
  have e1 : (2 : ℚ) ^ (-2 : Int) = 1 / 4 := by norm_num
  have e2 : (2 : ℚ) ^ ((-2 : Int) + 1) = 1 / 2 := by norm_num
  rw [e1] at h1
  rw [e2] at h2
  constructor
  · exact lt_of_le_of_lt h2 (by norm_num [double08])
  · exact lt_of_lt_of_le (by norm_num [double015]) h1

/-- Tracks of a frame 20 px wide and 480 px high, from outlines (rectangles of width 8
and height 30, as their own convex hull) through the accept loop, the truncation and the
merge pass, with no stop marker in the frame (`redTrack[0].y` reads as `0`): the right
track `(14,100)` and the left track `(5,100)` of one frame, the right track `(13,100)`
and the left track `(4,100)` of another, and the empty stop track. -/
theorem narrow_frame_tracks :
    (mergeOverlaps (collectBuffer (fun c => c) (blueAccept 20 480 0) 20 480
        [[⟨10, 85⟩, ⟨18, 85⟩, ⟨18, 115⟩, ⟨10, 115⟩]])).map visibleTrack
      = some [⟨14, 100⟩]
    ∧ (mergeOverlaps (collectBuffer (fun c => c) (yellowAccept 20 480 0) 20 480
        [[⟨1, 85⟩, ⟨9, 85⟩, ⟨9, 115⟩, ⟨1, 115⟩]])).map visibleTrack
      = some [⟨5, 100⟩]
    ∧ (mergeOverlaps (collectBuffer (fun c => c) (blueAccept 20 480 0) 20 480
        [[⟨9, 85⟩, ⟨17, 85⟩, ⟨17, 115⟩, ⟨9, 115⟩]])).map visibleTrack
      = some [⟨13, 100⟩]
    ∧ (mergeOverlaps (collectBuffer (fun c => c) (yellowAccept 20 480 0) 20 480
        [[⟨0, 85⟩, ⟨8, 85⟩, ⟨8, 115⟩, ⟨0, 115⟩]])).map visibleTrack
      = some [⟨4, 100⟩]
    ∧ (mergeOverlaps (collectBuffer (fun c => c) (redAccept 20 480) 20 480 [])).map
        visibleTrack = some [] := by
  have ht : Int.tdiv 200 2 = 100 := by decide
  have hB1 : blueAccept 20 480 0 [⟨10, 85⟩, ⟨18, 85⟩, ⟨18, 115⟩, ⟨10, 115⟩] = true := by
    have he : hullExtremes 20 480 [⟨10, 85⟩, ⟨18, 85⟩, ⟨18, 115⟩, ⟨10, 115⟩]
        = ⟨⟨10, 85⟩, ⟨18, 85⟩, ⟨10, 85⟩, ⟨18, 115⟩⟩ := by decide
    rw [blueAccept_iff, he]
    simp only [blobWidth, blobHeight, blobArea, blobYMid, blobXMid, areaLimit]
    push_cast
    refine ⟨⟨ratio_tests_eight_by_thirty.1, le_of_lt ratio_tests_eight_by_thirty.2⟩, ?_⟩
    norm_num [ht]
  have hY1 : yellowAccept 20 480 0 [⟨1, 85⟩, ⟨9, 85⟩, ⟨9, 115⟩, ⟨1, 115⟩] = true := by
    have he : hullExtremes 20 480 [⟨1, 85⟩, ⟨9, 85⟩, ⟨9, 115⟩, ⟨1, 115⟩]
        = ⟨⟨1, 85⟩, ⟨9, 85⟩, ⟨1, 85⟩, ⟨9, 115⟩⟩ := by decide
    rw [yellowAccept_iff, he]
    simp only [blobWidth, blobHeight, blobArea, blobYMid, blobXMid, areaLimit]
    push_cast
    refine ⟨ratio_tests_eight_by_thirty, ?_⟩
    norm_num [ht]
  have hB2 : blueAccept 20 480 0 [⟨9, 85⟩, ⟨17, 85⟩, ⟨17, 115⟩, ⟨9, 115⟩] = true := by
    have he : hullExtremes 20 480 [⟨9, 85⟩, ⟨17, 85⟩, ⟨17, 115⟩, ⟨9, 115⟩]
        = ⟨⟨9, 85⟩, ⟨17, 85⟩, ⟨9, 85⟩, ⟨17, 115⟩⟩ := by decide
    rw [blueAccept_iff, he]
    simp only [blobWidth, blobHeight, blobArea, blobYMid, blobXMid, areaLimit]
    push_cast
    refine ⟨⟨ratio_tests_eight_by_thirty.1, le_of_lt ratio_tests_eight_by_thirty.2⟩, ?_⟩
    norm_num [ht]
  have hY2 : yellowAccept 20 480 0 [⟨0, 85⟩, ⟨8, 85⟩, ⟨8, 115⟩, ⟨0, 115⟩] = true := by
    have he : hullExtremes 20 480 [⟨0, 85⟩, ⟨8, 85⟩, ⟨8, 115⟩, ⟨0, 115⟩]
        = ⟨⟨0, 85⟩, ⟨8, 85⟩, ⟨0, 85⟩, ⟨8, 115⟩⟩ := by decide
    rw [yellowAccept_iff, he]
    simp only [blobWidth, blobHeight, blobArea, blobYMid, blobXMid, areaLimit]
    push_cast
    refine ⟨ratio_tests_eight_by_thirty, ?_⟩
    norm_num [ht]
  refine ⟨?_, ?_, ?_, ?_, by decide⟩
  · rw [collectBuffer_single _ _ _ _ (by decide) hB1]; decide
  · rw [collectBuffer_single _ _ _ _ (by decide) hY1]; decide
  · rw [collectBuffer_single _ _ _ _ (by decide) hB2]; decide
  · rw [collectBuffer_single _ _ _ _ (by decide) hY2]; decide

/-- The ratio tests of the red filter pass for a hull of width 10 and height 21. -/
theorem ratio_tests_ten_by_twentyone :
    roundF32 (10 / 21) < double08 ∧ roundF32 (10 / 21) > double015 := by
  have h1 := roundF32_ge_pow (10 / 21) (-2) (by norm_num) (by norm_num)
  have h2 := roundF32_le_pow (10 / 21) (-2) (by norm_num) (by norm_num)
  have e1 : (2 : ℚ) ^ (-2 : Int) = 1 / 4 := by norm_num
  have e2 : (2 : ℚ) ^ ((-2 : Int) + 1) = 1 / 2 := by norm_num
  rw [e1] at h1
  rw [e2] at h2
  constructor
  · exact lt_of_le_of_lt h2 (by norm_num [double08])
  · exact lt_of_lt_of_le (by norm_num [double015]) h1

/-- C3, evaluated on the code (red class, 640x480 frame, triangles as their own convex
hull).  The three disjoint outlines `(105,100), (100,121), (110,121)`,
`(117,100), (112,121), (122,121)` and `(129,100), (124,121), (134,121)` (each of width
10, height 21) are accepted and give the track `(105,110), (117,110), (129,110), (0,0)`
at line 286.  The merge pass erases entry 1 and then steps over the entry that moved into
its place; at the last index it compares the trailing `(0,0)` with the slot behind the
end, which holds `(0,0)` too, and takes the trailing entry off.  The merged track is
`(105,110), (129,110)`: two adjacent entries 24 px apart in x and 0 px in y.  A second
pass over that track leaves `(105,110)` alone, so the pass is not idempotent. -/
theorem mergeOverlaps_leaves_overlapping_pair :
    visibleTrack (collectBuffer (fun c => c) (redAccept 640 480) 640 480
        [[⟨105, 100⟩, ⟨100, 121⟩, ⟨110, 121⟩],
          [⟨117, 100⟩, ⟨112, 121⟩, ⟨122, 121⟩],
          [⟨129, 100⟩, ⟨124, 121⟩, ⟨134, 121⟩]])
      = [⟨105, 110⟩, ⟨117, 110⟩, ⟨129, 110⟩, ⟨0, 0⟩]
    ∧ (mergeOverlaps (collectBuffer (fun c => c) (redAccept 640 480) 640 480
        [[⟨105, 100⟩, ⟨100, 121⟩, ⟨110, 121⟩],
          [⟨117, 100⟩, ⟨112, 121⟩, ⟨122, 121⟩],
          [⟨129, 100⟩, ⟨124, 121⟩, ⟨134, 121⟩]])).map visibleTrack
      = some [⟨105, 110⟩, ⟨129, 110⟩]
    ∧ overlaps ⟨105, 110⟩ ⟨129, 110⟩ = true
    ∧ ((mergeOverlaps (collectBuffer (fun c => c) (redAccept 640 480) 640 480
        [[⟨105, 100⟩, ⟨100, 121⟩, ⟨110, 121⟩],
          [⟨117, 100⟩, ⟨112, 121⟩, ⟨122, 121⟩],
          [⟨129, 100⟩, ⟨124, 121⟩, ⟨134, 121⟩]])).bind mergeOverlaps).map visibleTrack
      = some [⟨105, 110⟩] := by
  have ht : Int.tdiv 221 2 = 110 := by decide
  have hA : redAccept 640 480 [⟨105, 100⟩, ⟨100, 121⟩, ⟨110, 121⟩] = true := by
    have he : hullExtremes 640 480 [⟨105, 100⟩, ⟨100, 121⟩, ⟨110, 121⟩]
        = ⟨⟨100, 121⟩, ⟨110, 121⟩, ⟨105, 100⟩, ⟨100, 121⟩⟩ := by decide
    rw [redAccept_iff, he]
    simp only [blobWidth, blobHeight, blobArea, blobYMid, areaLimit]
    push_cast
    refine ⟨ratio_tests_ten_by_twentyone, ?_⟩
    norm_num [ht]
  have hB : redAccept 640 480 [⟨117, 100⟩, ⟨112, 121⟩, ⟨122, 121⟩] = true := by
    have he : hullExtremes 640 480 [⟨117, 100⟩, ⟨112, 121⟩, ⟨122, 121⟩]
        = ⟨⟨112, 121⟩, ⟨122, 121⟩, ⟨117, 100⟩, ⟨112, 121⟩⟩ := by decide
    rw [redAccept_iff, he]
    simp only [blobWidth, blobHeight, blobArea, blobYMid, areaLimit]
    push_cast
    refine ⟨ratio_tests_ten_by_twentyone, ?_⟩
    norm_num [ht]
  have hC : redAccept 640 480 [⟨129, 100⟩, ⟨124, 121⟩, ⟨134, 121⟩] = true := by
    have he : hullExtremes 640 480 [⟨129, 100⟩, ⟨124, 121⟩, ⟨134, 121⟩]
        = ⟨⟨124, 121⟩, ⟨134, 121⟩, ⟨129, 100⟩, ⟨124, 121⟩⟩ := by decide
    rw [redAccept_iff, he]
    simp only [blobWidth, blobHeight, blobArea, blobYMid, areaLimit]
    push_cast
    refine ⟨ratio_tests_ten_by_twentyone, ?_⟩
    norm_num [ht]
  have hfilter : acceptedContours (fun c => c) (redAccept 640 480)
      [[⟨105, 100⟩, ⟨100, 121⟩, ⟨110, 121⟩],
          [⟨117, 100⟩, ⟨112, 121⟩, ⟨122, 121⟩],
          [⟨129, 100⟩, ⟨124, 121⟩, ⟨134, 121⟩]]
      = [[⟨105, 100⟩, ⟨100, 121⟩, ⟨110, 121⟩],
          [⟨117, 100⟩, ⟨112, 121⟩, ⟨122, 121⟩],
          [⟨129, 100⟩, ⟨124, 121⟩, ⟨134, 121⟩]] := by
    simp [acceptedContours, hA, hB, hC]
  have hbuf : (collectBuffer (fun c => c) (redAccept 640 480) 640 480
        [[⟨105, 100⟩, ⟨100, 121⟩, ⟨110, 121⟩],
          [⟨117, 100⟩, ⟨112, 121⟩, ⟨122, 121⟩],
          [⟨129, 100⟩, ⟨124, 121⟩, ⟨134, 121⟩]])
      = ⟨[⟨105, 110⟩, ⟨117, 110⟩, ⟨129, 110⟩] ++ List.replicate 37 ⟨0, 0⟩, 4⟩ := by
    rw [collectBuffer_eq _ _ _ _ _ (by rw [hfilter]; decide), hfilter]
    decide
  rw [hbuf]
  decide

end ConeDetection

/-! ## Further properties of the control step -/

namespace LogicControl

open ConeDetection (NearFarPoints subU32 addU32)

/-! ### Longitudinal control -/

theorem baseThrottle_eq_abs (s : ℚ) : baseThrottle s = 0.10 * (1 - |s|) := by
  unfold baseThrottle
  split
  · rename_i h
    rw [abs_of_neg h]; ring
  · rename_i h
    rw [abs_of_nonneg (not_lt.mp h)]; ring

theorem longitudinalControl_no_box (box : KiwiBoundingBox) (reach : Bool) (c pedal : ℚ)
    (h : box.nBox = 0) : longitudinalControl box reach c pedal = pedal := by
  simp [longitudinalControl, h]

/-- With `nBox > 0` the longitudinal control is the obstacle speed control, followed by
the cap at a crossing and by the hard stop. -/
theorem longitudinalControl_box (box : KiwiBoundingBox) (reach : Bool) (c pedal : ℚ)
    (h : box.nBox > 0) :
    longitudinalControl box reach c pedal
      = if box.y ≠ subU32 box.imageHeight 1 ∧ reach = true
            ∧ addU32 box.x box.w > subU32 (box.imageWidth / 2) 1
            ∧ ((box.w * box.h % 4294967296 : Nat) : ℚ)
                > ((box.imageWidth * box.imageHeight % 4294967296 : Nat) : ℚ) / 20 then 0
        else if reach = true ∧ kiwiSpeedControl box c pedal > 0.04 then 0.04
        else kiwiSpeedControl box c pedal := by
  simp only [longitudinalControl, if_pos h, kiwiSpeedControl]

/-- C16 fails as stated: from the initial state a tick that reads an all-zero
`NearFarPoints` with `reachCrossRoad = true` and a bounding box message with `nBox = 0`
emits the pedal `0.10`, which is above `0.04`. -/
theorem crossing_without_box_not_capped :
    (atFrequency sampleLibm initData ⟨0, 0, 0, 0, true⟩ ⟨0, 0, 0, 0, 0, 0, 0⟩).2.pedalPosition
      = 0.10
    ∧ ¬ ((atFrequency sampleLibm initData ⟨0, 0, 0, 0, true⟩
          ⟨0, 0, 0, 0, 0, 0, 0⟩).2.pedalPosition ≤ 0.04) := by
  have hb : blendNear sampleLibm initData ⟨0, 0, 0, 0, true⟩ = (0, 0) := by
    simp [blendNear, initData, truncToInt_zero]
  have hs : (atFrequency sampleLibm initData ⟨0, 0, 0, 0, true⟩
      ⟨0, 0, 0, 0, 0, 0, 0⟩).2.groundSteering = 0 := by
    rw [atFrequency_groundSteering, hb]
    simp [lateralControl]
  have hp : (atFrequency sampleLibm initData ⟨0, 0, 0, 0, true⟩
      ⟨0, 0, 0, 0, 0, 0, 0⟩).2.pedalPosition = 0.10 := by
    rw [atFrequency_pedalPosition, hs, longitudinalControl_no_box _ _ _ _ rfl]
    simp [baseThrottle]
  refine ⟨hp, ?_⟩
  rw [hp]; norm_num

/-- C16, amended: for a control tick with `reachCrossRoad` true and obstacle count
`nBox > 0` the emitted pedal command is at most `0.04`; with `nBox = 0` the crossing
cap is not applied and the emitted pedal command is the base throttle
`0.10 * (1 - |steering|)`. -/
theorem atFrequency_crossing_cap (m : Libm) (data : Data) (nf : NearFarPoints)
    (box : KiwiBoundingBox) (hreach : nf.reachCrossRoad = true) :
    (box.nBox > 0 → (atFrequency m data nf box).2.pedalPosition ≤ 0.04)
    ∧ (box.nBox = 0 → (atFrequency m data nf box).2.pedalPosition
        = 0.10 * (1 - |(atFrequency m data nf box).2.groundSteering|)) := by
  refine ⟨?_, ?_⟩
  · intro h
    rw [atFrequency_pedalPosition, longitudinalControl_box _ _ _ _ h]
    split_ifs with h1 h2
    · norm_num
    · norm_num
    · have : ¬ kiwiSpeedControl box _ _ > 0.04 := fun hk => h2 ⟨hreach, hk⟩
      exact not_lt.mp this
  · intro h
    rw [atFrequency_pedalPosition, longitudinalControl_no_box _ _ _ _ h, baseThrottle_eq_abs]

theorem atFrequency_crossing_cap_witness :
    (atFrequency sampleLibm initData ⟨0, 0, 0, 0, true⟩
      ⟨0, 0, 20, 10, 100, 100, 1⟩).2.pedalPosition ≤ 0.04 :=
  (atFrequency_crossing_cap sampleLibm initData ⟨0, 0, 0, 0, true⟩ ⟨0, 0, 20, 10, 100, 100, 1⟩
    rfl).1 (by decide)

/-- C17 fails as stated: from the initial state a tick that reads an all-zero
`NearFarPoints` (steering `0`, cross product `0`, base throttle `0.10`) and a 20x10 box
in a 100x100 image (2% of the image area) with `nBox = 1` has its pedal set by the
obstacle speed control to `0.2 * (1 - 200/1000) = 0.16`, above the base throttle. -/
theorem kiwiSpeedControl_above_base :
    baseThrottle (atFrequency sampleLibm initData ⟨0, 0, 0, 0, false⟩
      ⟨0, 0, 20, 10, 100, 100, 1⟩).2.groundSteering = 0.10
    ∧ kiwiSpeedControl ⟨0, 0, 20, 10, 100, 100, 1⟩ 0 0.10 = 0.16
    ∧ (atFrequency sampleLibm initData ⟨0, 0, 0, 0, false⟩
        ⟨0, 0, 20, 10, 100, 100, 1⟩).2.pedalPosition = 0.16 := by
  have hb : blendNear sampleLibm initData ⟨0, 0, 0, 0, false⟩ = (0, 0) := by
    simp [blendNear, initData, truncToInt_zero]
  have hs : (atFrequency sampleLibm initData ⟨0, 0, 0, 0, false⟩
      ⟨0, 0, 20, 10, 100, 100, 1⟩).2.groundSteering = 0 := by
    rw [atFrequency_groundSteering, hb]
    simp [lateralControl]
  have hv : desiredVector 0 0 0 0 = (0, 0) := by simp [desiredVector]
  have hc : crossProductZ sampleLibm (0, 0) = 0 := by simp [crossProductZ]
  have hbase : baseThrottle 0 = 0.10 := by simp [baseThrottle]
  have hk : kiwiSpeedControl ⟨0, 0, 20, 10, 100, 100, 1⟩ 0 0.10 = 0.16 := by
    simp [kiwiSpeedControl]
    norm_num
  refine ⟨by rw [hs, hbase], hk, ?_⟩
  rw [atFrequency_pedalPosition, hs, hb, longitudinalControl_box _ _ _ _ (by decide)]
  simp only [hv, hc, hbase, hk]
  norm_num

/-- C17, amended: for a control tick with obstacle count `nBox > 0`, a non-empty image,
box area greater than 1% of the image area and `|cross| < 0.15`, the obstacle speed
control replaces the base throttle by `0.2 * (1 - boxArea / (imageArea/10))`; this value
is below `0.18`, and it does not exceed the base throttle `0.10 * (1 - |steering|)`
exactly when `boxArea / (imageArea/10) >= (1 + |steering|) / 2`.  Without a crossing
ahead it is the emitted pedal command. -/
theorem kiwiSpeedControl_override (m : Libm) (data : Data) (nf : NearFarPoints)
    (box : KiwiBoundingBox) (hn : box.nBox > 0)
    (himg : 0 < box.imageWidth * box.imageHeight % 4294967296)
    (hbox : ((box.w * box.h % 4294967296 : Nat) : ℚ)
      > ((box.imageWidth * box.imageHeight % 4294967296 : Nat) : ℚ) / 100)
    (hc : |crossProductZ m (desiredVector (blendNear m data nf).1 (blendNear m data nf).2
      nf.farX nf.farY)| < 0.15) :
    kiwiSpeedControl box
        (crossProductZ m (desiredVector (blendNear m data nf).1 (blendNear m data nf).2
          nf.farX nf.farY))
        (baseThrottle (atFrequency m data nf box).2.groundSteering)
      = 0.2 * (1 - ((box.w * box.h % 4294967296 : Nat) : ℚ)
          / (((box.imageWidth * box.imageHeight % 4294967296 : Nat) : ℚ) / 10))
    ∧ 0.2 * (1 - ((box.w * box.h % 4294967296 : Nat) : ℚ)
          / (((box.imageWidth * box.imageHeight % 4294967296 : Nat) : ℚ) / 10)) < 0.18
    ∧ (0.2 * (1 - ((box.w * box.h % 4294967296 : Nat) : ℚ)
          / (((box.imageWidth * box.imageHeight % 4294967296 : Nat) : ℚ) / 10))
        ≤ 0.10 * (1 - |(atFrequency m data nf box).2.groundSteering|)
      ↔ (1 + |(atFrequency m data nf box).2.groundSteering|) / 2
        ≤ ((box.w * box.h % 4294967296 : Nat) : ℚ)
          / (((box.imageWidth * box.imageHeight % 4294967296 : Nat) : ℚ) / 10))
    ∧ (nf.reachCrossRoad = false →
        (atFrequency m data nf box).2.pedalPosition
          = 0.2 * (1 - ((box.w * box.h % 4294967296 : Nat) : ℚ)
            / (((box.imageWidth * box.imageHeight % 4294967296 : Nat) : ℚ) / 10))) := by
  have hk : kiwiSpeedControl box
        (crossProductZ m (desiredVector (blendNear m data nf).1 (blendNear m data nf).2
          nf.farX nf.farY))
        (baseThrottle (atFrequency m data nf box).2.groundSteering)
      = 0.2 * (1 - ((box.w * box.h % 4294967296 : Nat) : ℚ)
          / (((box.imageWidth * box.imageHeight % 4294967296 : Nat) : ℚ) / 10)) := by
    simp only [kiwiSpeedControl]
    rw [if_pos ⟨hbox, hc⟩]
  have hpos : (0 : ℚ) < ((box.imageWidth * box.imageHeight % 4294967296 : Nat) : ℚ) := by
    exact_mod_cast himg
  have hratio : (0.1 : ℚ) < ((box.w * box.h % 4294967296 : Nat) : ℚ)
      / (((box.imageWidth * box.imageHeight % 4294967296 : Nat) : ℚ) / 10) := by
    rw [lt_div_iff₀ (by positivity)]
    linarith
  refine ⟨hk, by linarith, ?_, ?_⟩
  · constructor <;> intro h <;> linarith
  · intro hr
    rw [atFrequency_pedalPosition, longitudinalControl_box _ _ _ _ hn, hk]
    simp [hr]

theorem kiwiSpeedControl_override_witness :
    (atFrequency sampleLibm initData ⟨0, 0, 0, 0, false⟩
        ⟨0, 0, 20, 10, 100, 100, 1⟩).2.pedalPosition
      = 0.2 * (1 - (((20 * 10 % 4294967296 : Nat) : ℚ))
          / ((((100 * 100 % 4294967296 : Nat) : ℚ)) / 10)) := by
  have hb : blendNear sampleLibm initData ⟨0, 0, 0, 0, false⟩ = (0, 0) := by
    simp [blendNear, initData, truncToInt_zero]
  have hv : desiredVector 0 0 0 0 = (0, 0) := by simp [desiredVector]
  have hc : crossProductZ sampleLibm (0, 0) = 0 := by simp [crossProductZ]
  refine (kiwiSpeedControl_override sampleLibm initData ⟨0, 0, 0, 0, false⟩
    ⟨0, 0, 20, 10, 100, 100, 1⟩ (by decide) (by decide) (by norm_num) ?_).2.2.2 rfl
  rw [hb]
  simp only [hv, hc]
  norm_num

/-- C18: for a control tick with obstacle count `nBox > 0`, `reachCrossRoad` true,
`boxY != imageHeight - 1`, `boxX + boxW > imageWidth/2 - 1` and
`boxW*boxH > imageArea/20`, all in unsigned 32-bit arithmetic, the emitted pedal command
is `0`, whatever the steering and the earlier throttle rules computed. -/
theorem atFrequency_hard_stop (m : Libm) (data : Data) (nf : NearFarPoints)
    (box : KiwiBoundingBox) (hn : box.nBox > 0) (hreach : nf.reachCrossRoad = true)
    (hy : box.y ≠ subU32 box.imageHeight 1)
    (hx : addU32 box.x box.w > subU32 (box.imageWidth / 2) 1)
    (harea : box.w * box.h % 4294967296
      > (box.imageWidth * box.imageHeight % 4294967296) / 20) :
    (atFrequency m data nf box).2.pedalPosition = 0 := by
  have h20 : box.imageWidth * box.imageHeight % 4294967296
      < 20 * (box.w * box.h % 4294967296) := by omega
  have hq : ((box.w * box.h % 4294967296 : Nat) : ℚ)
      > ((box.imageWidth * box.imageHeight % 4294967296 : Nat) : ℚ) / 20 := by
    have : ((box.imageWidth * box.imageHeight % 4294967296 : Nat) : ℚ)
        < 20 * ((box.w * box.h % 4294967296 : Nat) : ℚ) := by exact_mod_cast h20
    rw [gt_iff_lt, div_lt_iff₀ (by norm_num)]
    linarith
  rw [atFrequency_pedalPosition, longitudinalControl_box _ _ _ _ hn,
    if_pos ⟨hy, hreach, hx, hq⟩]

theorem atFrequency_hard_stop_witness :
    (atFrequency sampleLibm initData ⟨0, 0, 0, 0, true⟩
      ⟨300, 100, 200, 200, 640, 480, 1⟩).2.pedalPosition = 0 :=
  atFrequency_hard_stop sampleLibm initData ⟨0, 0, 0, 0, true⟩ ⟨300, 100, 200, 200, 640, 480, 1⟩
    (by decide) rfl (by decide) (by decide) (by decide)

/-- C20: for a control tick with obstacle count `nBox = 0` the emitted pedal command is
the base throttle `0.10 * (1 - |steering|)`, and the tick (commands and new state) is the
same for every other bounding box message with `nBox = 0` and for either value of
`reachCrossRoad`. -/
theorem atFrequency_no_obstacle (m : Libm) (data : Data) (nf : NearFarPoints)
    (box : KiwiBoundingBox) (hn : box.nBox = 0) :
    (atFrequency m data nf box).2.pedalPosition
      = 0.10 * (1 - |(atFrequency m data nf box).2.groundSteering|)
    ∧ ∀ (x y w h imageWidth imageHeight : Nat) (reach : Bool),
        atFrequency m data ⟨nf.nearX, nf.nearY, nf.farX, nf.farY, reach⟩
            ⟨x, y, w, h, imageWidth, imageHeight, 0⟩
          = atFrequency m data nf box := by
  refine ⟨?_, ?_⟩
  · rw [atFrequency_pedalPosition, longitudinalControl_no_box _ _ _ _ hn, baseThrottle_eq_abs]
  · intro x y w h imageWidth imageHeight reach
    simp only [atFrequency, blendNear, longitudinalControl, hn]
    simp

theorem atFrequency_no_obstacle_witness :
    (atFrequency sampleLibm initData ⟨0, 0, 6, 8, true⟩ ⟨5, 6, 7, 8, 640, 480, 0⟩).2.pedalPosition
      = 0.10 * (1 - |(atFrequency sampleLibm initData ⟨0, 0, 6, 8, true⟩
          ⟨5, 6, 7, 8, 640, 480, 0⟩).2.groundSteering|) :=
  (atFrequency_no_obstacle sampleLibm initData ⟨0, 0, 6, 8, true⟩ ⟨5, 6, 7, 8, 640, 480, 0⟩
    rfl).1

end LogicControl

/-! ## Hull extremes, positional filter and obstacle box -/

namespace ConeDetection

/-! ### Hull extremes scan -/

theorem scan_right (l : List Point) : ∀ e0 : Extremes,
    (∀ p ∈ l, p.x ≤ (l.foldl scanPoint e0).rightMostPoint.x)
    ∧ e0.rightMostPoint.x ≤ (l.foldl scanPoint e0).rightMostPoint.x
    ∧ ((l.foldl scanPoint e0).rightMostPoint.x = e0.rightMostPoint.x
        ∨ ∃ p ∈ l, p.x = (l.foldl scanPoint e0).rightMostPoint.x) := by
  induction l with
  | nil => intro e0; simp
  | cons q l ih =>
    intro e0
    obtain ⟨h1, h2, h3⟩ := ih (scanPoint e0 q)
    have hq : (scanPoint e0 q).rightMostPoint.x = max q.x e0.rightMostPoint.x := by
      simp only [scanPoint]
      split <;> omega
    simp only [List.foldl_cons, List.mem_cons, forall_eq_or_imp, exists_eq_or_imp]
    refine ⟨⟨by omega, h1⟩, by omega, ?_⟩
    rcases h3 with h3 | ⟨p, hp, hpx⟩
    · rcases le_total q.x e0.rightMostPoint.x with h | h
      · left; omega
      · right; left; omega
    · right; right; exact ⟨p, hp, hpx⟩

theorem scan_left (l : List Point) : ∀ e0 : Extremes,
    (∀ p ∈ l, (l.foldl scanPoint e0).leftMostPoint.x ≤ p.x)
    ∧ (l.foldl scanPoint e0).leftMostPoint.x ≤ e0.leftMostPoint.x
    ∧ ((l.foldl scanPoint e0).leftMostPoint.x = e0.leftMostPoint.x
        ∨ ∃ p ∈ l, p.x = (l.foldl scanPoint e0).leftMostPoint.x) := by
  induction l with
  | nil => intro e0; simp
  | cons q l ih =>
    intro e0
    obtain ⟨h1, h2, h3⟩ := ih (scanPoint e0 q)
    have hq : (scanPoint e0 q).leftMostPoint.x = min q.x e0.leftMostPoint.x := by
      simp only [scanPoint]
      split <;> omega
    simp only [List.foldl_cons, List.mem_cons, forall_eq_or_imp, exists_eq_or_imp]
    refine ⟨⟨by omega, h1⟩, by omega, ?_⟩
    rcases h3 with h3 | ⟨p, hp, hpx⟩
    · rcases le_total q.x e0.leftMostPoint.x with h | h
      · right; left; omega
      · left; omega
    · right; right; exact ⟨p, hp, hpx⟩

theorem scan_bottom (l : List Point) : ∀ e0 : Extremes,
    (∀ p ∈ l, p.y ≤ (l.foldl scanPoint e0).bottomPoint.y)
    ∧ e0.bottomPoint.y ≤ (l.foldl scanPoint e0).bottomPoint.y
    ∧ ((l.foldl scanPoint e0).bottomPoint.y = e0.bottomPoint.y
        ∨ ∃ p ∈ l, p.y = (l.foldl scanPoint e0).bottomPoint.y) := by
  induction l with
  | nil => intro e0; simp
  | cons q l ih =>
    intro e0
    obtain ⟨h1, h2, h3⟩ := ih (scanPoint e0 q)
    have hq : (scanPoint e0 q).bottomPoint.y = max q.y e0.bottomPoint.y := by
      simp only [scanPoint]
      split <;> omega
    simp only [List.foldl_cons, List.mem_cons, forall_eq_or_imp, exists_eq_or_imp]
    refine ⟨⟨by omega, h1⟩, by omega, ?_⟩
    rcases h3 with h3 | ⟨p, hp, hpx⟩
    · rcases le_total q.y e0.bottomPoint.y with h | h
      · left; omega
      · right; left; omega
    · right; right; exact ⟨p, hp, hpx⟩

theorem scan_top (l : List Point) : ∀ e0 : Extremes,
    (∀ p ∈ l, (l.foldl scanPoint e0).topPoint.y ≤ p.y)
    ∧ (l.foldl scanPoint e0).topPoint.y ≤ e0.topPoint.y
    ∧ ((l.foldl scanPoint e0).topPoint.y = e0.topPoint.y
        ∨ ∃ p ∈ l, p.y = (l.foldl scanPoint e0).topPoint.y) := by
  induction l with
  | nil => intro e0; simp
  | cons q l ih =>
    intro e0
    obtain ⟨h1, h2, h3⟩ := ih (scanPoint e0 q)
    have hq : (scanPoint e0 q).topPoint.y = min q.y e0.topPoint.y := by
      simp only [scanPoint]
      split <;> omega
    simp only [List.foldl_cons, List.mem_cons, forall_eq_or_imp, exists_eq_or_imp]
    refine ⟨⟨by omega, h1⟩, by omega, ?_⟩
    rcases h3 with h3 | ⟨p, hp, hpx⟩
    · rcases le_total q.y e0.topPoint.y with h | h
      · right; left; omega
      · left; omega
    · right; right; exact ⟨p, hp, hpx⟩

/-- C21: for a non-empty hull whose vertices all have `0 <= x < W` and `0 <= y < H`
(frame sizes below `2^31`), the scan ends with `rightMostPoint.x`, `leftMostPoint.x`,
`bottomPoint.y`, `topPoint.y` equal to the largest and smallest `x` and the largest and
smallest `y` among the vertices; hence `width = max x - min x`,
`height = max y - min y`, `area = width * height`, and the midpoint is
`((max x + min x)/2, (max y + min y)/2)` with integer division. -/
theorem hullExtremes_spec (WIDTH HEIGHT : Nat) (hull : List Point) (hne : hull ≠ [])
    (hW : WIDTH < 2147483648) (hH : HEIGHT < 2147483648)
    (hv : ∀ p ∈ hull, 0 ≤ p.x ∧ p.x < (WIDTH : Int) ∧ 0 ≤ p.y ∧ p.y < (HEIGHT : Int)) :
    ∃ maxX minX maxY minY : Int,
      ((∀ p ∈ hull, p.x ≤ maxX) ∧ ∃ p ∈ hull, p.x = maxX)
      ∧ ((∀ p ∈ hull, minX ≤ p.x) ∧ ∃ p ∈ hull, p.x = minX)
      ∧ ((∀ p ∈ hull, p.y ≤ maxY) ∧ ∃ p ∈ hull, p.y = maxY)
      ∧ ((∀ p ∈ hull, minY ≤ p.y) ∧ ∃ p ∈ hull, p.y = minY)
      ∧ blobWidth (hullExtremes WIDTH HEIGHT hull) = ((maxX - minX : Int) : ℚ)
      ∧ blobHeight (hullExtremes WIDTH HEIGHT hull) = ((maxY - minY : Int) : ℚ)
      ∧ blobArea (hullExtremes WIDTH HEIGHT hull)
          = ((maxX - minX : Int) : ℚ) * ((maxY - minY : Int) : ℚ)
      ∧ blobXMid (hullExtremes WIDTH HEIGHT hull) = (((maxX + minX) / 2 : Int) : ℚ)
      ∧ blobYMid (hullExtremes WIDTH HEIGHT hull) = (((maxY + minY) / 2 : Int) : ℚ) := by
  obtain ⟨q, hq⟩ := List.exists_mem_of_ne_nil hull hne
  have hqv := hv q hq
  obtain ⟨r1, r2, r3⟩ := scan_right hull (initExtremes WIDTH HEIGHT)
  obtain ⟨l1, l2, l3⟩ := scan_left hull (initExtremes WIDTH HEIGHT)
  obtain ⟨b1, b2, b3⟩ := scan_bottom hull (initExtremes WIDTH HEIGHT)
  obtain ⟨t1, t2, t3⟩ := scan_top hull (initExtremes WIDTH HEIGHT)
  have hiW : (initExtremes WIDTH HEIGHT).leftMostPoint.x = (WIDTH : Int) := by
    simp [initExtremes, toI32_of_lt WIDTH hW]
  have hiH : (initExtremes WIDTH HEIGHT).topPoint.y = (HEIGHT : Int) := by
    simp [initExtremes, toI32_of_lt HEIGHT hH]
  have hiR : (initExtremes WIDTH HEIGHT).rightMostPoint.x = 0 := rfl
  have hiB : (initExtremes WIDTH HEIGHT).bottomPoint.y = 0 := rfl
  rw [hiW] at l2 l3
  rw [hiH] at t2 t3
  rw [hiR] at r2 r3
  rw [hiB] at b2 b3
  have hR : ∃ p ∈ hull, p.x = (hullExtremes WIDTH HEIGHT hull).rightMostPoint.x := by
    rcases r3 with h | h
    · exact ⟨q, hq, by have := r1 q hq; unfold hullExtremes; omega⟩
    · exact h
  have hL : ∃ p ∈ hull, p.x = (hullExtremes WIDTH HEIGHT hull).leftMostPoint.x := by
    rcases l3 with h | h
    · exact absurd (l1 q hq) (by omega)
    · exact h
  have hB : ∃ p ∈ hull, p.y = (hullExtremes WIDTH HEIGHT hull).bottomPoint.y := by
    rcases b3 with h | h
    · exact ⟨q, hq, by have := b1 q hq; unfold hullExtremes; omega⟩
    · exact h
  have hT : ∃ p ∈ hull, p.y = (hullExtremes WIDTH HEIGHT hull).topPoint.y := by
    rcases t3 with h | h
    · exact absurd (t1 q hq) (by omega)
    · exact h
  have hxn : 0 ≤ (hullExtremes WIDTH HEIGHT hull).rightMostPoint.x
      + (hullExtremes WIDTH HEIGHT hull).leftMostPoint.x := by
    obtain ⟨p, hp, hpx⟩ := hL
    have := (hv p hp).1
    unfold hullExtremes at hpx ⊢
    omega
  have hyn : 0 ≤ (hullExtremes WIDTH HEIGHT hull).bottomPoint.y
      + (hullExtremes WIDTH HEIGHT hull).topPoint.y := by
    obtain ⟨p, hp, hpy⟩ := hT
    have := (hv p hp).2.2.1
    unfold hullExtremes at hpy ⊢
    omega
  refine ⟨(hullExtremes WIDTH HEIGHT hull).rightMostPoint.x,
    (hullExtremes WIDTH HEIGHT hull).leftMostPoint.x,
    (hullExtremes WIDTH HEIGHT hull).bottomPoint.y,
    (hullExtremes WIDTH HEIGHT hull).topPoint.y,
    ⟨r1, hR⟩, ⟨l1, hL⟩, ⟨b1, hB⟩, ⟨t1, hT⟩, rfl, rfl, rfl, ?_, ?_⟩
  · unfold blobXMid
    rw [Int.tdiv_eq_ediv hxn (by norm_num)]
  · unfold blobYMid
    rw [Int.tdiv_eq_ediv hyn (by norm_num)]

theorem hullExtremes_spec_witness :
    ∃ maxX minX maxY minY : Int,
      ((∀ p ∈ [(⟨100, 100⟩ : Point), ⟨90, 140⟩, ⟨110, 140⟩], p.x ≤ maxX)
        ∧ ∃ p ∈ [(⟨100, 100⟩ : Point), ⟨90, 140⟩, ⟨110, 140⟩], p.x = maxX)
      ∧ ((∀ p ∈ [(⟨100, 100⟩ : Point), ⟨90, 140⟩, ⟨110, 140⟩], minX ≤ p.x)
        ∧ ∃ p ∈ [(⟨100, 100⟩ : Point), ⟨90, 140⟩, ⟨110, 140⟩], p.x = minX)
      ∧ ((∀ p ∈ [(⟨100, 100⟩ : Point), ⟨90, 140⟩, ⟨110, 140⟩], p.y ≤ maxY)
        ∧ ∃ p ∈ [(⟨100, 100⟩ : Point), ⟨90, 140⟩, ⟨110, 140⟩], p.y = maxY)
      ∧ ((∀ p ∈ [(⟨100, 100⟩ : Point), ⟨90, 140⟩, ⟨110, 140⟩], minY ≤ p.y)
        ∧ ∃ p ∈ [(⟨100, 100⟩ : Point), ⟨90, 140⟩, ⟨110, 140⟩], p.y = minY)
      ∧ blobWidth (hullExtremes 640 480 [⟨100, 100⟩, ⟨90, 140⟩, ⟨110, 140⟩])
          = ((maxX - minX : Int) : ℚ)
      ∧ blobHeight (hullExtremes 640 480 [⟨100, 100⟩, ⟨90, 140⟩, ⟨110, 140⟩])
          = ((maxY - minY : Int) : ℚ)
      ∧ blobArea (hullExtremes 640 480 [⟨100, 100⟩, ⟨90, 140⟩, ⟨110, 140⟩])
          = ((maxX - minX : Int) : ℚ) * ((maxY - minY : Int) : ℚ)
      ∧ blobXMid (hullExtremes 640 480 [⟨100, 100⟩, ⟨90, 140⟩, ⟨110, 140⟩])
          = (((maxX + minX) / 2 : Int) : ℚ)
      ∧ blobYMid (hullExtremes 640 480 [⟨100, 100⟩, ⟨90, 140⟩, ⟨110, 140⟩])
          = (((maxY + minY) / 2 : Int) : ℚ) :=
  hullExtremes_spec 640 480 [⟨100, 100⟩, ⟨90, 140⟩, ⟨110, 140⟩] (by decide) (by decide)
    (by decide) (by decide)

/-! ### Positional filter of the boundary markers -/

theorem le_toU32 (y : Int) (h : y < 4294967296) : (y : ℚ) ≤ ((toU32 y : Nat) : ℚ) := by
  have h1 : ((toU32 y : Nat) : Int) = y % 4294967296 := by
    unfold toU32
    exact Int.toNat_of_nonneg (Int.emod_nonneg _ (by norm_num))
  have h2 : y ≤ ((toU32 y : Nat) : Int) := by omega
  exact_mod_cast h2

/-- C22 fails as stated: on a 640x480 frame (ROI height 240, one quarter of it 60) with
`maxYRed = 0` the blue filter accepts the hull `(100,60), (140,60), (120,140)`, whose
midpoint `(120, 100)` is neither above row 60 nor right of `W/2 = 320`; it passes
because `yMid = 100` is below `HEIGHT/4 = 120`. -/
theorem blueAccept_midpoint_below_quarter_roi :
    blueAccept 640 480 0 [⟨100, 60⟩, ⟨140, 60⟩, ⟨120, 140⟩] = true
    ∧ blobXMid (hullExtremes 640 480 [⟨100, 60⟩, ⟨140, 60⟩, ⟨120, 140⟩]) = 120
    ∧ blobYMid (hullExtremes 640 480 [⟨100, 60⟩, ⟨140, 60⟩, ⟨120, 140⟩]) = 100
    ∧ ¬ ((100 : ℚ) < ((480 / 2 / 4 : Nat) : ℚ))
    ∧ ¬ ((120 : ℚ) > ((640 / 2 : Nat) : ℚ)) := by
  have h1 : Int.tdiv 200 2 = 100 := by decide
  have h2 : Int.tdiv 240 2 = 120 := by decide
  refine ⟨?_, ?_, ?_, by norm_num, by norm_num⟩
  · simp [blueAccept, hullExtremes, scanPoint, initExtremes, toI32, blobWidth, blobHeight,
      blobYMid, blobXMid, blobArea, areaLimit, h1]
    norm_num [double08, double015]
    rw [roundF32_half]
    norm_num
  · simp [hullExtremes, scanPoint, initExtremes, toI32, blobXMid, h2]
  · simp [hullExtremes, scanPoint, initExtremes, toI32, blobYMid, h1]

/-- C22, amended: an accepted right (blue) or left (yellow) boundary blob has its
midpoint either above row `HEIGHT/4` (one quarter of the frame height, the upper half of
the ROI) or on the expected side of the vertical centre (`xMid > W/2` for blue,
`xMid < W/2` for yellow), and has `yMid` strictly greater than the y-coordinate of the
first entry of the stop-marker track. -/
theorem boundaryAccept_position (WIDTH HEIGHT : Nat) (redTrack hull : List Point)
    (hy : (entry redTrack 0).y < 4294967296) :
    (blueAccept WIDTH HEIGHT (toU32 (entry redTrack 0).y) hull = true →
      (blobYMid (hullExtremes WIDTH HEIGHT hull) < ((HEIGHT / 4 : Nat) : ℚ)
        ∨ blobXMid (hullExtremes WIDTH HEIGHT hull) > ((WIDTH / 2 : Nat) : ℚ))
      ∧ blobYMid (hullExtremes WIDTH HEIGHT hull) > ((entry redTrack 0).y : ℚ))
    ∧ (yellowAccept WIDTH HEIGHT (toU32 (entry redTrack 0).y) hull = true →
      (blobYMid (hullExtremes WIDTH HEIGHT hull) < ((HEIGHT / 4 : Nat) : ℚ)
        ∨ blobXMid (hullExtremes WIDTH HEIGHT hull) < ((WIDTH / 2 : Nat) : ℚ))
      ∧ blobYMid (hullExtremes WIDTH HEIGHT hull) > ((entry redTrack 0).y : ℚ)) := by
  have hle := le_toU32 _ hy
  refine ⟨?_, ?_⟩
  · intro h
    unfold blueAccept at h
    simp only [] at h
    split at h
    · simp only [decide_eq_true_eq] at h
      exact ⟨h.1, lt_of_le_of_lt hle h.2.2.2⟩
    · simp at h
  · intro h
    unfold yellowAccept at h
    simp only [] at h
    split at h
    · simp only [decide_eq_true_eq] at h
      exact ⟨h.1, lt_of_le_of_lt hle h.2.2.2⟩
    · simp at h

theorem boundaryAccept_position_witness :
    (blobYMid (hullExtremes 640 480 [⟨100, 60⟩, ⟨140, 60⟩, ⟨120, 140⟩]) < ((480 / 4 : Nat) : ℚ)
      ∨ blobXMid (hullExtremes 640 480 [⟨100, 60⟩, ⟨140, 60⟩, ⟨120, 140⟩])
          > ((640 / 2 : Nat) : ℚ))
    ∧ blobYMid (hullExtremes 640 480 [⟨100, 60⟩, ⟨140, 60⟩, ⟨120, 140⟩])
        > ((entry [⟨10, 50⟩] 0).y : ℚ) := by
  have h1 : Int.tdiv 200 2 = 100 := by decide
  have hacc : blueAccept 640 480 (toU32 (entry [⟨10, 50⟩] 0).y)
      [⟨100, 60⟩, ⟨140, 60⟩, ⟨120, 140⟩] = true := by
    have hu : toU32 (entry [⟨10, 50⟩] 0).y = 50 := by decide
    rw [hu]
    simp [blueAccept, hullExtremes, scanPoint, initExtremes, toI32, blobWidth, blobHeight,
      blobYMid, blobXMid, blobArea, areaLimit, h1]
    norm_num [double08, double015]
    rw [roundF32_half]
    norm_num
  exact (boundaryAccept_position 640 480 [⟨10, 50⟩] [⟨100, 60⟩, ⟨140, 60⟩, ⟨120, 140⟩]
    (by decide)).1 hacc

/-! ### Obstacle box in the frame loop -/

theorem truncToU32_natCast (n : Nat) (h : n < 4294967296) : truncToU32 (n : ℚ) = n := by
  unfold truncToU32 toU32
  simp
  omega

/-- C25, evaluated on the code: with `HEIGHT = 480` and the stored box
`boxX = 100, boxY = 300, boxW = 80, boxH = 100`, the first frame leaves
`boxY = 60, boxH = 160` in the stored variables and sets the region
`(x 120, y 60, width 40, height 112)` to black; a second frame with no message in
between starts from these values, leaves `boxY = 0, boxH = 0` and sets the region
`(x 120, y 0, width 40, height 0)` to black.  The stored box is changed by every frame
and the two frames do not black out the same region. -/
theorem frameBox_changes_stored_box :
    (frameBox 480 ⟨100, 300, 80, 100⟩).1 = ⟨100, 60, 80, 160⟩
    ∧ (frameBox 480 ⟨100, 300, 80, 100⟩).2 = ⟨120, 60, 40, 112⟩
    ∧ (frameBox 480 (frameBox 480 ⟨100, 300, 80, 100⟩).1).1 = ⟨100, 0, 80, 0⟩
    ∧ (frameBox 480 (frameBox 480 ⟨100, 300, 80, 100⟩).1).2 = ⟨120, 0, 40, 0⟩
    ∧ (frameBox 480 (frameBox 480 ⟨100, 300, 80, 100⟩).1).2
        ≠ (frameBox 480 ⟨100, 300, 80, 100⟩).2 := by
  have ha1 : adjustBox 480 ⟨100, 300, 80, 100⟩ = ⟨100, 60, 80, 160⟩ := by decide
  have ha2 : adjustBox 480 ⟨100, 60, 80, 160⟩ = ⟨100, 0, 80, 0⟩ := by decide
  have e1 : ((100 : Nat) : ℚ) + 0.25 * ((80 : Nat) : ℚ) = ((120 : Nat) : ℚ) := by norm_num
  have e2 : 0.5 * ((80 : Nat) : ℚ) = ((40 : Nat) : ℚ) := by norm_num
  have e3 : 0.7 * ((160 : Nat) : ℚ) = ((112 : Nat) : ℚ) := by norm_num
  have e4 : 0.7 * ((0 : Nat) : ℚ) = ((0 : Nat) : ℚ) := by norm_num
  have t120 : toI32 (truncToU32 ((120 : Nat) : ℚ)) = 120 := by
    rw [truncToU32_natCast _ (by decide)]; decide
  have t40 : toI32 (truncToU32 ((40 : Nat) : ℚ)) = 40 := by
    rw [truncToU32_natCast _ (by decide)]; decide
  have t112 : toI32 (truncToU32 ((112 : Nat) : ℚ)) = 112 := by
    rw [truncToU32_natCast _ (by decide)]; decide
  have t0 : toI32 (truncToU32 ((0 : Nat) : ℚ)) = 0 := by
    rw [truncToU32_natCast _ (by decide)]; decide
  have hr1 : obstacleRegion ⟨100, 60, 80, 160⟩ = ⟨120, 60, 40, 112⟩ := by
    simp only [obstacleRegion, e1, e2, e3, t120, t40, t112]
    have : toI32 60 = 60 := by decide
    rw [this]
  have hr2 : obstacleRegion ⟨100, 0, 80, 0⟩ = ⟨120, 0, 40, 0⟩ := by
    simp only [obstacleRegion, e1, e2, e4, t120, t40, t0]
    have : toI32 0 = 0 := by decide
    rw [this]
  simp only [frameBox, ha1, ha2, hr1, hr2]
  decide

end ConeDetection

/-! ## Bounds on the commands -/

namespace LogicControl

open ConeDetection (NearFarPoints subU32 addU32)

theorem lateralControl_abs_le (farX nearX : Int) (c d p : ℚ) (hc : |c| ≤ 1) (hp : |p| ≤ 1) :
    |lateralControl farX nearX c d p| ≤ 0.30 := by
  have hc' := abs_le.mp hc
  have hp' := abs_le.mp hp
  unfold lateralControl
  simp only []
  rw [abs_le]
  split_ifs <;> constructor <;> norm_num <;> linarith [hc'.1, hc'.2, hp'.1, hp'.2]

theorem crossProductZ_abs_le (m : Libm) (k1 k2 : Int)
    (hsq : |(k2 : ℚ)| ≤ m.sqrt ((k1 : ℚ) * (k1 : ℚ) + (k2 : ℚ) * (k2 : ℚ))) :
    |crossProductZ m ((k1 : ℚ), (k2 : ℚ))| ≤ 1 := by
  have hc : crossProductZ m ((k1 : ℚ), (k2 : ℚ))
      = (k2 : ℚ) / desiredVectorLength m ((k1 : ℚ), (k2 : ℚ)) := by
    simp [crossProductZ]
  rw [hc]
  unfold desiredVectorLength
  simp only []
  split
  · rename_i hlt
    have h1 : |(k2 : ℚ)| < 1 := by
      have : (0.01 : ℚ) < 1 := by norm_num
      linarith
    have h2 : |k2| < 1 := by exact_mod_cast h1
    have h3 : k2 = 0 := by
      have := abs_lt.mp h2
      omega
    simp [h3]
  · rename_i hge
    have hs : (0.01 : ℚ) ≤ m.sqrt ((k1 : ℚ) * (k1 : ℚ) + (k2 : ℚ) * (k2 : ℚ)) := not_lt.mp hge
    have hpos : (0 : ℚ) < m.sqrt ((k1 : ℚ) * (k1 : ℚ) + (k2 : ℚ) * (k2 : ℚ)) := by
      have : (0 : ℚ) < 0.01 := by norm_num
      linarith
    rw [abs_div, abs_of_pos hpos, div_le_one hpos]
    exact hsq

/-- C23: in exact arithmetic, for a control tick whose square root returns at least
`|desiredVectorY|` on `desiredVectorX^2 + desiredVectorY^2` (as the real square root
does): if the stored previous cross product `p` has `|p| <= 1`, then the new cross
product `c`, which the tick stores as previous cross product, has `|c| <= 1`, and the
steering command has `|steering| <= 0.30`, for every `NearFarPoints` and bounding box.
The length that divides is always positive; for the desired vector `(0,0)` the cross
product is `0`, and the length `1` is substituted when the square root of `0` is below
`0.01`. -/
theorem atFrequency_cross_invariant (m : Libm) (data : Data) (nf : NearFarPoints)
    (box : KiwiBoundingBox) (hp : |data.previousCrossProduct| ≤ 1)
    (hsq : |(desiredVector (blendNear m data nf).1 (blendNear m data nf).2 nf.farX nf.farY).2|
      ≤ m.sqrt
        ((desiredVector (blendNear m data nf).1 (blendNear m data nf).2 nf.farX nf.farY).1
          * (desiredVector (blendNear m data nf).1 (blendNear m data nf).2 nf.farX nf.farY).1
        + (desiredVector (blendNear m data nf).1 (blendNear m data nf).2 nf.farX nf.farY).2
          * (desiredVector (blendNear m data nf).1 (blendNear m data nf).2
              nf.farX nf.farY).2)) :
    |crossProductZ m (desiredVector (blendNear m data nf).1 (blendNear m data nf).2
        nf.farX nf.farY)| ≤ 1
    ∧ |(atFrequency m data nf box).1.previousCrossProduct| ≤ 1
    ∧ |(atFrequency m data nf box).2.groundSteering| ≤ 0.30
    ∧ 0 < desiredVectorLength m
        (desiredVector (blendNear m data nf).1 (blendNear m data nf).2 nf.farX nf.farY)
    ∧ (desiredVector (blendNear m data nf).1 (blendNear m data nf).2 nf.farX nf.farY = (0, 0) →
        crossProductZ m (desiredVector (blendNear m data nf).1 (blendNear m data nf).2
          nf.farX nf.farY) = 0
        ∧ (m.sqrt 0 < 0.01 →
          desiredVectorLength m (desiredVector (blendNear m data nf).1
            (blendNear m data nf).2 nf.farX nf.farY) = 1)) := by
  have hc : |crossProductZ m (desiredVector (blendNear m data nf).1 (blendNear m data nf).2
      nf.farX nf.farY)| ≤ 1 := crossProductZ_abs_le m _ _ hsq
  refine ⟨hc, hc, ?_, desiredVectorLength_pos m _, ?_⟩
  · rw [atFrequency_groundSteering]
    exact lateralControl_abs_le _ _ _ _ _ hc hp
  · intro hv
    rw [hv]
    refine ⟨by simp [crossProductZ], ?_⟩
    intro h0
    simp [desiredVectorLength, h0]

theorem atFrequency_cross_invariant_witness :
    |crossProductZ sampleLibm
        (desiredVector (blendNear sampleLibm initData ⟨0, 0, 6, 8, false⟩).1
          (blendNear sampleLibm initData ⟨0, 0, 6, 8, false⟩).2 6 8)| ≤ 1
    ∧ |(atFrequency sampleLibm initData ⟨0, 0, 6, 8, false⟩
        ⟨0, 0, 0, 0, 0, 0, 0⟩).2.groundSteering| ≤ 0.30 := by
  have hb : blendNear sampleLibm initData ⟨0, 0, 6, 8, false⟩ = (0, 0) := by
    simp [blendNear, initData, truncToInt_zero]
  have hv : desiredVector 0 0 6 8 = (3, 4) := by
    have h1 : Int.tdiv 6 2 = 3 := by decide
    have h2 : Int.tdiv 8 2 = 4 := by decide
    simp [desiredVector, h1, h2]
  have hs : Nat.sqrt (Int.toNat 25) = 5 := Nat.sqrt_eq 5
  have h := atFrequency_cross_invariant sampleLibm initData ⟨0, 0, 6, 8, false⟩
    ⟨0, 0, 0, 0, 0, 0, 0⟩ (by norm_num [initData]) (by
      rw [hb]
      show |(desiredVector 0 0 6 8).2| ≤ sampleLibm.sqrt
        ((desiredVector 0 0 6 8).1 * (desiredVector 0 0 6 8).1
          + (desiredVector 0 0 6 8).2 * (desiredVector 0 0 6 8).2)
      rw [hv]
      norm_num [sampleLibm, hs, abs_of_pos])
  exact ⟨h.1, h.2.2.1⟩

/-- C24 fails as stated: from the initial state (previous cross product `0`) a tick that
reads an all-zero `NearFarPoints` and a 50x50 box in a 100x100 image (25% of the image
area) with `nBox = 1` emits the pedal `0.2 * (1 - 2500/1000) = -0.3`. -/
theorem pedal_negative_for_large_box :
    |initData.previousCrossProduct| ≤ 1
    ∧ (atFrequency sampleLibm initData ⟨0, 0, 0, 0, false⟩
        ⟨0, 0, 50, 50, 100, 100, 1⟩).2.pedalPosition = -0.3
    ∧ ¬ (0 ≤ (atFrequency sampleLibm initData ⟨0, 0, 0, 0, false⟩
        ⟨0, 0, 50, 50, 100, 100, 1⟩).2.pedalPosition) := by
  have hb : blendNear sampleLibm initData ⟨0, 0, 0, 0, false⟩ = (0, 0) := by
    simp [blendNear, initData, truncToInt_zero]
  have hs : (atFrequency sampleLibm initData ⟨0, 0, 0, 0, false⟩
      ⟨0, 0, 50, 50, 100, 100, 1⟩).2.groundSteering = 0 := by
    rw [atFrequency_groundSteering, hb]
    simp [lateralControl]
  have hv : desiredVector 0 0 0 0 = (0, 0) := by simp [desiredVector]
  have hc : crossProductZ sampleLibm (0, 0) = 0 := by simp [crossProductZ]
  have hk : kiwiSpeedControl ⟨0, 0, 50, 50, 100, 100, 1⟩ 0 (baseThrottle 0) = -0.3 := by
    simp [kiwiSpeedControl]
    norm_num
  have hp : (atFrequency sampleLibm initData ⟨0, 0, 0, 0, false⟩
      ⟨0, 0, 50, 50, 100, 100, 1⟩).2.pedalPosition = -0.3 := by
    rw [atFrequency_pedalPosition, hs, hb, longitudinalControl_box _ _ _ _ (by decide)]
    simp only [hv, hc, hk]
    norm_num
  refine ⟨by norm_num [initData], hp, ?_⟩
  rw [hp]; norm_num

/-- C24, amended: for a control state with `|previousCrossProduct| <= 1` and a tick
whose square root returns at least `|desiredVectorY|` (as the real square root does), the
emitted pedal command is at most `0.2` for every `NearFarPoints` and bounding box; it is
non-negative when `nBox = 0` or the box area is at most one tenth of the image area; it
is negative, `0.2 * (1 - boxArea / (imageArea/10))`, when `nBox > 0`, no crossing is
ahead, `|cross| < 0.15` and the box area exceeds one tenth of a non-empty image. -/
theorem atFrequency_pedal_bounds (m : Libm) (data : Data) (nf : NearFarPoints)
    (box : KiwiBoundingBox) (hp : |data.previousCrossProduct| ≤ 1)
    (hsq : |(desiredVector (blendNear m data nf).1 (blendNear m data nf).2 nf.farX nf.farY).2|
      ≤ m.sqrt
        ((desiredVector (blendNear m data nf).1 (blendNear m data nf).2 nf.farX nf.farY).1
          * (desiredVector (blendNear m data nf).1 (blendNear m data nf).2 nf.farX nf.farY).1
        + (desiredVector (blendNear m data nf).1 (blendNear m data nf).2 nf.farX nf.farY).2
          * (desiredVector (blendNear m data nf).1 (blendNear m data nf).2
              nf.farX nf.farY).2)) :
    (atFrequency m data nf box).2.pedalPosition ≤ 0.2
    ∧ ((box.nBox = 0
        ∨ ((box.w * box.h % 4294967296 : Nat) : ℚ)
          ≤ ((box.imageWidth * box.imageHeight % 4294967296 : Nat) : ℚ) / 10) →
      0 ≤ (atFrequency m data nf box).2.pedalPosition)
    ∧ (box.nBox > 0 → nf.reachCrossRoad = false →
        |crossProductZ m (desiredVector (blendNear m data nf).1 (blendNear m data nf).2
          nf.farX nf.farY)| < 0.15 →
        0 < box.imageWidth * box.imageHeight % 4294967296 →
        ((box.w * box.h % 4294967296 : Nat) : ℚ)
          > ((box.imageWidth * box.imageHeight % 4294967296 : Nat) : ℚ) / 10 →
        (atFrequency m data nf box).2.pedalPosition
            = 0.2 * (1 - ((box.w * box.h % 4294967296 : Nat) : ℚ)
              / (((box.imageWidth * box.imageHeight % 4294967296 : Nat) : ℚ) / 10))
        ∧ (atFrequency m data nf box).2.pedalPosition < 0) := by
  have hc : |crossProductZ m (desiredVector (blendNear m data nf).1 (blendNear m data nf).2
      nf.farX nf.farY)| ≤ 1 := crossProductZ_abs_le m _ _ hsq
  have hs : |(atFrequency m data nf box).2.groundSteering| ≤ 0.30 := by
    rw [atFrequency_groundSteering]
    exact lateralControl_abs_le _ _ _ _ _ hc hp
  have hs0 : 0 ≤ |(atFrequency m data nf box).2.groundSteering| := abs_nonneg _
  have hbase := baseThrottle_eq_abs (atFrequency m data nf box).2.groundSteering
  have hb0 : (0 : ℚ) ≤ ((box.w * box.h % 4294967296 : Nat) : ℚ) := Nat.cast_nonneg _
  have hi0 : (0 : ℚ) ≤ ((box.imageWidth * box.imageHeight % 4294967296 : Nat) : ℚ) :=
    Nat.cast_nonneg _
  have hr0 : (0 : ℚ) ≤ ((box.w * box.h % 4294967296 : Nat) : ℚ)
      / (((box.imageWidth * box.imageHeight % 4294967296 : Nat) : ℚ) / 10) :=
    div_nonneg hb0 (div_nonneg hi0 (by norm_num))
  refine ⟨?_, ?_, ?_⟩
  · rw [atFrequency_pedalPosition]
    by_cases hn : box.nBox > 0
    · rw [longitudinalControl_box _ _ _ _ hn]
      split_ifs with h1 h2
      · norm_num
      · norm_num
      · unfold kiwiSpeedControl
        simp only []
        split_ifs
        · linarith
        · rw [hbase]; linarith
    · rw [longitudinalControl_no_box _ _ _ _ (by omega), hbase]
      linarith
  · intro h
    rw [atFrequency_pedalPosition]
    by_cases hn : box.nBox > 0
    · have hle : ((box.w * box.h % 4294967296 : Nat) : ℚ)
          ≤ ((box.imageWidth * box.imageHeight % 4294967296 : Nat) : ℚ) / 10 := by
        rcases h with h | h
        · omega
        · exact h
      rw [longitudinalControl_box _ _ _ _ hn]
      split_ifs with h1 h2
      · norm_num
      · norm_num
      · unfold kiwiSpeedControl
        simp only []
        split_ifs
        · have hr1 : ((box.w * box.h % 4294967296 : Nat) : ℚ)
              / (((box.imageWidth * box.imageHeight % 4294967296 : Nat) : ℚ) / 10) ≤ 1 :=
            div_le_one_of_le₀ hle (div_nonneg hi0 (by norm_num))
          linarith
        · rw [hbase]; linarith
    · rw [longitudinalControl_no_box _ _ _ _ (by omega), hbase]
      linarith
  · intro hn hr hcs himg hbig
    have hpos : (0 : ℚ) < ((box.imageWidth * box.imageHeight % 4294967296 : Nat) : ℚ) := by
      exact_mod_cast himg
    have hgt : ((box.w * box.h % 4294967296 : Nat) : ℚ)
        > ((box.imageWidth * box.imageHeight % 4294967296 : Nat) : ℚ) / 100 := by linarith
    have hr1 : 1 < ((box.w * box.h % 4294967296 : Nat) : ℚ)
        / (((box.imageWidth * box.imageHeight % 4294967296 : Nat) : ℚ) / 10) := by
      rw [one_lt_div (by positivity)]
      exact hbig
    have hk : kiwiSpeedControl box
        (crossProductZ m (desiredVector (blendNear m data nf).1 (blendNear m data nf).2
          nf.farX nf.farY))
        (baseThrottle (atFrequency m data nf box).2.groundSteering)
        = 0.2 * (1 - ((box.w * box.h % 4294967296 : Nat) : ℚ)
            / (((box.imageWidth * box.imageHeight % 4294967296 : Nat) : ℚ) / 10)) := by
      simp only [kiwiSpeedControl]
      rw [if_pos ⟨hgt, hcs⟩]
    have hpe : (atFrequency m data nf box).2.pedalPosition
        = 0.2 * (1 - ((box.w * box.h % 4294967296 : Nat) : ℚ)
            / (((box.imageWidth * box.imageHeight % 4294967296 : Nat) : ℚ) / 10)) := by
      rw [atFrequency_pedalPosition, longitudinalControl_box _ _ _ _ hn, hk]
      simp [hr]
    refine ⟨hpe, ?_⟩
    rw [hpe]; linarith

theorem atFrequency_pedal_bounds_witness :
    (atFrequency sampleLibm initData ⟨0, 0, 6, 8, false⟩
      ⟨0, 0, 0, 0, 0, 0, 0⟩).2.pedalPosition ≤ 0.2
    ∧ 0 ≤ (atFrequency sampleLibm initData ⟨0, 0, 6, 8, false⟩
      ⟨0, 0, 0, 0, 0, 0, 0⟩).2.pedalPosition := by
  have hb : blendNear sampleLibm initData ⟨0, 0, 6, 8, false⟩ = (0, 0) := by
    simp [blendNear, initData, truncToInt_zero]
  have hv : desiredVector 0 0 6 8 = (3, 4) := by
    have h1 : Int.tdiv 6 2 = 3 := by decide
    have h2 : Int.tdiv 8 2 = 4 := by decide
    simp [desiredVector, h1, h2]
  have hs : Nat.sqrt (Int.toNat 25) = 5 := Nat.sqrt_eq 5
  have h := atFrequency_pedal_bounds sampleLibm initData ⟨0, 0, 6, 8, false⟩
    ⟨0, 0, 0, 0, 0, 0, 0⟩ (by norm_num [initData]) (by
      rw [hb]
      show |(desiredVector 0 0 6 8).2| ≤ sampleLibm.sqrt
        ((desiredVector 0 0 6 8).1 * (desiredVector 0 0 6 8).1
          + (desiredVector 0 0 6 8).2 * (desiredVector 0 0 6 8).2)
      rw [hv]
      norm_num [sampleLibm, hs, abs_of_pos])
  exact ⟨h.1, h.2.1 (Or.inl rfl)⟩

end LogicControl
